import Mathlib

/-!
Verification development for the plan/execute/replan agent repository.

Shallow embedding of:
  * `planner.py`  — JSON-plan normalisation pipeline and forbidden-tool
    enforcement (modelled over a concrete JSON value type `JVal`);
  * `plan_types.py` — the typed `Plan` / `PlanStep` data model;
  * `planner_executor.py` — step ordering (Kahn topological sort),
    tool-step execution, and the replanning controller;
  * `orchestrator/orchestrator.py` (plus `context.py`, `models.py`) —
    the work-item DAG orchestrator.

Python dictionaries are modelled as ordered association lists (insertion
order preserved, first occurrence wins on lookup, in-place replacement on
key update), matching CPython dict semantics for the dictionaries that
actually arise in this code (which never carry duplicate keys).
-/

set_option maxHeartbeats 1000000

/-- JSON values as produced by `json.loads`: the data the planner pipeline
manipulates.  Objects are ordered association lists. -/
inductive JVal where
  | null : JVal
  | bool : Bool → JVal
  | num : Int → JVal
  | str : String → JVal
  | arr : List JVal → JVal
  | obj : List (String × JVal) → JVal
deriving Repr, Inhabited

mutual

/-- Structural (Python `==`-style) equality on `JVal`. -/
def JVal.beq : JVal → JVal → Bool
  | .null, .null => true
  | .bool a, .bool b => a == b
  | .num a, .num b => a == b
  | .str a, .str b => a == b
  | .arr a, .arr b => JVal.beqList a b
  | .obj a, .obj b => JVal.beqFields a b
  | _, _ => false

/-- Elementwise equality of JSON arrays. -/
def JVal.beqList : List JVal → List JVal → Bool
  | [], [] => true
  | x :: xs, y :: ys => JVal.beq x y && JVal.beqList xs ys
  | _, _ => false

/-- Pairwise equality of JSON object fields. -/
def JVal.beqFields : List (String × JVal) → List (String × JVal) → Bool
  | [], [] => true
  | (k, v) :: xs, (k', v') :: ys => k == k' && JVal.beq v v' && JVal.beqFields xs ys
  | _, _ => false

end

/-- Python `dict.get(k)` on a JSON object: first binding of the key, if any. -/
def JVal.get? : JVal → String → Option JVal
  | .obj fields, k => fields.lookup k
  | _, _ => none

/-- Python `dict.get(k, d)`: lookup with a default. -/
def JVal.getD (v : JVal) (k : String) (d : JVal) : JVal :=
  (v.get? k).getD d

/-- Replace the binding of `k` in place (CPython keeps the key position), or
append a new binding at the end when the key is absent: Python
`d[k] = v` on an ordered dict. -/
def setAssoc {α : Type} : List (String × α) → String → α → List (String × α)
  | [], k, v => [(k, v)]
  | (k', v') :: rest, k, v =>
      if k' = k then (k, v) :: rest else (k', v') :: setAssoc rest k v

/-- Python `d[k] = v` on a JSON object (no-op on non-objects, which the
pipeline never reaches). -/
def JVal.setKey : JVal → String → JVal → JVal
  | .obj fields, k, v => .obj (setAssoc fields k v)
  | x, _, _ => x

/-- Python `isinstance(v, dict)`. -/
def JVal.isDict : JVal → Bool
  | .obj _ => true
  | _ => false

/-- Python truthiness of a JSON value (`bool(v)`). -/
def JVal.truthy : JVal → Bool
  | .null => false
  | .bool b => b
  | .num n => n != 0
  | .str s => s ≠ ""
  | .arr xs => !xs.isEmpty
  | .obj fields => !fields.isEmpty

/-- Correctness of `JVal.beq`: it decides structural equality. -/
theorem JVal.beq_eq_true_iff : ∀ a b : JVal, JVal.beq a b = true ↔ a = b :=
  @JVal.rec (fun a => ∀ b, JVal.beq a b = true ↔ a = b)
    (fun xs => ∀ ys, JVal.beqList xs ys = true ↔ xs = ys)
    (fun fs => ∀ gs, JVal.beqFields fs gs = true ↔ fs = gs)
    (fun p => ∀ q, JVal.beq p.2 q = true ↔ p.2 = q)
    (by intro b; cases b <;> simp [JVal.beq])
    (by intro x b; cases b <;> simp [JVal.beq])
    (by intro x b; cases b <;> simp [JVal.beq])
    (by intro x b; cases b <;> simp [JVal.beq])
    (by intro xs ih b; cases b <;> simp [JVal.beq, ih])
    (by intro fs ih b; cases b <;> simp [JVal.beq, ih])
    (by intro ys; cases ys <;> simp [JVal.beqList])
    (by intro x xs ihx ihxs ys; cases ys <;> simp [JVal.beqList, ihx, ihxs])
    (by intro gs; cases gs <;> simp [JVal.beqFields])
    (by
      intro p fs ihp ihfs gs
      obtain ⟨k, v⟩ := p
      cases gs with
      | nil => simp [JVal.beqFields]
      | cons q qs =>
        obtain ⟨k', v'⟩ := q
        simp [JVal.beqFields, ihp, ihfs, and_assoc])
    (by intro k v ih; exact ih)

instance : DecidableEq JVal := fun a b => decidable_of_iff _ (JVal.beq_eq_true_iff a b)

instance : BEq JVal := ⟨JVal.beq⟩

instance : LawfulBEq JVal where
  eq_of_beq h := (JVal.beq_eq_true_iff _ _).mp h
  rfl := (JVal.beq_eq_true_iff _ _).mpr rfl

/-- Substring test (`pat in s` in Python, for non-empty `pat`). -/
def strContainsSub (s pat : String) : Bool :=
  decide ((s.splitOn pat).length > 1)

/-! ## planner.py — the normalisation pipeline -/

/-- The registered tool names: `TOOLS.keys()` from tools.py. -/
def allowedToolNames : List String :=
  ["always_fail", "get_time", "get_weather", "fetch_url", "summarize_text"]

/-- Is the given JSON value the name of a registered tool?  This is
`tool in allowed` with `allowed = set(TOOLS.keys())`; a non-string value is
never a member of a set of strings. -/
def isAllowedToolVal (v : JVal) : Bool :=
  match v with
  | .str t => allowedToolNames.contains t
  | _ => false

mutual

/-- `Planner._contains_ref` (planner.py lines 343-356) on a JSON value:
objects are checked for a literal `$ref` key and then recursively on their
values, arrays elementwise, and strings for (lower-cased) `$ref` or a
`steps/`-plus-`result` symbolic reference. -/
def containsRef : JVal → Bool
  | .obj fields => fields.any (fun kv => kv.1 == "$ref") || containsRefFields fields
  | .arr xs => containsRefList xs
  | .str s =>
      strContainsSub s.toLower "$ref" ||
        (strContainsSub s.toLower "steps/" && strContainsSub s.toLower "result")
  | _ => false

/-- `_contains_ref` over the elements of a JSON array. -/
def containsRefList : List JVal → Bool
  | [] => false
  | x :: xs => containsRef x || containsRefList xs

/-- `_contains_ref` over the values of a JSON object. -/
def containsRefFields : List (String × JVal) → Bool
  | [] => false
  | kv :: rest => containsRef kv.2 || containsRefFields rest

end

/-- Python iteration over the value of `plan["steps"]` as `_ensure_step_fields`
enumerates it: lists iterate over their elements, strings over 1-character
strings, dicts over their keys; other JSON values raise `TypeError`.
(Non-list iterables yield no dict elements, so they survive as an empty
step list.) -/
def pyIter : JVal → Except String (List JVal)
  | .arr xs => .ok xs
  | .str s => .ok (s.toList.map (fun c => JVal.str (String.singleton c)))
  | .obj fields => .ok (fields.map (fun kv => JVal.str kv.1))
  | _ => .error "TypeError: object is not iterable"

/-- One raw step rebuilt by `Planner._ensure_step_fields` (planner.py lines
475-508); `i` is the index of the step in the raw list (used for the
defaulted id `step_{i+1}`). -/
def ensureOneStep (i : Nat) (s : JVal) : JVal :=
  let tool := s.getD "tool" .null
  let args0 := s.getD "args" .null
  let req0 := s.getD "requires" (.arr [])
  let req := match req0 with
    | .arr _ => req0
    | other => .arr [other]
  let args := if tool = .null then JVal.null
    else match args0 with
      | .obj _ => args0
      | _ => .obj []
  .obj [("id", s.getD "id" (.str ("step_" ++ toString (i + 1)))),
        ("description", s.getD "description" (.str "")),
        ("tool", tool),
        ("args", args),
        ("requires", req)]

/-- `Planner._ensure_step_fields`: drop non-dict steps, rebuild every dict
step with exactly the five canonical fields. -/
def ensureStepFields (plan : JVal) : Except String JVal := do
  let raw ← pyIter (plan.getD "steps" (.arr []))
  let out := raw.enum.filterMap (fun is =>
    if is.2.isDict then some (ensureOneStep is.1 is.2) else none)
  return plan.setKey "steps" (.arr out)

/-- `Planner._coerce_unknown_tools_to_none` on one step: a null tool forces
null args; an unregistered (or non-string) tool is coerced to null
tool/args and the step is marked `_coerced_unknown_tool`. -/
def coerceOneStep (s : JVal) : JVal :=
  let tool := s.getD "tool" .null
  if tool = .null then s.setKey "args" .null
  else if isAllowedToolVal tool then s
  else ((s.setKey "tool" .null).setKey "args" .null).setKey "_coerced_unknown_tool" (.bool true)

/-- `Planner._coerce_unknown_tools_to_none` (planner.py lines 510-526). -/
def coerceUnknownToolsToNone (plan : JVal) : JVal :=
  match plan.getD "steps" (.arr []) with
  | .arr steps => plan.setKey "steps" (.arr (steps.map coerceOneStep))
  | _ => plan

/-- The compose step appended by `_ensure_compose_answer` /
`_prune_intermediate_non_tool_steps` when absent. -/
def composeStepNew : JVal :=
  .obj [("id", .str "compose_answer"),
        ("description", .str "Reads all previous step results and produces one coherent answer."),
        ("tool", .null),
        ("args", .null),
        ("requires", .arr [])]

/-- Does the step carry id `compose_answer` (`s.get("id") == "compose_answer"`)? -/
def hasComposeId (s : JVal) : Bool :=
  s.getD "id" .null == .str "compose_answer"

/-- The compose-step test of `_ensure_compose_answer`
(`isinstance(s, dict) and s.get("id") == "compose_answer"`). -/
def isComposeStep (s : JVal) : Bool :=
  s.isDict && hasComposeId s

/-- `Planner._ensure_compose_answer` (planner.py lines 528-541). -/
def ensureComposeAnswer (plan : JVal) : JVal :=
  match plan.getD "steps" (.arr []) with
  | .arr steps =>
      if steps.any isComposeStep then plan.setKey "steps" (.arr steps)
      else plan.setKey "steps" (.arr (steps ++ [composeStepNew]))
  | _ => plan

/-- `Planner._prune_intermediate_non_tool_steps` (planner.py lines 543-579):
keep tool steps and coerced-unknown steps in order, then the (first)
compose step with tool/args forced to null, dropping every other
intermediate non-tool step. -/
def pruneIntermediateNonToolSteps (plan : JVal) : JVal :=
  match plan.getD "steps" (.arr []) with
  | .arr steps =>
      let toolSteps := steps.filter (fun s =>
        !hasComposeId s && s.getD "tool" .null != .null)
      let coercedUnknown := steps.filter (fun s =>
        !hasComposeId s && s.getD "tool" .null == .null &&
          s.getD "_coerced_unknown_tool" .null == .bool true)
      let compose := match steps.find? hasComposeId with
        | some c => (c.setKey "tool" .null).setKey "args" .null
        | none => composeStepNew
      plan.setKey "steps" (.arr (toolSteps ++ coercedUnknown ++ [compose]))
  | _ => plan

/-- Hashability of a JSON value as a Python dict/set member (lists and dicts
are unhashable; building the id set raises on them). -/
def isHashable : JVal → Bool
  | .arr _ => false
  | .obj _ => false
  | _ => true

/-- The per-step requires filter of `_sanitize_requires`: keep entries that
are strings naming a real step id distinct from the step's own id. -/
def sanitizeOneStep (ids : List JVal) (s : JVal) : JVal :=
  let req := match s.getD "requires" (.arr []) with
    | .arr xs => xs
    | _ => []
  let sid := s.getD "id" .null
  s.setKey "requires" (.arr (req.filter (fun r =>
    match r with
    | .str _ => ids.contains r && r != sid
    | _ => false)))

/-- The recomputed compose requires of `_sanitize_requires`: the ids of all
steps other than `compose_answer` that carry a tool. -/
def composeRequiresOf (steps : List JVal) : List JVal :=
  steps.filterMap (fun s =>
    if s.getD "id" .null != .str "compose_answer" && s.getD "tool" .null != .null
    then some (s.getD "id" .null) else none)

/-- Update the first list element satisfying `p` (Python mutates the dict
found by `next(...)` in place). -/
def updateFirst (p : JVal → Bool) (f : JVal → JVal) : List JVal → List JVal
  | [] => []
  | x :: xs => if p x then f x :: xs else x :: updateFirst p f xs

/-- `Planner._sanitize_requires` (planner.py lines 581-599).  Building the
Python id *set* raises `TypeError` when a step id is unhashable; otherwise
every step's requires list is filtered and the compose step's requires are
recomputed from the tool steps. -/
def sanitizeRequires (plan : JVal) : Except String JVal :=
  match plan.getD "steps" (.arr []) with
  | .arr steps =>
      let ids := steps.filterMap (fun s =>
        if s.isDict then some (s.getD "id" .null) else none)
      if ids.all isHashable then
        let steps1 := steps.map (sanitizeOneStep ids)
        let steps2 := if steps1.any hasComposeId then
            updateFirst hasComposeId
              (fun c => c.setKey "requires" (.arr (composeRequiresOf steps1))) steps1
          else steps1
        .ok (plan.setKey "steps" (.arr steps2))
      else .error "TypeError: unhashable step id"
  | _ => .ok plan

/-- The per-step check of `Planner._validate_tools` (planner.py lines
601-620). -/
def validateOneStep (s : JVal) : Except String Unit :=
  let tool := s.getD "tool" .null
  if tool = .null then .ok ()
  else if !isAllowedToolVal tool then .error "Planner invented unknown tool."
  else
    let args := s.getD "args" .null
    if !args.isDict then .error "Tool args must be an object."
    else if containsRef args then
      .error "Planner used a symbolic placeholder in tool args."
    else .ok ()

/-- `_validate_tools` over a step list. -/
def validateSteps : List JVal → Except String Unit
  | [] => .ok ()
  | s :: rest => do
      let _ ← validateOneStep s
      validateSteps rest

/-- `Planner._validate_tools` on a plan. -/
def validateTools (plan : JVal) : Except String Unit :=
  match plan.getD "steps" (.arr []) with
  | .arr steps => validateSteps steps
  | _ => .ok ()

/-- `Planner._normalise_plan_json` (planner.py lines 449-473): the full
normalisation pipeline in fixed order. -/
def normalisePlanJson (data : JVal) : Except String JVal :=
  match data with
  | .obj fields =>
      if (fields.lookup "steps").isSome then do
        let p1 ← ensureStepFields data
        let p2 := coerceUnknownToolsToNone p1
        let p3 := ensureComposeAnswer p2
        let p4 := pruneIntermediateNonToolSteps p3
        let p5 ← sanitizeRequires p4
        let _ ← validateTools p5
        return p5
      else .error "Unsupported planner JSON shape"
  | _ => .error "Unsupported planner JSON shape"

/-- `Planner._deterministic_replan_plan` (planner.py lines 264-285): the
compose-only fallback plan. -/
def deterministicReplanPlan (userInput : String) : JVal :=
  .obj [("goal", .str ("Answer the user using available failure/observations without calling tools: " ++ userInput)),
        ("steps", .arr [
          .obj [("id", .str "compose_answer"),
                ("description", .str "Explain what happened using the failure/observations already provided. Do not call tools."),
                ("tool", .null),
                ("args", .null),
                ("requires", .arr [])]])]

/-- The violating-tool collection of `Planner._enforce_forbidden_tools`
(planner.py lines 622-631): step tools that are truthy strings contained in
the forbidden set.  (A truthy non-string is never a member of a set of
strings.) -/
def violatingForbiddenTools (plan : JVal) (forbidden : List String) : List String :=
  match plan.getD "steps" (.arr []) with
  | .arr steps => steps.filterMap (fun s =>
      match s.getD "tool" .null with
      | .str t => if t ≠ "" && forbidden.contains t then some t else none
      | _ => none)
  | _ => []

/-- The forbidden-tool enforcement stage of `Planner.generate_plan`
(planner.py lines 131-143), applied to the parsed-and-normalised plan
JSON.  On a violation during a replan the parsed plan is discarded and
replaced by the deterministic compose-only fallback; this branch performs
no further backend (`call_llm`) call.  Outside a replan the violation is
re-raised. -/
def generatePlanEnforceStage (planJson : JVal) (userInput : String)
    (isReplan : Bool) (forbidden : List String) : Except String JVal :=
  if violatingForbiddenTools planJson forbidden = [] then .ok planJson
  else if isReplan then .ok (deterministicReplanPlan userInput)
  else .error "Plan attempted to call forbidden tools"

/-! ## Python string sorting -/

/-- Code-point lexicographic comparison of character lists. -/
def charListLe : List Char → List Char → Bool
  | [], _ => true
  | _ :: _, [] => false
  | c :: cs, d :: ds =>
      if c.toNat < d.toNat then true
      else if d.toNat < c.toNat then false
      else charListLe cs ds

/-- Python string `<=` (code-point lexicographic). -/
def strLexLe (a b : String) : Bool := charListLe a.toList b.toList

/-- Python `sorted(...)` / `list.sort()` on strings: a stable sort by
code-point lexicographic order. -/
def pySorted (xs : List String) : List String :=
  List.insertionSort (fun a b => strLexLe a b = true) xs

/-- Totality of `strLexLe`. -/
theorem strLexLe_total (a b : String) : strLexLe a b = true ∨ strLexLe b a = true := by
  unfold strLexLe
  generalize a.toList = xs
  generalize b.toList = ys
  induction xs generalizing ys with
  | nil => left; simp [charListLe]
  | cons c cs ih =>
    cases ys with
    | nil => right; simp [charListLe]
    | cons d ds =>
      rcases Nat.lt_trichotomy c.toNat d.toNat with h | h | h
      · left; simp [charListLe, h]
      · rcases ih ds with h2 | h2
        · left; simp [charListLe, h, h2]
        · right; simp [charListLe, h.symm, h2]
      · right; simp [charListLe, h, Nat.lt_asymm h]

/-- Transitivity of `charListLe`. -/
theorem charListLe_trans : ∀ xs ys zs, charListLe xs ys = true →
    charListLe ys zs = true → charListLe xs zs = true := by
  intro xs
  induction xs with
  | nil => intro ys zs _ _; simp [charListLe]
  | cons c cs ih =>
    intro ys zs hxy hyz
    cases ys with
    | nil => simp [charListLe] at hxy
    | cons d ds =>
      cases zs with
      | nil => simp [charListLe] at hyz
      | cons e es =>
        simp only [charListLe] at hxy hyz ⊢
        rcases Nat.lt_trichotomy c.toNat d.toNat with h1 | h1 | h1 <;>
          rcases Nat.lt_trichotomy d.toNat e.toNat with h2 | h2 | h2 <;>
          simp only [h1, h2, if_pos, if_neg, Nat.lt_irrefl, Nat.lt_asymm,
            if_true, if_false] at hxy hyz ⊢ <;>
          first
            | rfl
            | exact ih ds es hxy hyz
            | (have h3 : c.toNat < e.toNat := by omega
               simp [h3])
            | simp_all

/-! ## plan_types.py — the typed plan model -/

/-- `PlanStep` from plan_types.py: one plan step, optionally bound to a
tool call.  `args` (a Python `Dict[str, Any]`) is an ordered association
list of JSON values. -/
structure PlanStep where
  id : String
  description : String
  tool : Option String := none
  args : Option (List (String × JVal)) := none
  requires : List String := []
deriving Repr, DecidableEq, Inhabited

/-- `Plan` from plan_types.py. -/
structure Plan where
  goal : String
  steps : List PlanStep
deriving Repr, DecidableEq, Inhabited

/-! ## planner_executor.py — the step executor -/

/-- A tool implementation (the callable under `TOOLS[name]["fn"]`), invoked
as `fn(**args)`; an `.error` result models a raised exception (hard
failure). -/
def ToolFn := List (String × JVal) → Except String JVal

/-- The `TOOLS` registry as consumed by planner_executor.py: a tool name
maps to an entry whose `fn` key may be absent/not callable (`Option ToolFn`).
`TOOLS` is a mutable module-level dict (MCP registration extends it at
runtime and the tests monkeypatch it), so the executor model is
parametrised over the registry value. -/
def ToolRegistry := String → Option (Option ToolFn)

/-- Python `str.isdigit()` on a step id (non-empty, all digits). -/
def isNumericId (sid : String) : Bool :=
  !sid.isEmpty && sid.toList.all Char.isDigit

/-- Numeric value used to sort / rewrite numeric ids (`int(old)`). -/
def numericValue (sid : String) : Nat := (sid.toNat?).getD 0

/-- `id_map.get(x, x)`: rewrite an id through the numeric-id map. -/
def applyIdMap (m : List (String × String)) (x : String) : String :=
  (m.lookup x).getD x

/-- `PlannerExecutor._normalize_plan_ids` (planner_executor.py lines
187-244): purely-numeric step ids (other than `compose_answer`) are
remapped to `step_{n+1}` in numeric order, and every `requires` list is
rewritten through the map (compose steps a second time, as in the source). -/
def normalizePlanIds (plan : Plan) : Plan × List (String × String) :=
  let numericIds := ((plan.steps.filter (fun s =>
    s.id != "compose_answer" && isNumericId s.id)).map (fun s => s.id))
  if numericIds.isEmpty then (plan, [])
  else
    let sortedIds := List.insertionSort (fun a b => numericValue a ≤ numericValue b) numericIds
    let idMap := sortedIds.map (fun old => (old, "step_" ++ toString (numericValue old + 1)))
    let steps1 := plan.steps.map (fun s =>
      { s with id := applyIdMap idMap s.id,
               requires := s.requires.map (applyIdMap idMap) })
    let steps2 := steps1.map (fun s =>
      if s.id = "compose_answer" then
        { s with requires := s.requires.map (applyIdMap idMap) }
      else s)
    (⟨plan.goal, steps2⟩, idMap)

/-- `PlannerExecutor._remap_observations` (lines 246-260): rewrite
observation keys through the id map; later entries overwrite earlier ones
on key collision (Python dict assignment). -/
def remapObservations (observations : List (String × JVal))
    (idMap : List (String × String)) : List (String × JVal) :=
  if idMap.isEmpty then observations
  else observations.foldl (fun acc kv => setAssoc acc (applyIdMap idMap kv.1) kv.2) []

/-- `PlannerExecutor._is_soft_failure` (lines 314-325): `out.get("ok") is
False`, or a `status` field whose `str(...).lower().strip()` is one of
`failed` / `failure` / `error` (only a string-valued status can produce
those; `str()` of any other JSON value contains other characters). -/
def isSoftFailure (out : JVal) : Bool :=
  match out with
  | .obj fields =>
      (fields.lookup "ok" == some (JVal.bool false)) ||
        (match (fields.lookup "status").getD .null with
         | .str s => ["failed", "failure", "error"].contains s.toLower.trim
         | _ => false)
  | _ => false

/-- `PlannerExecutor._soft_failure_reason` (lines 327-330): first truthy of
`reason` / `error` / `message`, else `"soft failure"`; non-string values are
rendered with `str(...)` (modelled for the string case, the one the tools
produce; other JSON values are rendered by `jsonDumps`, a faithful enough
stand-in that no theorem depends on). -/
def softFailureReason (out : JVal) : String :=
  match out with
  | .obj fields =>
      let pick := fun (v : JVal) => if v.truthy then some v else none
      let chosen := ((pick (JVal.getD (JVal.obj fields) "reason" .null)).orElse (fun _ =>
        (pick (JVal.getD (JVal.obj fields) "error" .null)).orElse (fun _ =>
          pick (JVal.getD (JVal.obj fields) "message" .null))))
      match chosen with
      | some (.str s) => s
      | some v => toString (repr v)
      | none => "soft failure"
  | _ => "soft failure"

/-- Result of one `_run_tool_step` call: the value returned, or the message
of a raised exception; `calledFn` records whether the tool callable was
actually invoked. -/
inductive ToolCallResult where
  | value (out : JVal) (calledFn : Bool)
  | raised (msg : String) (calledFn : Bool)
deriving Repr, DecidableEq

/-- `PlannerExecutor._run_tool_step` (lines 266-282). -/
def runToolStep (tools : ToolRegistry) (step : PlanStep) : ToolCallResult :=
  match step.tool with
  | none => .value .null false
  | some tname =>
      if tname = "" then .value .null false
      else
        match tools tname with
        | none => .raised ("Unknown tool '" ++ tname ++ "' in step '" ++ step.id ++ "'.") false
        | some none => .raised ("Tool '" ++ tname ++ "' has no callable 'fn'.") false
        | some (some fn) =>
            match fn (step.args.getD []) with
            | .ok out => .value out true
            | .error msg => .raised msg true

/-- `by_id = {s.id: s for s in steps}`: a Python dict comprehension keeps
the first occurrence's position with the last occurrence's value. -/
def dedupKeepLast (steps : List PlanStep) : List PlanStep :=
  steps.foldl (fun acc s =>
    if acc.any (fun t => t.id == s.id) then
      acc.map (fun t => if t.id == s.id then s else t)
    else acc ++ [s]) []

/-- The initial dependency map of `_order_steps`:
`deps = {s.id: set(r for r in s.requires if r in by_id)}` (sets of strings
are modelled as lists; only membership and emptiness are consumed). -/
def initialDeps (uniq : List PlanStep) : List (String × List String) :=
  uniq.map (fun s => (s.id, s.requires.filter (fun r => uniq.any (fun t => t.id == r))))

/-- The body of the `while ready:` loop of `_order_steps` (lines 294-306):
pop the least ready id, remove it from every remaining dependency set,
append the ids whose dependency set just became empty and re-sort, then
drop the popped id's own entry.  Python re-sorts after each append of a
newly freed id; sorting once after all appends yields the same (already
sorted prefixes are unchanged by the stable sort). -/
def kahnLoop : Nat → List (String × List String) → List String → List String →
    List String × List (String × List String)
  | 0, deps, _, acc => (acc, deps)
  | Nat.succ fuel, deps, ready, acc =>
    match ready with
    | [] => (acc, deps)
    | sid :: rest =>
        let newlyFreed := (deps.filter (fun e =>
          e.2.contains sid && (e.2.filter (fun r => r != sid)).isEmpty)).map (fun e => e.1)
        let deps1 := (deps.map (fun e => (e.1, e.2.filter (fun r => r != sid)))).filter
          (fun e => e.1 != sid)
        let ready1 := pySorted (rest ++ newlyFreed)
        kahnLoop fuel deps1 ready1 (acc ++ [sid])

/-- `PlannerExecutor._order_steps` (lines 284-312): Kahn topological sort
over step ids using `requires` as edges (restricted to present ids), the
ready list kept sorted; a non-empty residual dependency map reports a
dependency cycle.  (The source appends `by_id[sid]` during the loop; the
model orders ids and maps them back at the end, which agrees because every
ordered id is a key of `by_id`.) -/
def orderSteps (steps : List PlanStep) : Except String (List PlanStep) :=
  let uniq := dedupKeepLast steps
  let deps0 := initialDeps uniq
  let ready0 := pySorted ((deps0.filter (fun e => e.2.isEmpty)).map (fun e => e.1))
  let res := kahnLoop deps0.length deps0 ready0 []
  if res.2.isEmpty then
    .ok (res.1.filterMap (fun sid => uniq.find? (fun s => s.id == sid)))
  else
    .error ("Plan contains a dependency cycle or unresolved deps among: " ++
      String.intercalate ", " (pySorted (res.2.map (fun e => e.1))))

/-- JSON escaping for `json.dumps` of a string. -/
def jsonEscapeChar (c : Char) : String :=
  if c = '"' then "\\\""
  else if c = '\\' then "\\\\"
  else if c = '\n' then "\\n"
  else if c = '\t' then "\\t"
  else String.singleton c

mutual

/-- `json.dumps(v, ensure_ascii=False)` with default separators, as used by
`_format_observations` to render one observation value.  (No theorem
inspects the rendered text; the definition pins the model down.) -/
def jsonDumps : JVal → String
  | .null => "null"
  | .bool true => "true"
  | .bool false => "false"
  | .num n => toString n
  | .str s => "\"" ++ String.join (s.toList.map jsonEscapeChar) ++ "\""
  | .arr xs => "[" ++ jsonDumpsList xs ++ "]"
  | .obj fields => "\x7b" ++ jsonDumpsFields fields ++ "\x7d"

/-- Comma-joined array elements for `jsonDumps`. -/
def jsonDumpsList : List JVal → String
  | [] => ""
  | [x] => jsonDumps x
  | x :: xs => jsonDumps x ++ ", " ++ jsonDumpsList xs

/-- Comma-joined object fields for `jsonDumps`. -/
def jsonDumpsFields : List (String × JVal) → String
  | [] => ""
  | [kv] => "\"" ++ String.join (kv.1.toList.map jsonEscapeChar) ++ "\": " ++ jsonDumps kv.2
  | kv :: rest =>
      "\"" ++ String.join (kv.1.toList.map jsonEscapeChar) ++ "\": " ++ jsonDumps kv.2 ++
        ", " ++ jsonDumpsFields rest

end

/-- Executor construction parameters (`PlannerExecutor.__init__`). -/
structure ExecConfig where
  maxReplans : Nat := 2
  maxSteps : Nat := 25
  observationMaxChars : Nat := 8000
deriving Repr, DecidableEq

/-- `PlannerExecutor._format_observations` (lines 356-370): sorted keys,
each value JSON-rendered and truncated beyond the configured ceiling. -/
def formatObservations (cfg : ExecConfig) (observations : List (String × JVal)) : String :=
  let parts := (pySorted (observations.map (fun kv => kv.1))).filterMap (fun k =>
    (observations.lookup k).map (fun v =>
      let s := jsonDumps v
      let s := if s.length > cfg.observationMaxChars
        then s.take cfg.observationMaxChars ++ "...(truncated)" else s
      k ++ ": " ++ s))
  if parts.isEmpty then "(none)" else String.intercalate "\n" parts

/-- `ExecutionResult` from planner_executor.py. -/
structure ExecutionResult where
  plan : Plan
  observations : List (String × JVal)
  toolCalls : List String
  replansUsed : Nat
  lastFailureText : Option String := none
deriving Repr, DecidableEq

/-- Outcome of `PlannerExecutor.execute_plan`: a normal return, a raised
`SoftToolFailure` (carrying step id, tool name, reason and payload), or any
other raised exception (hard failure).  `localObs` on a soft failure is the
executor's local observation dict at raise time — the dict the caller's
variable does *not* see (`observations or {}` allocates a fresh dict when
the incoming one is empty, and `_remap_observations` copies when remapping,
so observations recorded before a raise are lost to
`execute_with_replanning`, whose dict is always empty at call time).
`invoked` instruments which step ids had their tool callable actually
invoked. -/
inductive ExecOutcome where
  | ok (res : ExecutionResult) (invoked : List String)
  | softFailure (stepId toolName reason : String) (payload : JVal)
      (localObs : List (String × JVal)) (invoked : List String)
  | hardFailure (msg : String) (invoked : List String)
deriving Repr, DecidableEq

/-- The per-step execution loop of `execute_plan` (lines 73-88): skip steps
whose id is already an observation key, otherwise run the tool, record the
output, and raise on a soft-failure payload. -/
def execLoop (tools : ToolRegistry) (plan : Plan) :
    List PlanStep → List (String × JVal) → List String → List String → ExecOutcome
  | [], obs, calls, inv => .ok ⟨plan, obs, calls, 0, none⟩ inv
  | step :: rest, obs, calls, inv =>
      if (obs.lookup step.id).isSome then execLoop tools plan rest obs calls inv
      else
        match runToolStep tools step with
        | .raised msg calledFn =>
            .hardFailure msg (inv ++ if calledFn then [step.id] else [])
        | .value out calledFn =>
            let obs1 := obs ++ [(step.id, out)]
            let calls1 := calls ++ [step.id]
            let inv1 := inv ++ (if calledFn then [step.id] else [])
            if isSoftFailure out then
              .softFailure step.id (step.tool.getD "") (softFailureReason out) out obs1 inv1
            else execLoop tools plan rest obs1 calls1 inv1

/-- `PlannerExecutor.execute_plan` (lines 53-96): normalise ids, remap
observations, reject oversized plans, order the tool steps, then run them. -/
def executePlan (cfg : ExecConfig) (tools : ToolRegistry) (plan : Plan)
    (observations : List (String × JVal)) : ExecOutcome :=
  let pm := normalizePlanIds plan
  let obs1 := remapObservations observations pm.2
  let toolSteps := pm.1.steps.filter (fun s => s.tool.isSome && s.id != "compose_answer")
  if toolSteps.length > cfg.maxSteps then
    .hardFailure ("Plan has too many tool steps (" ++ toString toolSteps.length ++ " > " ++
      toString cfg.maxSteps ++ ").") []
  else
    match orderSteps toolSteps with
    | .error msg => .hardFailure msg []
    | .ok ordered => execLoop tools pm.1 ordered obs1 [] []

/-! ## planner_executor.py — the replanning controller -/

/-- One replan request issued to `planner.generate_plan(...)` by
`PlannerExecutor._replan` (lines 332-354): the original user input, the
formatted observations, the failure description, and the forbidden-tool
set (`is_replan=True` always). -/
structure ReplanRequest where
  userInput : String
  observationsText : String
  failureText : String
  forbidden : List String
deriving Repr, DecidableEq

/-- The planner, as the controller sees it: an oracle producing a new plan
for each replan request (`planner.generate_plan` with `is_replan=True`). -/
def PlannerOracle := ReplanRequest → Plan

/-- Instrumentation: what kind of failure ended each execution attempt. -/
inductive TurnEvent where
  | hardFail (msg : String)
  | softFail (stepId toolName : String) (retryable : Bool)
deriving Repr, DecidableEq

/-- Final outcome of `execute_with_replanning`: a normal return, the
terminal `RuntimeError` after exceeding `max_replans`, or fuel exhaustion
(unreachable with the fuel supplied by `executeWithReplanning`). -/
inductive TurnOutcome where
  | ok (res : ExecutionResult)
  | terminalFailure (msg : String)
  | fuelExhausted
deriving Repr, DecidableEq

/-- Result and trace of one `execute_with_replanning` turn. -/
structure TurnResult where
  outcome : TurnOutcome
  requests : List ReplanRequest
  events : List TurnEvent
  invoked : List String
deriving Repr, DecidableEq

/-- Python `bool(payload.get("retryable", False))` for a dict payload,
`False` otherwise (lines 145). -/
def payloadRetryable (payload : JVal) : Bool :=
  match payload with
  | .obj fields => ((fields.lookup "retryable").getD .null).truthy
  | _ => false

/-- Python `set.add`: append if absent. -/
def addForbidden (forbidden : List String) (t : String) : List String :=
  if forbidden.contains t then forbidden else forbidden ++ [t]

/-- The `while True` loop of `PlannerExecutor.execute_with_replanning`
(lines 121-181).  The controller's observation dict is passed along
unchanged on a failed attempt: in the source the dict is empty on every
call (it is only reassigned from a *successful* `execute_plan`, which
returns), and `execute_plan` replaces an empty incoming dict by a fresh
one (`observations = observations or {}`), so nothing recorded during a
failed attempt survives into the next attempt.  `requests`, `events` and
`invoked` accumulate the replan requests issued, the failure per attempt,
and every step id whose tool callable ran. -/
def replanLoop (cfg : ExecConfig) (tools : ToolRegistry) (planner : PlannerOracle)
    (userInput : String) :
    Nat → Plan → List (String × JVal) → List String → Nat → List String →
    Option String → List ReplanRequest → List TurnEvent → List String → TurnResult
  | 0, _, _, _, _, _, _, reqs, events, inv => ⟨.fuelExhausted, reqs, events, inv⟩
  | Nat.succ fuel, plan, obs, calls, replansUsed, forbidden, lastFailure, reqs, events, inv =>
      match executePlan cfg tools plan obs with
      | .ok res einv =>
          let finalRes : ExecutionResult :=
            { res with
              toolCalls := calls ++ res.toolCalls
              replansUsed := replansUsed
              lastFailureText := lastFailure }
          ⟨.ok finalRes, reqs, events, inv ++ einv⟩
      | .softFailure sid tname reason payload _localObs einv =>
          let replansUsed1 := replansUsed + 1
          let failure := "Soft failure in step '" ++ sid ++ "' tool '" ++ tname ++ "': " ++ reason
          let retryable := payloadRetryable payload
          let forbidden1 := if !retryable && tname ≠ "" then addForbidden forbidden tname
            else forbidden
          let events1 := events ++ [.softFail sid tname retryable]
          let inv1 := inv ++ einv
          if replansUsed1 > cfg.maxReplans then
            ⟨.terminalFailure ("Exceeded max replans (" ++ toString cfg.maxReplans ++
              "). Last failure: " ++ failure), reqs, events1, inv1⟩
          else
            let req : ReplanRequest :=
              ⟨userInput, formatObservations cfg obs, failure, forbidden1⟩
            replanLoop cfg tools planner userInput fuel (planner req) obs calls
              replansUsed1 forbidden1 (some failure) (reqs ++ [req]) events1 inv1
      | .hardFailure msg einv =>
          let replansUsed1 := replansUsed + 1
          let failure := "Hard failure during tool execution: " ++ msg
          let events1 := events ++ [.hardFail msg]
          let inv1 := inv ++ einv
          if replansUsed1 > cfg.maxReplans then
            ⟨.terminalFailure ("Exceeded max replans (" ++ toString cfg.maxReplans ++
              "). Last failure: " ++ failure), reqs, events1, inv1⟩
          else
            let req : ReplanRequest :=
              ⟨userInput, formatObservations cfg obs, failure, forbidden⟩
            replanLoop cfg tools planner userInput fuel (planner req) obs calls
              replansUsed1 forbidden (some failure) (reqs ++ [req]) events1 inv1

/-- `PlannerExecutor.execute_with_replanning` (lines 98-181): the loop
starts with an empty observation dict, an empty forbidden set and zero
replans used.  The fuel `maxReplans + 2` strictly bounds the number of
loop iterations (each failed attempt increments `replansUsed` and the loop
terminates once it exceeds `maxReplans`). -/
def executeWithReplanning (cfg : ExecConfig) (tools : ToolRegistry)
    (planner : PlannerOracle) (userInput : String) (initialPlan : Plan) : TurnResult :=
  replanLoop cfg tools planner userInput (cfg.maxReplans + 2) initialPlan [] [] 0 [] none [] [] []

/-! ## orchestrator/ — models, context, orchestrator -/

/-- `WorkItem` from orchestrator/models.py (frozen dataclass). -/
structure WorkItem where
  id : String
  assignedAgent : String
  goal : String
  inputs : List (String × JVal) := []
  expectedOutput : List (String × JVal) := []
  dependsOn : List String := []
deriving Repr, DecidableEq, Inhabited

/-- `Artifact` from orchestrator/context.py (frozen dataclass); outputs in
this repository are strings, as §3 of the data model records. -/
structure Artifact where
  key : String
  value : String
  producer : String
  metadata : List (String × JVal) := []
deriving Repr, DecidableEq, Inhabited

/-- `RunContext` from orchestrator/context.py: the append-only artifact map
of one orchestration run, keyed by artifact key. -/
structure RunContext where
  artifacts : List (String × Artifact) := []
deriving Repr, DecidableEq, Inhabited

/-- `OrchestratorPolicy` from orchestrator/orchestrator.py.  The
`per_item_timeout_s` and `max_concurrency` fields only shape real-time
scheduling inside a wave; agents are modelled as total pure functions, so
they do not appear in the model's behaviour. -/
structure OrchestratorPolicy where
  maxWorkItems : Nat := 10
  maxConcurrency : Nat := 4
  enableParallel : Bool := true
  trace : Bool := true
deriving Repr, DecidableEq

/-- `RoleRegistry.get_agent` (orchestrator/roles.py lines 64-67) composed
with `Agent.run`: a role name resolves to a function from composed user
input to output text, or to nothing (`KeyError: Unknown role`). -/
def AgentRegistry := String → Option (String → String)

/-- The classified faults `run_work_items` and its helpers can raise. -/
inductive OrchFault where
  | tooManyWorkItems (n maxItems : Nat)
  | missingArtifacts (detail : List (String × List String))
  | noRunnableWorkItems
  | unknownRole (name : String)
  | duplicateArtifact (key : String)
  | missingSnapshotKeys (keys : List String)
  | fuelExhausted
deriving Repr, DecidableEq

/-- Python `repr` of a string, approximated with single quotes and
backslash escaping (Python switches quote style for strings containing a
single quote; no theorem inspects the rendered text). -/
def pyReprStr (s : String) : String :=
  "'" ++ String.join (s.toList.map (fun c =>
    if c = '\'' then "\\'" else if c = '\\' then "\\\\" else String.singleton c)) ++ "'"

mutual

/-- Python `str`/`repr` of a JSON-like value (used by the f-strings in
`_compose_user_input`, which interpolate dicts). -/
def pyReprJ : JVal → String
  | .null => "None"
  | .bool true => "True"
  | .bool false => "False"
  | .num n => toString n
  | .str s => pyReprStr s
  | .arr xs => "[" ++ pyReprList xs ++ "]"
  | .obj fields => "\x7b" ++ pyReprFields fields ++ "\x7d"

/-- Comma-joined list elements for `pyReprJ`. -/
def pyReprList : List JVal → String
  | [] => ""
  | [x] => pyReprJ x
  | x :: xs => pyReprJ x ++ ", " ++ pyReprList xs

/-- Comma-joined dict fields for `pyReprJ`. -/
def pyReprFields : List (String × JVal) → String
  | [] => ""
  | [kv] => pyReprStr kv.1 ++ ": " ++ pyReprJ kv.2
  | kv :: rest => pyReprStr kv.1 ++ ": " ++ pyReprJ kv.2 ++ ", " ++ pyReprFields rest

end

/-- The read-only view of one artifact placed in a selective snapshot
(`RunContext.snapshot_selected`): `{"value": ..., "producer": ...,
"metadata": ...}`. -/
def snapshotEntryJ (a : Artifact) : JVal :=
  .obj [("value", .str a.value), ("producer", .str a.producer), ("metadata", .obj a.metadata)]

/-- `RunContext.snapshot_selected` (context.py lines 44-53): fail loudly
when any requested key is absent, otherwise return the read-only entries
for exactly the requested keys (a dict comprehension: duplicate keys
collapse). -/
def snapshotSelected (ctx : RunContext) (keys : List String) :
    Except OrchFault (List (String × JVal)) :=
  let missing := keys.filter (fun k => (ctx.artifacts.lookup k).isNone)
  if !missing.isEmpty then .error (.missingSnapshotKeys missing)
  else .ok (keys.foldl (fun acc k =>
    match ctx.artifacts.lookup k with
    | some a => setAssoc acc k (snapshotEntryJ a)
    | none => acc) [])

/-- `_compose_user_input` (orchestrator.py lines 131-140): goal, then the
item's raw inputs (if non-empty), then the selected artifact snapshot (if
non-empty), joined by blank lines. -/
def composeUserInput (goal : String) (context : List (String × JVal))
    (selected : List (String × JVal)) : String :=
  let parts := [goal]
  let parts := if !context.isEmpty
    then parts ++ ["Initial context (JSON): " ++ pyReprJ (.obj context)] else parts
  let parts := if !selected.isEmpty
    then parts ++ ["Shared context artifacts:\n" ++ pyReprJ (.obj selected)] else parts
  String.intercalate "\n\n" parts

/-- The input string composed for a work item against a run context:
an item with empty `depends_on` gets an empty snapshot, any other item a
selective snapshot of exactly its declared keys (`_run_one_sync` lines
158-166; `_run_one_async` composes identically). -/
def composedInputFor (wi : WorkItem) (ctx : RunContext) : Except OrchFault String := do
  let selected ← if wi.dependsOn.isEmpty then pure [] else snapshotSelected ctx wi.dependsOn
  pure (composeUserInput wi.goal wi.inputs selected)

/-- `_run_one_sync` (orchestrator.py lines 158-166): resolve the role,
compose the input, run the agent. -/
def runOneSync (reg : AgentRegistry) (wi : WorkItem) (ctx : RunContext) :
    Except OrchFault String :=
  match reg wi.assignedAgent with
  | none => .error (.unknownRole wi.assignedAgent)
  | some agent => (composedInputFor wi ctx).map agent

/-- `_record_output` (orchestrator.py lines 200-208): append the artifact
keyed `"<item-id>.output"` (duplicate keys are a fatal contract violation
per `RunContext.add_artifact`) and store the result. -/
def recordOutput (wi : WorkItem) (out : String) (ctx : RunContext)
    (results : List (String × String)) :
    Except OrchFault (RunContext × List (String × String)) :=
  let key := wi.id ++ ".output"
  if (ctx.artifacts.lookup key).isSome then .error (.duplicateArtifact key)
  else .ok (⟨ctx.artifacts ++ [(key, ⟨key, out, wi.id, [("role", .str wi.assignedAgent)]⟩)]⟩,
    setAssoc results wi.id out)

/-- `_select_ready_work_items` (orchestrator.py lines 149-155): the items
whose every `depends_on` key is already an artifact. -/
def selectReadyWorkItems (remaining : List WorkItem) (ctx : RunContext) : List WorkItem :=
  remaining.filter (fun wi => wi.dependsOn.all (fun d => (ctx.artifacts.lookup d).isSome))

/-- The per-item missing-dependency report built when no item is ready
(orchestrator.py lines 88-96). -/
def missingDetailOf (remaining : List WorkItem) (ctx : RunContext) :
    List (String × List String) :=
  remaining.filterMap (fun wi =>
    let missing := wi.dependsOn.filter (fun d => (ctx.artifacts.lookup d).isNone)
    if missing.isEmpty then none else some (wi.id, missing))

/-- Outputs of one parallel wave (`_run_wave_parallel`, lines 181-197):
every item's input is composed against the pre-wave context (all recording
happens after the `gather`), an exception in any item propagates. -/
def waveOutputs (reg : AgentRegistry) (wave : List WorkItem) (ctx : RunContext) :
    Except OrchFault (List (WorkItem × String)) :=
  wave.mapM (fun wi => (runOneSync reg wi ctx).map (fun out => (wi, out)))

/-- Record a completed wave's outputs in wave order (`for wi in ready:`
after the parallel branch). -/
def recordWave : List (WorkItem × String) → RunContext → List (String × String) →
    Except OrchFault (RunContext × List (String × String))
  | [], ctx, results => .ok (ctx, results)
  | (wi, out) :: rest, ctx, results => do
      let pr ← recordOutput wi out ctx results
      recordWave rest pr.1 pr.2

/-- The `while remaining:` loop of `Orchestrator.run_work_items`
(orchestrator.py lines 75-110).  Mirrors the source faithfully, including
the sequential branch running only `ready[0]` while removing *all* ready
ids from `remaining`.  Fuel bounds the iteration count; `run_work_items`
supplies enough fuel for the loop to shrink `remaining` to empty. -/
def orchLoop (reg : AgentRegistry) (policy : OrchestratorPolicy) :
    Nat → List WorkItem → RunContext → List (String × String) →
    Except OrchFault (List (String × String))
  | fuelLeft, remaining, ctx, results =>
    if remaining.isEmpty then .ok results
    else
      match fuelLeft with
      | 0 => .error .fuelExhausted
      | Nat.succ fuel =>
          match selectReadyWorkItems remaining ctx with
          | [] =>
            let detail := missingDetailOf remaining ctx
            if !detail.isEmpty then .error (.missingArtifacts detail)
            else .error .noRunnableWorkItems
          | wi0 :: readyRest =>
            let ready := wi0 :: readyRest
            let doneIds := ready.map (fun w => w.id)
            let step : Except OrchFault (RunContext × List (String × String)) :=
              if !policy.enableParallel || ready.length == 1 then do
                let out ← runOneSync reg wi0 ctx
                recordOutput wi0 out ctx results
              else do
                let outs ← waveOutputs reg ready ctx
                recordWave outs ctx results
            match step with
            | .error e => .error e
            | .ok pr =>
                orchLoop reg policy fuel
                  (remaining.filter (fun r => !doneIds.contains r.id)) pr.1 pr.2

/-- Python `str.rstrip()`: drop trailing whitespace. -/
def pyRStrip (s : String) : String :=
  String.mk ((s.toList.reverse.dropWhile Char.isWhitespace).reverse)

/-- `_merge_results_deterministically` (orchestrator.py lines 221-231): a
single-item run returns its output untouched; otherwise, per item in
original order, an id/role/goal header, the trimmed output, and a blank
separator. -/
def mergeResultsDeterministically (workItems : List WorkItem)
    (results : List (String × String)) : String :=
  match workItems with
  | [wi] => (results.lookup wi.id).getD ""
  | _ =>
      let lineGroups := workItems.map (fun wi =>
        ["[" ++ wi.id ++ "] " ++ wi.assignedAgent ++ ": " ++ wi.goal,
         pyRStrip ((results.lookup wi.id).getD ""),
         ""])
      pyRStrip (String.intercalate "\n" lineGroups.flatten) ++ "\n"

/-- `Orchestrator.run_work_items` (orchestrator.py lines 75-110): bounded
item count, the dependency-wave loop, then the deterministic merge over
the *original* item list. -/
def runWorkItems (reg : AgentRegistry) (policy : OrchestratorPolicy)
    (items : List WorkItem) : Except OrchFault String :=
  if items.length > policy.maxWorkItems then
    .error (.tooManyWorkItems items.length policy.maxWorkItems)
  else
    (orchLoop reg policy items.length items ⟨[]⟩ []).map
      (mergeResultsDeterministically items)

/-! ## Association-list lemmas -/

/-- Looking up the key just set returns the new value. -/
theorem lookup_setAssoc_same {α : Type} (fields : List (String × α)) (k : String) (v : α) :
    (setAssoc fields k v).lookup k = some v := by
  induction fields with
  | nil => simp [setAssoc, List.lookup]
  | cons kv rest ih =>
    obtain ⟨k', v'⟩ := kv
    by_cases h : k' = k
    · subst h; simp [setAssoc, List.lookup]
    · have hb : (k == k') = false := by
        simp [beq_eq_false_iff_ne]
        exact Ne.symm h
      simp [setAssoc, h, List.lookup, hb, ih]

/-- Setting one key leaves other lookups unchanged. -/
theorem lookup_setAssoc_other {α : Type} (fields : List (String × α)) (k k' : String) (v : α)
    (h : k' ≠ k) : (setAssoc fields k v).lookup k' = fields.lookup k' := by
  have hb : (k' == k) = false := by
    simp [beq_eq_false_iff_ne]
    exact h
  induction fields with
  | nil => simp [setAssoc, List.lookup, hb]
  | cons kv rest ih =>
    obtain ⟨k0, v0⟩ := kv
    by_cases h0 : k0 = k
    · subst h0
      simp [setAssoc, List.lookup, hb]
    · simp [setAssoc, h0, List.lookup, ih]

/-- Re-setting a key to the value it already holds is the identity. -/
theorem setAssoc_self {α : Type} (fields : List (String × α)) (k : String) (v : α)
    (h : fields.lookup k = some v) : setAssoc fields k v = fields := by
  induction fields with
  | nil => simp [List.lookup] at h
  | cons kv rest ih =>
    obtain ⟨k0, v0⟩ := kv
    by_cases h0 : k0 = k
    · subst h0
      simp [List.lookup] at h
      simp [setAssoc, h]
    · have hb : (k == k0) = false := by
        simp [beq_eq_false_iff_ne]
        exact Ne.symm h0
      simp [List.lookup, hb] at h
      simp [setAssoc, h0, ih h]

/-- `getD` after `setKey` of the same key on an object. -/
theorem getD_setKey_same (fields : List (String × JVal)) (k : String) (v d : JVal) :
    ((JVal.obj fields).setKey k v).getD k d = v := by
  simp [JVal.setKey, JVal.getD, JVal.get?, lookup_setAssoc_same]

/-- `getD` after `setKey` of a different key on an object. -/
theorem getD_setKey_other (fields : List (String × JVal)) (k k' : String) (v d : JVal)
    (h : k' ≠ k) : ((JVal.obj fields).setKey k v).getD k' d = (JVal.obj fields).getD k' d := by
  simp [JVal.setKey, JVal.getD, JVal.get?, lookup_setAssoc_other _ _ _ _ h]

/-! ## Claim C5 — forbidden tools are enforced mechanically on replans -/

/-- C5: once a tool is in the forbidden set passed to a replan request, a
plan returned by the backend that still calls that tool is never accepted:
the enforcement stage of `generate_plan` (with `is_replan=True`) discards
it and returns the deterministic compose-only fallback plan — a plan whose
single step is `compose_answer` with no tool — and the fallback is computed
locally, without a further backend call (the enforcement branch of
`generate_plan` contains no `call_llm`). -/
theorem C5_forbidden_tool_plan_rejected_with_fallback
    (planJson : JVal) (steps : List JVal) (step : JVal) (t userInput : String)
    (forbidden : List String)
    (hsteps : planJson.getD "steps" (.arr []) = .arr steps)
    (hmem : step ∈ steps)
    (htool : step.getD "tool" .null = .str t)
    (ht : t ≠ "")
    (hforb : t ∈ forbidden) :
    generatePlanEnforceStage planJson userInput true forbidden
        = .ok (deterministicReplanPlan userInput) ∧
      ∃ c : JVal,
        (deterministicReplanPlan userInput).getD "steps" (.arr []) = .arr [c] ∧
        c.getD "id" .null = .str "compose_answer" ∧
        c.getD "tool" .null = .null := by
  have hviol : violatingForbiddenTools planJson forbidden ≠ [] := by
    unfold violatingForbiddenTools
    rw [hsteps]
    intro hnil
    have h0 := List.filterMap_eq_nil_iff.mp hnil step hmem
    rw [htool] at h0
    simp [ht, hforb] at h0
  refine ⟨?_, ?_⟩
  · unfold generatePlanEnforceStage
    simp [hviol]
  · exact ⟨_, rfl, rfl, rfl⟩

/-- Witness for C5 at a concrete replanned plan calling forbidden
`fetch_url`. -/
theorem C5_witness :
    generatePlanEnforceStage
        (.obj [("steps", .arr [.obj [("id", .str "s1"), ("tool", .str "fetch_url")]])])
        "u" true ["fetch_url"]
      = .ok (deterministicReplanPlan "u") ∧
      ∃ c : JVal,
        (deterministicReplanPlan "u").getD "steps" (.arr []) = .arr [c] ∧
        c.getD "id" .null = .str "compose_answer" ∧
        c.getD "tool" .null = .null :=
  C5_forbidden_tool_plan_rejected_with_fallback
    (.obj [("steps", .arr [.obj [("id", .str "s1"), ("tool", .str "fetch_url")]])])
    [.obj [("id", .str "s1"), ("tool", .str "fetch_url")]]
    (.obj [("id", .str "s1"), ("tool", .str "fetch_url")])
    "fetch_url" "u" ["fetch_url"]
    (by rfl) (by simp) (by rfl) (by decide) (by decide)

/-! ## Claim C9 — selective context isolation -/

/-- Key membership through `setAssoc`. -/
theorem lookup_isSome_setAssoc {α : Type} (acc : List (String × α)) (k k' : String) (v : α) :
    ((setAssoc acc k v).lookup k').isSome ↔ (k' = k ∨ (acc.lookup k').isSome) := by
  by_cases h : k' = k
  · subst h; simp [lookup_setAssoc_same]
  · simp [lookup_setAssoc_other _ _ _ _ h, h]

/-- The keys present after the snapshot fold are exactly the requested keys
(plus whatever was already accumulated), provided all requested keys have
artifacts. -/
theorem snapshotFold_lookup_isSome (ctx : RunContext) :
    ∀ (keys : List String) (acc : List (String × JVal)) (k : String),
    (((keys.foldl (fun acc2 k2 => match ctx.artifacts.lookup k2 with
        | some a => setAssoc acc2 k2 (snapshotEntryJ a)
        | none => acc2) acc)).lookup k).isSome ↔
      ((k ∈ keys ∧ (ctx.artifacts.lookup k).isSome) ∨ (acc.lookup k).isSome) := by
  intro keys
  induction keys with
  | nil => intro acc k; simp
  | cons k2 rest ih =>
    intro acc k
    simp only [List.foldl_cons]
    rcases hk2 : ctx.artifacts.lookup k2 with _ | a
    · rw [ih]
      constructor
      · rintro (⟨hmem, hsome⟩ | hacc)
        · exact Or.inl ⟨List.mem_cons_of_mem _ hmem, hsome⟩
        · exact Or.inr hacc
      · rintro (⟨hmem, hsome⟩ | hacc)
        · rcases List.mem_cons.mp hmem with heq | hmem2
          · subst heq; rw [hk2] at hsome; simp at hsome
          · exact Or.inl ⟨hmem2, hsome⟩
        · exact Or.inr hacc
    · rw [ih]
      rw [lookup_isSome_setAssoc]
      constructor
      · rintro (⟨hmem, hsome⟩ | heq | hacc)
        · exact Or.inl ⟨List.mem_cons_of_mem _ hmem, hsome⟩
        · subst heq; exact Or.inl ⟨List.mem_cons_self _ _, by simp [hk2]⟩
        · exact Or.inr hacc
      · rintro (⟨hmem, hsome⟩ | hacc)
        · rcases List.mem_cons.mp hmem with heq | hmem2
          · subst heq; exact Or.inr (Or.inl rfl)
          · exact Or.inl ⟨hmem2, hsome⟩
        · exact Or.inr (Or.inr hacc)

/-- A successful selective snapshot holds exactly the requested keys. -/
theorem snapshotSelected_keys (ctx : RunContext) (keys : List String)
    (selected : List (String × JVal))
    (h : snapshotSelected ctx keys = .ok selected) :
    ∀ k, ((selected.lookup k).isSome ↔ k ∈ keys) := by
  intro k
  unfold snapshotSelected at h
  by_cases hm : (keys.filter fun k2 => (ctx.artifacts.lookup k2).isNone).isEmpty
  · rw [if_neg (by simp [hm])] at h
    have hall : ∀ k2 ∈ keys, (ctx.artifacts.lookup k2).isSome := by
      intro k2 hk2
      by_contra hno
      have : k2 ∈ keys.filter fun k3 => (ctx.artifacts.lookup k3).isNone := by
        rw [List.mem_filter]
        refine ⟨hk2, ?_⟩
        simp [Option.not_isSome_iff_eq_none.mp hno]
      rw [List.isEmpty_iff] at hm
      rw [hm] at this
      simp at this
    have hsel : selected = keys.foldl (fun acc2 k2 => match ctx.artifacts.lookup k2 with
        | some a => setAssoc acc2 k2 (snapshotEntryJ a)
        | none => acc2) [] := by
      cases h; rfl
    rw [hsel, snapshotFold_lookup_isSome]
    simp only [List.lookup_nil, Option.isSome_none, Bool.false_eq_true, or_false]
    constructor
    · rintro ⟨hmem, _⟩; exact hmem
    · intro hmem; exact ⟨hmem, hall k hmem⟩
  · rw [if_pos (by simp [hm])] at h
    cases h

/-- C9: a work item with empty `depends_on` never sees any other item's
output: its composed agent input is built only from its goal and its own
declared inputs (the same string for every run context, in particular with
an empty snapshot); an item with non-empty `depends_on` receives a snapshot
holding exactly its declared upstream artifact keys. -/
theorem C9_selective_context_isolation :
    (∀ (wi : WorkItem) (ctx : RunContext), wi.dependsOn = [] →
        composedInputFor wi ctx = .ok (composeUserInput wi.goal wi.inputs []) ∧
        (∀ ctx2 : RunContext, composedInputFor wi ctx = composedInputFor wi ctx2)) ∧
    (∀ (wi : WorkItem) (ctx : RunContext) (selected : List (String × JVal)),
        snapshotSelected ctx wi.dependsOn = .ok selected →
        composedInputFor wi ctx = .ok (composeUserInput wi.goal wi.inputs selected) ∧
        (∀ k, ((selected.lookup k).isSome ↔ k ∈ wi.dependsOn))) := by
  constructor
  · intro wi ctx h
    constructor
    · simp only [composedInputFor, h]
      rfl
    · intro ctx2
      simp [composedInputFor, h]
  · intro wi ctx selected hsnap
    by_cases h : wi.dependsOn = []
    · rw [h] at hsnap
      have hsel : selected = [] := by
        simp [snapshotSelected] at hsnap
        exact hsnap
      subst hsel
      refine ⟨by simp only [composedInputFor, h]; rfl, ?_⟩
      intro k
      simp [h]
    · refine ⟨?_, snapshotSelected_keys ctx wi.dependsOn selected hsnap⟩
      have hne : wi.dependsOn.isEmpty = false := by
        cases hd : wi.dependsOn
        · exact absurd hd h
        · rfl
      simp [composedInputFor, hne, hsnap]

/-- Witness for C9 at a concrete two-item context: the isolated item's
input is independent of the context, the dependent item sees exactly its
declared key. -/
theorem C9_witness :
    (composedInputFor ⟨"w0", "generalist", "g0", [], [], []⟩
        ⟨[("w1.output", ⟨"w1.output", "secret", "w1", []⟩)]⟩
      = .ok (composeUserInput "g0" [] []) ∧
     (∀ ctx2 : RunContext,
        composedInputFor ⟨"w0", "generalist", "g0", [], [], []⟩
            ⟨[("w1.output", ⟨"w1.output", "secret", "w1", []⟩)]⟩
          = composedInputFor ⟨"w0", "generalist", "g0", [], [], []⟩ ctx2)) ∧
    (∀ k, (((snapshotSelected
          (⟨[("w1.output", ⟨"w1.output", "secret", "w1", []⟩)]⟩ : RunContext)
          ["w1.output"]).toOption.getD []).lookup k).isSome ↔ k ∈ ["w1.output"]) := by
  refine ⟨C9_selective_context_isolation.1 ⟨"w0", "generalist", "g0", [], [], []⟩
      ⟨[("w1.output", ⟨"w1.output", "secret", "w1", []⟩)]⟩ rfl, ?_⟩
  have h2 := (C9_selective_context_isolation.2 ⟨"w2", "generalist", "g2", [], [], ["w1.output"]⟩
      ⟨[("w1.output", ⟨"w1.output", "secret", "w1", []⟩)]⟩
      [("w1.output", snapshotEntryJ ⟨"w1.output", "secret", "w1", []⟩)] (by rfl)).2
  intro k
  exact h2 k

/-! ## Claim C8 — single-item orchestration parity -/

/-- C8: for a one-element WorkItem list, `run_work_items` returns exactly
the item's raw agent output — no header, no trimming, no wrapping: the
returned string equals the agent's output on the item's composed input
(goal plus its own inputs, empty snapshot), so orchestrating one item is
indistinguishable from calling the agent directly.  The first conjunct
gives the successful run for an item without dependencies; the second
shows every successful one-item run returns the raw output. -/
theorem C8_single_item_parity (reg : AgentRegistry) (policy : OrchestratorPolicy)
    (wi : WorkItem) (agent : String → String)
    (hagent : reg wi.assignedAgent = some agent)
    (hmax : 1 ≤ policy.maxWorkItems) :
    (wi.dependsOn = [] →
       runWorkItems reg policy [wi]
         = .ok (agent (composeUserInput wi.goal wi.inputs []))) ∧
    (∀ out, runWorkItems reg policy [wi] = .ok out →
       out = agent (composeUserInput wi.goal wi.inputs [])) := by
  have hlen : ¬ ([wi].length > policy.maxWorkItems) := by
    simp only [List.length_singleton]
    omega
  have hrun : wi.dependsOn = [] →
      runWorkItems reg policy [wi]
        = .ok (agent (composeUserInput wi.goal wi.inputs [])) := by
    intro hdep
    unfold runWorkItems
    rw [if_neg hlen]
    have hready : selectReadyWorkItems [wi] ⟨[]⟩ = [wi] := by
      simp [selectReadyWorkItems, hdep]
    unfold orchLoop
    simp only [List.isEmpty_cons, hready]
    have hone : runOneSync reg wi ⟨[]⟩
        = .ok (agent (composeUserInput wi.goal wi.inputs [])) := by
      unfold runOneSync
      rw [hagent]
      simp only [composedInputFor, hdep]
      rfl
    simp only [List.length_singleton, hone]
    simp only [List.map_cons, List.map_nil, Bool.or_true, if_true]
    unfold recordOutput
    simp only [List.lookup_nil, Option.isSome_none, Bool.false_eq_true, if_neg,
      Bool.not_eq_true]
    unfold orchLoop
    simp [mergeResultsDeterministically, setAssoc, Except.map, bind, Except.bind,
      List.lookup]
  refine ⟨hrun, ?_⟩
  intro out hout
  cases hdep : wi.dependsOn with
  | nil =>
    rw [hrun hdep] at hout
    cases hout
    rfl
  | cons d ds =>
    exfalso
    unfold runWorkItems at hout
    rw [if_neg hlen] at hout
    unfold orchLoop at hout
    have hready : selectReadyWorkItems [wi] ⟨[]⟩ = [] := by
      simp [selectReadyWorkItems, hdep]
    simp only [List.isEmpty_cons, hready] at hout
    have hdetail : missingDetailOf [wi] ⟨[]⟩ = [(wi.id, d :: ds)] := by
      simp [missingDetailOf, hdep]
    rw [hdetail] at hout
    simp [Except.map] at hout

/-- Witness for C8: a concrete fake agent and one work item. -/
theorem C8_witness :
    runWorkItems (fun r => if r = "generalist" then some (fun s => "OK:" ++ s) else none)
        {} [⟨"w1", "generalist", "hello", [], [], []⟩]
      = .ok ((fun s => "OK:" ++ s) (composeUserInput "hello" [] [])) :=
  (C8_single_item_parity
      (fun r => if r = "generalist" then some (fun s => "OK:" ++ s) else none)
      {} ⟨"w1", "generalist", "hello", [], [], []⟩ (fun s => "OK:" ++ s)
      (by rfl) (by decide)).1 rfl

/-! ## Claim C6 — empty-ready faults -/

/-- Bind on an `Except` error short-circuits. -/
theorem exceptBind_err {ε α β : Type} (e : ε) (f : α → Except ε β) :
    (Except.error e >>= f) = Except.error e := rfl

/-- Bind on an `Except` success applies the continuation. -/
theorem exceptBind_ok {ε α β : Type} (a : α) (f : α → Except ε β) :
    (Except.ok a >>= f) = f a := rfl

/-- A failing selective snapshot reports missing snapshot keys. -/
theorem snapshotSelected_error_shape (ctx : RunContext) (keys : List String) (e : OrchFault)
    (h : snapshotSelected ctx keys = .error e) : ∃ ks, e = .missingSnapshotKeys ks := by
  simp only [snapshotSelected] at h
  split at h
  · exact ⟨_, (Except.error.injEq _ _).mp h.symm⟩
  · cases h

/-- A failing input composition comes from a failing snapshot. -/
theorem composedInputFor_error_shape (wi : WorkItem) (ctx : RunContext) (e : OrchFault)
    (h : composedInputFor wi ctx = .error e) : ∃ ks, e = .missingSnapshotKeys ks := by
  unfold composedInputFor at h
  cases hd : wi.dependsOn.isEmpty with
  | true => rw [hd] at h; simp only [if_true] at h; cases h
  | false =>
    rw [hd] at h
    simp only [Bool.false_eq_true, if_false] at h
    cases hs : snapshotSelected ctx wi.dependsOn with
    | ok sel => rw [hs] at h; rw [exceptBind_ok] at h; cases h
    | error e2 =>
      rw [hs, exceptBind_err] at h
      have he : e = e2 := ((Except.error.injEq _ _).mp h).symm
      subst he
      exact snapshotSelected_error_shape ctx wi.dependsOn e hs

/-- A failing `_run_one_sync` is an unknown role or a missing snapshot key. -/
theorem runOneSync_error_shape (reg : AgentRegistry) (wi : WorkItem) (ctx : RunContext)
    (e : OrchFault) (h : runOneSync reg wi ctx = .error e) :
    (∃ n, e = .unknownRole n) ∨ (∃ ks, e = .missingSnapshotKeys ks) := by
  unfold runOneSync at h
  cases hr : reg wi.assignedAgent with
  | none =>
    rw [hr] at h
    exact Or.inl ⟨_, ((Except.error.injEq _ _).mp h).symm⟩
  | some agent =>
    rw [hr] at h
    cases hc : composedInputFor wi ctx with
    | ok s => rw [hc] at h; cases h
    | error e2 =>
      rw [hc] at h
      have he : e = e2 := ((Except.error.injEq _ _).mp h).symm
      subst he
      exact Or.inr (composedInputFor_error_shape wi ctx e hc)

/-- A failing `_record_output` is a duplicate artifact key. -/
theorem recordOutput_error_shape (wi : WorkItem) (out : String) (ctx : RunContext)
    (results : List (String × String)) (e : OrchFault)
    (h : recordOutput wi out ctx results = .error e) : ∃ k, e = .duplicateArtifact k := by
  simp only [recordOutput] at h
  split at h
  · exact ⟨_, (Except.error.injEq _ _).mp h.symm⟩
  · cases h

/-- A failing parallel wave is one of its items failing. -/
theorem waveOutputs_error_shape (reg : AgentRegistry) (ctx : RunContext) :
    ∀ (wave : List WorkItem) (e : OrchFault), waveOutputs reg wave ctx = .error e →
    (∃ n, e = .unknownRole n) ∨ (∃ ks, e = .missingSnapshotKeys ks) := by
  intro wave
  induction wave with
  | nil => intro e h; cases h
  | cons w ws ih =>
    intro e h
    unfold waveOutputs at h
    rw [List.mapM_cons] at h
    cases hw : runOneSync reg w ctx with
    | error e2 =>
      rw [hw] at h
      rw [show (Except.map (fun out => (w, out)) (Except.error e2) : Except OrchFault (WorkItem × String))
          = Except.error e2 from rfl] at h
      rw [exceptBind_err] at h
      have he : e = e2 := ((Except.error.injEq _ _).mp h).symm
      subst he
      exact runOneSync_error_shape reg w ctx e hw
    | ok out =>
      rw [hw] at h
      rw [show (Except.map (fun out2 => (w, out2)) (Except.ok out) : Except OrchFault (WorkItem × String))
          = Except.ok (w, out) from rfl] at h
      rw [exceptBind_ok] at h
      cases hrest : (ws.mapM (fun wi => Except.map (fun out2 => (wi, out2)) (runOneSync reg wi ctx))) with
      | error e3 =>
        rw [hrest] at h
        rw [exceptBind_err] at h
        have he : e = e3 := ((Except.error.injEq _ _).mp h).symm
        subst he
        exact ih e (by unfold waveOutputs; exact hrest)
      | ok outs =>
        rw [hrest] at h
        rw [exceptBind_ok] at h
        cases h

/-- A failing wave recording is a duplicate artifact key. -/
theorem recordWave_error_shape :
    ∀ (outs : List (WorkItem × String)) (ctx : RunContext)
      (results : List (String × String)) (e : OrchFault),
    recordWave outs ctx results = .error e → ∃ k, e = .duplicateArtifact k := by
  intro outs
  induction outs with
  | nil => intro ctx results e h; cases h
  | cons p rest ih =>
    intro ctx results e h
    obtain ⟨wi, out⟩ := p
    unfold recordWave at h
    cases hr : recordOutput wi out ctx results with
    | error e2 =>
      rw [hr, exceptBind_err] at h
      have he : e = e2 := ((Except.error.injEq _ _).mp h).symm
      subst he
      exact recordOutput_error_shape wi out ctx results e hr
    | ok pr =>
      rw [hr, exceptBind_ok] at h
      exact ih pr.1 pr.2 e h

/-- When no item is ready but items remain, some remaining item has a
missing dependency key, so the report is non-empty. -/
theorem missingDetail_ne_nil_of_no_ready (remaining : List WorkItem) (ctx : RunContext)
    (hne : remaining ≠ [])
    (hready : selectReadyWorkItems remaining ctx = []) :
    missingDetailOf remaining ctx ≠ [] := by
  cases remaining with
  | nil => exact absurd rfl hne
  | cons w ws =>
    intro hdet
    have hw := List.filterMap_eq_nil_iff.mp hdet w (List.mem_cons_self w ws)
    simp only at hw
    have hmiss : (w.dependsOn.filter (fun d => ((ctx.artifacts.lookup d).isNone : Bool))) = [] := by
      by_contra hx
      simp [hx] at hw
    have hall : ∀ d ∈ w.dependsOn, ((ctx.artifacts.lookup d).isSome : Bool) = true := by
      intro d hd
      by_contra hds
      have hdm : d ∈ w.dependsOn.filter (fun d2 => ((ctx.artifacts.lookup d2).isNone : Bool)) := by
        rw [List.mem_filter]
        refine ⟨hd, ?_⟩
        have : ctx.artifacts.lookup d = none := Option.not_isSome_iff_eq_none.mp (by simpa using hds)
        simp [this]
      rw [hmiss] at hdm
      simp at hdm
    have hwready : w ∈ selectReadyWorkItems (w :: ws) ctx := by
      rw [selectReadyWorkItems, List.mem_filter]
      refine ⟨List.mem_cons_self w ws, ?_⟩
      rw [List.all_eq_true]
      exact hall
    rw [hready] at hwready
    simp at hwready

/-- The orchestrator loop never raises the "no runnable items" fault: an
empty ready set with remaining items always carries a non-empty
missing-artifact report, so the cycle branch is dead code. -/
theorem orchLoop_ne_noRunnable (reg : AgentRegistry) (policy : OrchestratorPolicy) :
    ∀ (fuel : Nat) (remaining : List WorkItem) (ctx : RunContext)
      (results : List (String × String)),
    orchLoop reg policy fuel remaining ctx results ≠ .error .noRunnableWorkItems := by
  intro fuel
  induction fuel with
  | zero =>
    intro remaining ctx results
    unfold orchLoop
    split <;> simp
  | succ fuel ih =>
    intro remaining ctx results
    unfold orchLoop
    cases hrem : remaining.isEmpty with
    | true => simp
    | false =>
      simp only [Bool.false_eq_true, if_false]
      cases hready : selectReadyWorkItems remaining ctx with
      | nil =>
        have hne : remaining ≠ [] := by
          intro hx; rw [hx] at hrem; simp at hrem
        have hdet := missingDetail_ne_nil_of_no_ready remaining ctx hne hready
        rw [if_pos (by simpa using hdet)]
        simp
      | cons wi0 readyRest =>
        simp only []
        cases hstep : (if !policy.enableParallel || (wi0 :: readyRest).length == 1 then do
            let out ← runOneSync reg wi0 ctx
            recordOutput wi0 out ctx results
          else do
            let outs ← waveOutputs reg (wi0 :: readyRest) ctx
            recordWave outs ctx results) with
        | error e =>
          intro hcontra
          have he : e = OrchFault.noRunnableWorkItems := (Except.error.injEq _ _).mp hcontra
          subst he
          revert hstep
          split
          · intro hstep
            cases hrun : runOneSync reg wi0 ctx with
            | error e2 =>
              rw [hrun, exceptBind_err] at hstep
              have he2 : OrchFault.noRunnableWorkItems = e2 := (Except.error.injEq _ _).mp hstep.symm
              rcases runOneSync_error_shape reg wi0 ctx _ hrun with ⟨n, hn⟩ | ⟨ks, hks⟩ <;>
                simp_all
            | ok out =>
              rw [hrun, exceptBind_ok] at hstep
              rcases recordOutput_error_shape wi0 out ctx results _ hstep with ⟨k, hk⟩
              simp_all
          · intro hstep
            cases hwv : waveOutputs reg (wi0 :: readyRest) ctx with
            | error e2 =>
              rw [hwv, exceptBind_err] at hstep
              have he2 : OrchFault.noRunnableWorkItems = e2 := (Except.error.injEq _ _).mp hstep.symm
              rcases waveOutputs_error_shape reg ctx _ _ hwv with ⟨n, hn⟩ | ⟨ks, hks⟩ <;>
                simp_all
            | ok outs =>
              rw [hwv, exceptBind_ok] at hstep
              rcases recordWave_error_shape outs ctx results _ hstep with ⟨k, hk⟩
              simp_all
        | ok pr =>
          exact ih _ _ _

/-- C6 counterexample: a two-item dependency cycle raises the
missing-artifacts fault (`KeyError`), not the distinct "no runnable items"
fault the claim assigns to cycles. -/
theorem C6_counterexample :
    runWorkItems (fun _ => some (fun s => s)) {}
        [⟨"A", "generalist", "ga", [], [], ["B.output"]⟩,
         ⟨"B", "generalist", "gb", [], [], ["A.output"]⟩]
      = .error (.missingArtifacts [("A", ["B.output"]), ("B", ["A.output"])]) ∧
    runWorkItems (fun _ => some (fun s => s)) {}
        [⟨"A", "generalist", "ga", [], [], ["B.output"]⟩,
         ⟨"B", "generalist", "gb", [], [], ["A.output"]⟩]
      ≠ .error .noRunnableWorkItems := by
  have h1 : runWorkItems (fun _ => some (fun s => s)) {}
      [⟨"A", "generalist", "ga", [], [], ["B.output"]⟩,
       ⟨"B", "generalist", "gb", [], [], ["A.output"]⟩]
      = .error (.missingArtifacts [("A", ["B.output"]), ("B", ["A.output"])]) := rfl
  refine ⟨h1, ?_⟩
  rw [h1]
  simp

/-- C6 (amended): whenever the ready set is empty while work items remain,
some remaining item necessarily has a missing dependency key, and the loop
raises the missing-artifacts fault naming exactly which keys are missing
for which items.  This covers cyclic `depends_on` graphs as well, so the
distinct "no runnable items" fault is unreachable: `run_work_items` never
raises it. -/
theorem C6_empty_ready_raises_missing_artifacts :
    (∀ (reg : AgentRegistry) (policy : OrchestratorPolicy) (fuel : Nat)
       (remaining : List WorkItem) (ctx : RunContext) (results : List (String × String)),
       remaining ≠ [] →
       selectReadyWorkItems remaining ctx = [] →
       orchLoop reg policy (fuel + 1) remaining ctx results
           = .error (.missingArtifacts (missingDetailOf remaining ctx)) ∧
         missingDetailOf remaining ctx ≠ []) ∧
    (∀ (reg : AgentRegistry) (policy : OrchestratorPolicy) (items : List WorkItem),
       runWorkItems reg policy items ≠ .error .noRunnableWorkItems) := by
  constructor
  · intro reg policy fuel remaining ctx results hne hready
    have hdet := missingDetail_ne_nil_of_no_ready remaining ctx hne hready
    refine ⟨?_, hdet⟩
    unfold orchLoop
    rw [if_neg (by simpa using hne)]
    rw [hready]
    rw [if_pos (by simpa using hdet)]
  · intro reg policy items
    unfold runWorkItems
    split
    · simp
    · intro h
      cases hl : orchLoop reg policy items.length items ⟨[]⟩ [] with
      | ok v => rw [hl] at h; cases h
      | error e =>
        rw [hl] at h
        have he : e = OrchFault.noRunnableWorkItems := by
          have := (Except.error.injEq _ _).mp (by exact h)
          exact this
        subst he
        exact orchLoop_ne_noRunnable reg policy items.length items ⟨[]⟩ [] hl

/-- Witness for C6 (amended) at the concrete two-item cycle. -/
theorem C6_witness :
    orchLoop (fun _ => some (fun s => s)) {} 1
        [⟨"A", "generalist", "ga", [], [], ["B.output"]⟩,
         ⟨"B", "generalist", "gb", [], [], ["A.output"]⟩] ⟨[]⟩ []
      = .error (.missingArtifacts
          (missingDetailOf
            [⟨"A", "generalist", "ga", [], [], ["B.output"]⟩,
             ⟨"B", "generalist", "gb", [], [], ["A.output"]⟩] ⟨[]⟩)) ∧
    missingDetailOf
        [⟨"A", "generalist", "ga", [], [], ["B.output"]⟩,
         ⟨"B", "generalist", "gb", [], [], ["A.output"]⟩] ⟨[]⟩ ≠ [] :=
  C6_empty_ready_raises_missing_artifacts.1 (fun _ => some (fun s => s)) {} 0
    [⟨"A", "generalist", "ga", [], [], ["B.output"]⟩,
     ⟨"B", "generalist", "gb", [], [], ["A.output"]⟩] ⟨[]⟩ []
    (by decide) (by rfl)

/-! ## Claims C1 and C10 — forbidden-set evolution in the replanning loop -/

/-- A registry with a single tool `boom` whose implementation always raises
(a hard tool failure, like `always_fail` in tools.py). -/
def hardFailToolReg : ToolRegistry :=
  fun n => if n = "boom" then some (some (fun _ => .error "kaboom")) else none

/-- A one-tool-step plan calling `boom`. -/
def hardFailPlan : Plan :=
  ⟨"g", [{ id := "s1", description := "", tool := some "boom", args := some [], requires := [] }]⟩

/-- A planner oracle that replans the same failing plan. -/
def hardFailOracle : PlannerOracle := fun _ => hardFailPlan

/-- C1 counterexample: a turn in which every attempt is a hard tool failure
of `boom` (the tool callable runs in each of the three attempts), yet the
forbidden set passed to both replan requests stays empty — the failing
tool's name is never added on a hard failure. -/
theorem C1_counterexample :
    (executeWithReplanning {} hardFailToolReg hardFailOracle "u" hardFailPlan).events
        = [.hardFail "kaboom", .hardFail "kaboom", .hardFail "kaboom"] ∧
    (executeWithReplanning {} hardFailToolReg hardFailOracle "u" hardFailPlan).invoked
        = ["s1", "s1", "s1"] ∧
    (executeWithReplanning {} hardFailToolReg hardFailOracle "u" hardFailPlan).requests.map
        (fun r => r.forbidden) = [[], []] ∧
    ∀ r ∈ (executeWithReplanning {} hardFailToolReg hardFailOracle "u" hardFailPlan).requests,
      "boom" ∉ r.forbidden := by
  refine ⟨rfl, rfl, rfl, ?_⟩
  decide

/-- How one attempt's failure event transforms the forbidden set: a hard
failure leaves it unchanged, a soft failure adds the tool name exactly when
the payload was not retryable and the name is non-empty (mirrors
planner_executor.py lines 145-147 and the hard branch 163-181, which does
not touch the set). -/
def stepForb (f : List String) (ev : TurnEvent) : List String :=
  match ev with
  | .hardFail _ => f
  | .softFail _ t retryable => if !retryable && t ≠ "" then addForbidden f t else f

/-- The forbidden sets of successive replan requests follow `stepForb`
along the per-attempt failure events, starting from `f`. -/
def ForbChain : List String → List ReplanRequest → List TurnEvent → Prop
  | _, [], [] => True
  | _, [], [_] => True
  | f, req :: reqs, ev :: events =>
      req.forbidden = stepForb f ev ∧ ForbChain req.forbidden reqs events
  | _, _ :: _, [] => False
  | _, [], _ :: _ :: _ => False

/-- The replanning loop's requests and events extend the accumulators by a
`ForbChain` chained from the entry forbidden set. -/
theorem replanLoop_forbChain (cfg : ExecConfig) (tools : ToolRegistry)
    (planner : PlannerOracle) (userInput : String) :
    ∀ (fuel : Nat) (plan : Plan) (obs : List (String × JVal)) (calls : List String)
      (ru : Nat) (forbidden : List String) (lastF : Option String)
      (reqs : List ReplanRequest) (events : List TurnEvent) (inv : List String),
    ∃ newReqs newEvents,
      (replanLoop cfg tools planner userInput fuel plan obs calls ru forbidden lastF
          reqs events inv).requests = reqs ++ newReqs ∧
      (replanLoop cfg tools planner userInput fuel plan obs calls ru forbidden lastF
          reqs events inv).events = events ++ newEvents ∧
      ForbChain forbidden newReqs newEvents := by
  intro fuel
  induction fuel with
  | zero =>
    intro plan obs calls ru forbidden lastF reqs events inv
    exact ⟨[], [], by simp [replanLoop], by simp [replanLoop], trivial⟩
  | succ fuel ih =>
    intro plan obs calls ru forbidden lastF reqs events inv
    unfold replanLoop
    cases hexec : executePlan cfg tools plan obs with
    | ok res einv =>
      exact ⟨[], [], by simp, by simp, trivial⟩
    | softFailure sid tname reason payload localObs einv =>
      dsimp only
      by_cases hbud : ru + 1 > cfg.maxReplans
      · simp only [if_pos hbud]
        exact ⟨[], [.softFail sid tname (payloadRetryable payload)], by simp, by simp, trivial⟩
      · simp only [if_neg hbud]
        obtain ⟨nR, nE, hR, hE, hC⟩ := ih
          (planner ⟨userInput, formatObservations cfg obs,
            "Soft failure in step '" ++ sid ++ "' tool '" ++ tname ++ "': " ++ reason,
            if !payloadRetryable payload && tname ≠ "" then addForbidden forbidden tname
              else forbidden⟩)
          obs calls (ru + 1)
          (if !payloadRetryable payload && tname ≠ "" then addForbidden forbidden tname
            else forbidden)
          (some ("Soft failure in step '" ++ sid ++ "' tool '" ++ tname ++ "': " ++ reason))
          (reqs ++ [⟨userInput, formatObservations cfg obs,
            "Soft failure in step '" ++ sid ++ "' tool '" ++ tname ++ "': " ++ reason,
            if !payloadRetryable payload && tname ≠ "" then addForbidden forbidden tname
              else forbidden⟩])
          (events ++ [.softFail sid tname (payloadRetryable payload)]) (inv ++ einv)
        refine ⟨⟨userInput, formatObservations cfg obs,
            "Soft failure in step '" ++ sid ++ "' tool '" ++ tname ++ "': " ++ reason,
            if !payloadRetryable payload && tname ≠ "" then addForbidden forbidden tname
              else forbidden⟩ :: nR,
          .softFail sid tname (payloadRetryable payload) :: nE, ?_, ?_, ?_⟩
        · rw [hR]; simp
        · rw [hE]; simp
        · exact ⟨rfl, hC⟩
    | hardFailure msg einv =>
      dsimp only
      by_cases hbud : ru + 1 > cfg.maxReplans
      · simp only [if_pos hbud]
        exact ⟨[], [.hardFail msg], by simp, by simp, trivial⟩
      · simp only [if_neg hbud]
        obtain ⟨nR, nE, hR, hE, hC⟩ := ih
          (planner ⟨userInput, formatObservations cfg obs,
            "Hard failure during tool execution: " ++ msg, forbidden⟩)
          obs calls (ru + 1) forbidden
          (some ("Hard failure during tool execution: " ++ msg))
          (reqs ++ [⟨userInput, formatObservations cfg obs,
            "Hard failure during tool execution: " ++ msg, forbidden⟩])
          (events ++ [.hardFail msg]) (inv ++ einv)
        refine ⟨⟨userInput, formatObservations cfg obs,
            "Hard failure during tool execution: " ++ msg, forbidden⟩ :: nR,
          .hardFail msg :: nE, ?_, ?_, ?_⟩
        · rw [hR]; simp
        · rw [hE]; simp
        · exact ⟨rfl, hC⟩

/-- The forbidden set in force just before request `i`: the entry set for
the first request, the previous request's set afterwards. -/
def forbBefore (f : List String) (reqs : List ReplanRequest) : Nat → List String
  | 0 => f
  | Nat.succ j => ((reqs[j]?).map (fun r => r.forbidden)).getD f

/-- `stepForb` never removes a tool from the forbidden set. -/
theorem stepForb_subset (f : List String) (ev : TurnEvent) :
    ∀ t, t ∈ f → t ∈ stepForb f ev := by
  intro t ht
  cases ev with
  | hardFail msg => exact ht
  | softFail sid tname retryable =>
    show t ∈ (if !retryable && tname ≠ "" then addForbidden f tname else f)
    by_cases hc : (!retryable && decide (tname ≠ "")) = true
    · rw [if_pos hc]
      unfold addForbidden
      by_cases hm : f.contains tname
      · rw [if_pos hm]; exact ht
      · rw [if_neg hm]; exact List.mem_append_left _ ht
    · rw [if_neg hc]; exact ht

/-- The added tool is in the forbidden set. -/
theorem mem_addForbidden_self (f : List String) (t : String) : t ∈ addForbidden f t := by
  unfold addForbidden
  by_cases hm : f.contains t
  · rw [if_pos hm]
    simpa using hm
  · rw [if_neg hm]
    exact List.mem_append_right _ (List.mem_singleton.mpr rfl)

/-- Along a `ForbChain`, every request's forbidden set is the previous one
transformed by that attempt's failure event. -/
theorem forbChain_step_eq :
    ∀ (reqs : List ReplanRequest) (f : List String) (events : List TurnEvent),
    ForbChain f reqs events →
    ∀ i req ev, reqs[i]? = some req → events[i]? = some ev →
    req.forbidden = stepForb (forbBefore f reqs i) ev := by
  intro reqs
  induction reqs with
  | nil => intro f events _ i req ev hreq _; simp at hreq
  | cons r rs ih =>
    intro f events hC i req ev hreq hev
    cases events with
    | nil => exact absurd hC (by simp [ForbChain])
    | cons e es =>
      obtain ⟨hhead, htail⟩ := hC
      cases i with
      | zero =>
        simp only [List.getElem?_cons_zero, Option.some.injEq] at hreq hev
        subst hreq
        subst hev
        exact hhead
      | succ j =>
        simp only [List.getElem?_cons_succ] at hreq hev
        have hstep := ih r.forbidden es htail j req ev hreq hev
        rw [hstep]
        congr 1
        cases j with
        | zero => simp [forbBefore]
        | succ k =>
          have hk : k < rs.length := by
            have h1 : k + 1 < rs.length := by
              by_contra hx
              rw [List.getElem?_eq_none (by omega)] at hreq
              cases hreq
            omega
          simp [forbBefore, List.getElem?_cons_succ, List.getElem?_eq_getElem hk]

/-- Along a `ForbChain`, forbidden sets grow monotonically: the entry set is
contained in every request's set, and earlier requests' sets in later ones. -/
theorem forbChain_mono :
    ∀ (reqs : List ReplanRequest) (f : List String) (events : List TurnEvent),
    ForbChain f reqs events →
    (∀ (i : Nat) (ri : ReplanRequest), reqs[i]? = some ri →
      ∀ t, t ∈ f → t ∈ ri.forbidden) ∧
    (∀ (i j : Nat) (ri rj : ReplanRequest), i ≤ j → reqs[i]? = some ri →
      reqs[j]? = some rj → ∀ t, t ∈ ri.forbidden → t ∈ rj.forbidden) := by
  intro reqs
  induction reqs with
  | nil =>
    intro f events _
    constructor
    · intro i ri hri; simp at hri
    · intro i j ri rj _ hri; simp at hri
  | cons r rs ih =>
    intro f events hC
    cases events with
    | nil => exact absurd hC (by simp [ForbChain])
    | cons e es =>
      obtain ⟨hhead, htail⟩ := hC
      obtain ⟨ih1, ih2⟩ := ih r.forbidden es htail
      have hentry : ∀ t, t ∈ f → t ∈ r.forbidden := by
        intro t ht
        rw [hhead]
        exact stepForb_subset f e t ht
      constructor
      · intro i ri hri t ht
        cases i with
        | zero =>
          simp only [List.getElem?_cons_zero, Option.some.injEq] at hri
          subst hri
          exact hentry t ht
        | succ j =>
          simp only [List.getElem?_cons_succ] at hri
          exact ih1 j ri hri t (hentry t ht)
      · intro i j ri rj hij hri hrj t ht
        cases i with
        | zero =>
          simp only [List.getElem?_cons_zero, Option.some.injEq] at hri
          subst hri
          cases j with
          | zero =>
            simp only [List.getElem?_cons_zero, Option.some.injEq] at hrj
            subst hrj
            exact ht
          | succ k =>
            simp only [List.getElem?_cons_succ] at hrj
            exact ih1 k rj hrj t ht
        | succ a =>
          cases j with
          | zero => omega
          | succ b =>
            simp only [List.getElem?_cons_succ] at hri hrj
            exact ih2 a b ri rj (by omega) hri hrj t ht

/-- C1 (amended): within one user turn of the replanning loop, a hard tool
failure leaves the forbidden set unchanged (the failing tool's name is not
available in that branch and nothing is added), so the forbidden set passed
to the replan request after a hard failure equals the set in force before
it; only a soft failure whose payload is not marked retryable adds its
(non-empty) tool name, and each added name is contained in that replan
request's forbidden set and in every subsequent one of the turn. -/
theorem C1_forbidden_set_evolution (cfg : ExecConfig) (tools : ToolRegistry)
    (planner : PlannerOracle) (userInput : String) (plan : Plan) :
    (∀ (i : Nat) (req : ReplanRequest) (msg : String),
        (executeWithReplanning cfg tools planner userInput plan).requests[i]? = some req →
        (executeWithReplanning cfg tools planner userInput plan).events[i]?
            = some (.hardFail msg) →
        req.forbidden
          = forbBefore [] (executeWithReplanning cfg tools planner userInput plan).requests i) ∧
    (∀ (i : Nat) (req : ReplanRequest) (sid t : String),
        (executeWithReplanning cfg tools planner userInput plan).requests[i]? = some req →
        (executeWithReplanning cfg tools planner userInput plan).events[i]?
            = some (.softFail sid t false) →
        t ≠ "" → t ∈ req.forbidden) ∧
    (∀ (i j : Nat) (ri rj : ReplanRequest), i ≤ j →
        (executeWithReplanning cfg tools planner userInput plan).requests[i]? = some ri →
        (executeWithReplanning cfg tools planner userInput plan).requests[j]? = some rj →
        ∀ t, t ∈ ri.forbidden → t ∈ rj.forbidden) := by
  obtain ⟨nR, nE, hR, hE, hC⟩ := replanLoop_forbChain cfg tools planner userInput
    (cfg.maxReplans + 2) plan [] [] 0 [] none [] [] []
  have hReq : (executeWithReplanning cfg tools planner userInput plan).requests = nR := by
    rw [executeWithReplanning, hR]; simp
  have hEv : (executeWithReplanning cfg tools planner userInput plan).events = nE := by
    rw [executeWithReplanning, hE]; simp
  refine ⟨?_, ?_, ?_⟩
  · intro i req msg hreq hev
    rw [hReq] at hreq ⊢
    rw [hEv] at hev
    exact forbChain_step_eq nR [] nE hC i req (.hardFail msg) hreq hev
  · intro i req sid t hreq hev ht
    rw [hReq] at hreq
    rw [hEv] at hev
    have hstep := forbChain_step_eq nR [] nE hC i req (.softFail sid t false) hreq hev
    rw [hstep]
    show t ∈ (if !false && t ≠ "" then addForbidden (forbBefore [] nR i) t
      else forbBefore [] nR i)
    rw [if_pos (by simp [ht])]
    exact mem_addForbidden_self _ t
  · intro i j ri rj hij hri hrj t ht
    rw [hReq] at hri hrj
    exact (forbChain_mono nR [] nE hC).2 i j ri rj hij hri hrj t ht

/-- A registry with a single tool `frail` returning a soft-failure payload
without a `retryable` field (conservatively treated as not retryable). -/
def softFailToolReg : ToolRegistry :=
  fun n => if n = "frail" then
    some (some (fun _ => .ok (.obj [("ok", .bool false), ("reason", .str "nope")])))
  else none

/-- A one-tool-step plan calling `frail`. -/
def softFailPlan : Plan :=
  ⟨"g", [{ id := "s1", description := "", tool := some "frail", args := some [], requires := [] }]⟩

/-- A planner oracle replanning the same `frail` plan. -/
def softFailOracle : PlannerOracle := fun _ => softFailPlan

/-- Witness for C1 (amended) at the concrete non-retryable soft failure:
the failing tool is in the first replan request's forbidden set. -/
theorem C1_witness :
    "frail" ∈ (ReplanRequest.mk "u" "(none)"
      "Soft failure in step 's1' tool 'frail': nope" ["frail"]).forbidden ∧
    (executeWithReplanning {} softFailToolReg softFailOracle "u" softFailPlan).requests[0]?
      = some (ReplanRequest.mk "u" "(none)"
          "Soft failure in step 's1' tool 'frail': nope" ["frail"]) :=
  ⟨(C1_forbidden_set_evolution {} softFailToolReg softFailOracle "u" softFailPlan).2.1
      0 (ReplanRequest.mk "u" "(none)"
          "Soft failure in step 's1' tool 'frail': nope" ["frail"]) "s1" "frail"
      (by rfl) (by rfl) (by decide),
    by rfl⟩

/-- A registry with a single tool `flaky` returning a soft-failure payload
explicitly marked retryable. -/
def retryableSoftReg : ToolRegistry :=
  fun n => if n = "flaky" then
    some (some (fun _ => .ok (.obj [("ok", .bool false), ("retryable", .bool true),
      ("reason", .str "try again")])))
  else none

/-- A one-tool-step plan calling `flaky`. -/
def retryableSoftPlan : Plan :=
  ⟨"g", [{ id := "s1", description := "", tool := some "flaky", args := some [], requires := [] }]⟩

/-- A planner oracle replanning the same `flaky` plan. -/
def retryableSoftOracle : PlannerOracle := fun _ => retryableSoftPlan

/-- C10: the executor does record the soft-failure payload under the step's
id before raising (first conjunct: the raised `SoftToolFailure` leaves the
executor's local observation dict holding the payload at `s1`).  But the
claimed consequence fails in the code: the local dict never reaches the
controller (`observations or {}` replaces the always-empty incoming dict
by a fresh one, and only the success path reassigns the controller's
variable), so each subsequent execution re-invokes the tool for the same
step id — three invocations of `s1` in one turn — and each replan request
carries an empty observation rendering. -/
theorem C10_soft_failure_payload_lost_and_step_reexecuted :
    executePlan {} retryableSoftReg retryableSoftPlan []
        = .softFailure "s1" "flaky" "try again"
            (.obj [("ok", .bool false), ("retryable", .bool true), ("reason", .str "try again")])
            [("s1", .obj [("ok", .bool false), ("retryable", .bool true),
              ("reason", .str "try again")])]
            ["s1"] ∧
    (executeWithReplanning {} retryableSoftReg retryableSoftOracle "u" retryableSoftPlan).invoked
        = ["s1", "s1", "s1"] ∧
    (executeWithReplanning {} retryableSoftReg retryableSoftOracle "u"
        retryableSoftPlan).requests.map (fun r => r.observationsText)
        = ["(none)", "(none)"] := by
  exact ⟨rfl, rfl, rfl⟩

/-! ## Kahn sort analysis (claims C4 and C7) -/

/-- Reflexivity of `charListLe`. -/
theorem charListLe_refl : ∀ xs, charListLe xs xs = true := by
  intro xs
  induction xs with
  | nil => simp [charListLe]
  | cons c cs ih => simp [charListLe, ih]

/-- Reflexivity of `strLexLe`. -/
theorem strLexLe_refl (a : String) : strLexLe a a = true :=
  charListLe_refl a.toList

/-- Transitivity of `strLexLe`. -/
theorem strLexLe_trans_str (a b c : String) (hab : strLexLe a b = true)
    (hbc : strLexLe b c = true) : strLexLe a c = true :=
  charListLe_trans a.toList b.toList c.toList hab hbc

instance : IsTotal String (fun a b => strLexLe a b = true) :=
  ⟨fun a b => strLexLe_total a b⟩

instance : IsTrans String (fun a b => strLexLe a b = true) :=
  ⟨fun a b c hab hbc => strLexLe_trans_str a b c hab hbc⟩

/-- `pySorted` output is sorted. -/
theorem pySorted_sorted (xs : List String) :
    (pySorted xs).Pairwise (fun a b => strLexLe a b = true) :=
  List.sorted_insertionSort (fun a b => strLexLe a b = true) xs

/-- `pySorted` output is a permutation of the input. -/
theorem pySorted_perm (xs : List String) : (pySorted xs).Perm xs :=
  List.perm_insertionSort (fun a b => strLexLe a b = true) xs

/-- `pySorted` preserves membership. -/
theorem mem_pySorted (xs : List String) (k : String) : k ∈ pySorted xs ↔ k ∈ xs :=
  (pySorted_perm xs).mem_iff

/-- `pySorted` preserves freedom from duplicates. -/
theorem pySorted_nodup (xs : List String) (h : xs.Nodup) : (pySorted xs).Nodup :=
  (pySorted_perm xs).nodup_iff.mpr h

/-- The requires list of the (unique) step with a given id, as `by_id` /
`deps` read it. -/
def reqOfFn (uniq : List PlanStep) (k : String) : List String :=
  ((uniq.find? (fun s => s.id == k)).map (fun s => s.requires)).getD []

/-- The requires of a step id restricted to ids present in the step list
(the edges the Kahn sort actually uses). -/
def reqInFn (uniq : List PlanStep) (k : String) : List String :=
  (reqOfFn uniq k).filter (fun r => uniq.any (fun t => t.id == r))

/-- A step id is available once all of its in-graph requirements are done
and it has not run yet. -/
def availIdP (uniq : List PlanStep) (done : List String) (k : String) : Prop :=
  k ∈ uniq.map (fun s => s.id) ∧ k ∉ done ∧ ∀ r ∈ reqInFn uniq k, r ∈ done

/-- On a list with pairwise-distinct ids, `find?` by id at a member's id
returns that member. -/
theorem find?_eq_of_nodup_ids (uniq : List PlanStep)
    (hids : (uniq.map (fun s => s.id)).Nodup) (s : PlanStep) (hs : s ∈ uniq) :
    uniq.find? (fun t => t.id == s.id) = some s := by
  induction uniq with
  | nil => simp at hs
  | cons u us ih =>
    rw [List.map_cons, List.nodup_cons] at hids
    rcases List.mem_cons.mp hs with heq | hmem
    · subst heq
      simp [List.find?]
    · have hne : u.id ≠ s.id := by
        intro hx
        exact hids.1 (hx ▸ List.mem_map_of_mem (fun t => t.id) hmem)
      rw [List.find?]
      rw [show (u.id == s.id) = false by simp [hne]]
      exact ih hids.2 hmem

/-- Loop invariant of `kahnLoop` over a step list `uniq` with distinct ids:
the dependency map holds exactly the unprocessed ids (in order) with their
unprocessed in-graph requirements, the ready list is the sorted duplicate-
free enumeration of the available ids, and the accumulator is a topological
prefix whose every element was the lexicographically least available id at
its position. -/
structure KInv (uniq : List PlanStep) (deps : List (String × List String))
    (ready : List String) (acc : List String) : Prop where
  keys_eq : deps.map Prod.fst
    = (uniq.map (fun s => s.id)).filter (fun k => !acc.contains k)
  vals_eq : ∀ p ∈ deps, p.2 = (reqInFn uniq p.1).filter (fun r => !acc.contains r)
  ready_sorted : List.Pairwise (fun a b => strLexLe a b = true) ready
  ready_nodup : ready.Nodup
  ready_iff : ∀ k, k ∈ ready ↔ availIdP uniq acc k
  acc_nodup : acc.Nodup
  acc_sub : ∀ k ∈ acc, k ∈ uniq.map (fun s => s.id)
  acc_step : ∀ i (hi : i < acc.length),
    availIdP uniq (acc.take i) (acc.get ⟨i, hi⟩) ∧
    (∀ k2, availIdP uniq (acc.take i) k2 → strLexLe (acc.get ⟨i, hi⟩) k2 = true)

/-- Filtering by "not yet processed" with an empty accumulator keeps
everything. -/
theorem filter_not_contains_nil (xs : List String) :
    xs.filter (fun k => !([] : List String).contains k) = xs := by
  induction xs with
  | nil => rfl
  | cons x rest ih => simp [List.filter, ih]

/-- The initial Kahn state satisfies the invariant. -/
theorem kahnInit (uniq : List PlanStep) (hids : (uniq.map (fun s => s.id)).Nodup) :
    KInv uniq (initialDeps uniq)
      (pySorted (((initialDeps uniq).filter (fun e => e.2.isEmpty)).map (fun e => e.1))) [] := by
  have hvals : ∀ p ∈ initialDeps uniq, p.2 = reqInFn uniq p.1 := by
    intro p hp
    unfold initialDeps at hp
    rcases List.mem_map.mp hp with ⟨s, hs, hps⟩
    subst hps
    simp only [reqInFn, reqOfFn]
    rw [find?_eq_of_nodup_ids uniq hids s hs]
    rfl
  have hkeys : (initialDeps uniq).map Prod.fst = uniq.map (fun s => s.id) := by
    unfold initialDeps
    rw [List.map_map]
    rfl
  exact {
    keys_eq := by rw [hkeys, filter_not_contains_nil]
    vals_eq := by
      intro p hp
      rw [hvals p hp, filter_not_contains_nil]
    ready_sorted := pySorted_sorted _
    ready_nodup := by
      apply pySorted_nodup
      have hsub : List.Sublist
          (((initialDeps uniq).filter (fun e => e.2.isEmpty)).map (fun e => e.1))
          ((initialDeps uniq).map (fun e => e.1)) :=
        List.Sublist.map _ ((initialDeps uniq).filter_sublist)
      exact hsub.nodup (by rw [show ((initialDeps uniq).map (fun e => e.1))
        = (initialDeps uniq).map Prod.fst from rfl, hkeys]; exact hids)
    ready_iff := by
      intro k
      rw [mem_pySorted]
      unfold availIdP
      constructor
      · intro hk
        rcases List.mem_map.mp hk with ⟨e, he, hek⟩
        have hef := List.mem_filter.mp he
        have hval := hvals e hef.1
        have hkeymem : k ∈ (initialDeps uniq).map Prod.fst :=
          hek ▸ List.mem_map_of_mem Prod.fst hef.1
        rw [hkeys] at hkeymem
        refine ⟨hkeymem, by simp, ?_⟩
        intro r hr
        exfalso
        have h2 : e.2 = [] := by simpa [List.isEmpty_iff] using hef.2
        rw [hval] at h2
        rw [← hek] at hr
        rw [h2] at hr
        simp at hr
      · rintro ⟨hmem, -, hreq⟩
        rw [← hkeys] at hmem
        rcases List.mem_map.mp hmem with ⟨e, he, hek⟩
        refine List.mem_map.mpr ⟨e, List.mem_filter.mpr ⟨he, ?_⟩, hek⟩
        rw [List.isEmpty_iff]
        rw [hvals e he]
        rw [hek]
        cases hr : reqInFn uniq k with
        | nil => simp [hr]
        | cons r rs =>
          exfalso
          have := hreq r (by rw [hr]; exact List.mem_cons_self r rs)
          simp at this
    acc_nodup := List.nodup_nil
    acc_sub := by simp
    acc_step := by simp }

/-- Mapping `fst` commutes with filtering on the first component. -/
theorem map_fst_filter_fst {β : Type} (p : String → Bool) :
    ∀ (l : List (String × β)),
    ((l.filter (fun e => p e.1)).map Prod.fst) = (l.map Prod.fst).filter p := by
  intro l
  induction l with
  | nil => rfl
  | cons e rest ih =>
    by_cases hp : p e.1
    · simp [List.filter, hp, ih]
    · simp [List.filter, hp, ih]

/-- Membership in an appended singleton. -/
theorem contains_append_singleton (acc : List String) (sid k : String) :
    ((acc ++ [sid]).contains k) = (acc.contains k || k == sid) := by
  by_cases h1 : k ∈ acc
  · simp [List.mem_append, h1]
  · by_cases h2 : k = sid
    · subst h2
      simp [List.mem_append, h1]
    · have : k ∉ acc ++ [sid] := by
        rw [List.mem_append]
        rintro (hx | hx)
        · exact h1 hx
        · exact h2 (List.mem_singleton.mp hx)
      simp [this, h1, h2]

/-- Filtering a unique key out of an association list drops exactly one
entry. -/
theorem filter_ne_key_length {β : Type} :
    ∀ (l : List (String × β)) (sid : String), (l.map Prod.fst).Nodup →
    sid ∈ l.map Prod.fst →
    (l.filter (fun e => e.1 != sid)).length + 1 = l.length := by
  intro l
  induction l with
  | nil => intro sid _ hmem; simp at hmem
  | cons e rest ih =>
    intro sid hnd hmem
    rw [List.map_cons, List.nodup_cons] at hnd
    by_cases he : e.1 = sid
    · have hrest : (rest.filter (fun e2 => e2.1 != sid)) = rest := by
        apply List.filter_eq_self.mpr
        intro e2 he2
        have : e2.1 ∈ rest.map Prod.fst := List.mem_map_of_mem Prod.fst he2
        simp only [bne_iff_ne, ne_eq]
        intro hx
        exact hnd.1 (by rw [he, ← hx]; exact this)
      simp [List.filter, he, hrest]
    · rcases List.mem_cons.mp hmem with hx | hx
      · exact absurd hx.symm he
      · have := ih sid hnd.2 hx
        simp only [List.filter, List.length_cons]
        rw [show (e.1 != sid) = true by simp [he]]
        simp only [List.length_cons]
        omega

/-- One Kahn iteration preserves the invariant (popping the least ready id)
and shrinks the dependency map by exactly one entry. -/
theorem kahnStep (uniq : List PlanStep) (hids : (uniq.map (fun s => s.id)).Nodup)
    (deps : List (String × List String)) (sid : String) (rest acc : List String)
    (hInv : KInv uniq deps (sid :: rest) acc) :
    KInv uniq
      ((deps.map (fun e => (e.1, e.2.filter (fun r => r != sid)))).filter (fun e => e.1 != sid))
      (pySorted (rest ++ ((deps.filter (fun e =>
          e.2.contains sid && (e.2.filter (fun r => r != sid)).isEmpty)).map (fun e => e.1))))
      (acc ++ [sid]) ∧
    ((deps.map (fun e => (e.1, e.2.filter (fun r => r != sid)))).filter
        (fun e => e.1 != sid)).length + 1 = deps.length := by
  have hkeysnd : (deps.map Prod.fst).Nodup := by
    rw [hInv.keys_eq]
    exact hids.filter _
  have hsid_avail : availIdP uniq acc sid :=
    (hInv.ready_iff sid).mp (List.mem_cons_self sid rest)
  have hsid_notin_acc : sid ∉ acc := hsid_avail.2.1
  have hsid_keys : sid ∈ deps.map Prod.fst := by
    rw [hInv.keys_eq]
    rw [List.mem_filter]
    refine ⟨hsid_avail.1, ?_⟩
    simp [hsid_notin_acc]
  have hready_val_nil : ∀ k, k ∈ sid :: rest → ∀ p ∈ deps, p.1 = k → p.2 = [] := by
    intro k hk p hp hp1
    have hk_avail := (hInv.ready_iff k).mp hk
    rw [hInv.vals_eq p hp, List.filter_eq_nil_iff]
    intro r hr
    have : r ∈ acc := hk_avail.2.2 r (hp1 ▸ hr)
    simp [this]
  have hkeys2 : ((deps.map (fun e => (e.1, e.2.filter (fun r => r != sid)))).filter
      (fun e => e.1 != sid)).map Prod.fst = (deps.map Prod.fst).filter (fun k => k != sid) := by
    rw [map_fst_filter_fst (fun k => k != sid)]
    rw [List.map_map]
    rfl
  have hlen : ((deps.map (fun e => (e.1, e.2.filter (fun r => r != sid)))).filter
      (fun e => e.1 != sid)).length + 1 = deps.length := by
    have h1 := filter_ne_key_length (deps.map (fun e => (e.1, e.2.filter (fun r => r != sid))))
      sid (by rw [List.map_map]; exact hkeysnd) (by rw [List.map_map]; exact hsid_keys)
    rw [h1, List.length_map]
  have hnewly : ∀ k, k ∈ ((deps.filter (fun e =>
      e.2.contains sid && (e.2.filter (fun r => r != sid)).isEmpty)).map (fun e => e.1)) ↔
      ∃ p ∈ deps, p.1 = k ∧ sid ∈ p.2 ∧ ∀ r ∈ p.2, r = sid := by
    intro k
    constructor
    · intro hk
      rcases List.mem_map.mp hk with ⟨e, he, hek⟩
      have hef := List.mem_filter.mp he
      have hcond := hef.2
      rw [Bool.and_eq_true] at hcond
      refine ⟨e, hef.1, hek, by simpa using hcond.1, ?_⟩
      intro r hr
      by_contra hrs
      have : r ∈ e.2.filter (fun r2 => r2 != sid) := by
        rw [List.mem_filter]
        exact ⟨hr, by simp [hrs]⟩
      rw [List.isEmpty_iff.mp hcond.2] at this
      simp at this
    · rintro ⟨p, hp, hpk, hsidmem, hall⟩
      refine List.mem_map.mpr ⟨p, List.mem_filter.mpr ⟨hp, ?_⟩, hpk⟩
      rw [Bool.and_eq_true]
      refine ⟨by simpa using hsidmem, ?_⟩
      rw [List.isEmpty_iff, List.filter_eq_nil_iff]
      intro r hr
      simp [hall r hr]
  have havail2 : ∀ k, availIdP uniq (acc ++ [sid]) k ↔
      (k ∈ rest ∨ k ∈ ((deps.filter (fun e =>
        e.2.contains sid && (e.2.filter (fun r => r != sid)).isEmpty)).map (fun e => e.1))) := by
    intro k
    constructor
    · rintro ⟨hk_ids, hk_notin, hk_req⟩
      have hk_notacc : k ∉ acc := fun hx => hk_notin (List.mem_append_left _ hx)
      have hk_ne_sid : k ≠ sid := fun hx =>
        hk_notin (List.mem_append_right _ (List.mem_singleton.mpr hx))
      have hk_keys : k ∈ deps.map Prod.fst := by
        rw [hInv.keys_eq, List.mem_filter]
        exact ⟨hk_ids, by simp [hk_notacc]⟩
      rcases List.mem_map.mp hk_keys with ⟨p, hp, hpk⟩
      have hval := hInv.vals_eq p hp
      by_cases hsid_in : sid ∈ p.2
      · right
        rw [hnewly k]
        refine ⟨p, hp, hpk, hsid_in, ?_⟩
        intro r hr
        have hr2 := hr
        rw [hval, List.mem_filter] at hr2
        have hr_req : r ∈ reqInFn uniq k := hpk ▸ hr2.1
        have hr_notacc : r ∉ acc := by simpa using hr2.2
        rcases List.mem_append.mp (hk_req r hr_req) with hx | hx
        · exact absurd hx hr_notacc
        · exact List.mem_singleton.mp hx
      · left
        have hempty : p.2 = [] := by
          rw [hval, List.filter_eq_nil_iff]
          intro r hr_req0
          have hr_req : r ∈ reqInFn uniq k := hpk ▸ hr_req0
          simp only [Bool.not_eq_true]
          rcases List.mem_append.mp (hk_req r hr_req) with hx | hx
          · simp [hx]
          · exfalso
            apply hsid_in
            have hrs : r = sid := List.mem_singleton.mp hx
            rw [hval, List.mem_filter]
            refine ⟨hrs ▸ hr_req0, ?_⟩
            simp [hsid_notin_acc]
        have hk_ready : k ∈ sid :: rest := by
          rw [hInv.ready_iff k]
          refine ⟨hk_ids, hk_notacc, ?_⟩
          intro r hr_req
          by_cases hracc : r ∈ acc
          · exact hracc
          · exfalso
            have : r ∈ p.2 := by
              rw [hval, List.mem_filter]
              exact ⟨hpk ▸ hr_req, by simp [hracc]⟩
            rw [hempty] at this
            simp at this
        rcases List.mem_cons.mp hk_ready with hx | hx
        · exact absurd hx hk_ne_sid
        · exact hx
    · rintro (hk | hk)
      · have hk_avail := (hInv.ready_iff k).mp (List.mem_cons_of_mem sid hk)
        have hk_ne_sid : k ≠ sid := by
          intro hx
          subst hx
          exact (List.nodup_cons.mp hInv.ready_nodup).1 hk
        refine ⟨hk_avail.1, ?_, ?_⟩
        · rw [List.mem_append]
          rintro (hx | hx)
          · exact hk_avail.2.1 hx
          · exact hk_ne_sid (List.mem_singleton.mp hx)
        · intro r hr
          exact List.mem_append_left _ (hk_avail.2.2 r hr)
      · rcases (hnewly k).mp hk with ⟨p, hp, hpk, hsidmem, hall⟩
        have hk_keys : k ∈ deps.map Prod.fst := hpk ▸ List.mem_map_of_mem Prod.fst hp
        rw [hInv.keys_eq, List.mem_filter] at hk_keys
        have hk_notacc : k ∉ acc := by simpa using hk_keys.2
        have hk_ne_sid : k ≠ sid := by
          intro hx
          have : p.2 = [] := hready_val_nil sid (List.mem_cons_self sid rest) p hp (hx ▸ hpk)
          rw [this] at hsidmem
          simp at hsidmem
        refine ⟨hk_keys.1, ?_, ?_⟩
        · rw [List.mem_append]
          rintro (hx | hx)
          · exact hk_notacc hx
          · exact hk_ne_sid (List.mem_singleton.mp hx)
        · intro r hr
          by_cases hracc : r ∈ acc
          · exact List.mem_append_left _ hracc
          · have : r ∈ p.2 := by
              rw [hInv.vals_eq p hp, List.mem_filter]
              exact ⟨hpk ▸ hr, by simp [hracc]⟩
            have hrs := hall r this
            rw [hrs]
            exact List.mem_append_right _ (List.mem_singleton.mpr rfl)
  refine ⟨?_, hlen⟩
  refine {
    keys_eq := ?_
    vals_eq := ?_
    ready_sorted := pySorted_sorted _
    ready_nodup := ?_
    ready_iff := ?_
    acc_nodup := ?_
    acc_sub := ?_
    acc_step := ?_ }
  · rw [hkeys2, hInv.keys_eq, List.filter_filter]
    apply List.filter_congr
    intro k _
    rw [contains_append_singleton]
    by_cases hks : k = sid <;> by_cases hacc : k ∈ acc <;> simp [hks, hacc, bne]
  · intro p' hp'
    have hpf := List.mem_filter.mp hp'
    rcases List.mem_map.mp hpf.1 with ⟨p, hp, hpp⟩
    have hval := hInv.vals_eq p hp
    rw [← hpp]
    simp only
    rw [hval, List.filter_filter]
    apply List.filter_congr
    intro r _
    rw [contains_append_singleton]
    by_cases hks : r = sid <;> by_cases hacc : r ∈ acc <;> simp [hks, hacc, bne]
  · apply pySorted_nodup
    rw [List.nodup_append]
    refine ⟨(List.nodup_cons.mp hInv.ready_nodup).2, ?_, ?_⟩
    · have hsub : List.Sublist
          ((deps.filter (fun e =>
            e.2.contains sid && (e.2.filter (fun r => r != sid)).isEmpty)).map (fun e => e.1))
          (deps.map (fun e => e.1)) :=
        List.Sublist.map _ (deps.filter_sublist)
      exact hsub.nodup hkeysnd
    · intro k hk hknew
      rcases (hnewly k).mp hknew with ⟨p, hp, hpk, hsidmem, -⟩
      have : p.2 = [] := hready_val_nil k (List.mem_cons_of_mem sid hk) p hp hpk
      rw [this] at hsidmem
      simp at hsidmem
  · intro k
    rw [mem_pySorted, List.mem_append, ← havail2]
  · rw [List.nodup_append]
    refine ⟨hInv.acc_nodup, List.nodup_singleton sid, ?_⟩
    intro k hk hks
    exact hsid_notin_acc ((List.mem_singleton.mp hks) ▸ hk)
  · intro k hk
    rcases List.mem_append.mp hk with hx | hx
    · exact hInv.acc_sub k hx
    · exact (List.mem_singleton.mp hx) ▸ hsid_avail.1
  · intro i hi
    rw [List.length_append, List.length_singleton] at hi
    by_cases hilt : i < acc.length
    · have htake : (acc ++ [sid]).take i = acc.take i :=
        List.take_append_of_le_length (by omega)
      have hget : (acc ++ [sid]).get ⟨i, by rw [List.length_append, List.length_singleton]; omega⟩
          = acc.get ⟨i, hilt⟩ := by
        rw [List.get_eq_getElem, List.get_eq_getElem, List.getElem_append_left]
      rw [List.get_eq_getElem] at hget ⊢
      rw [htake, hget]
      exact hInv.acc_step i hilt
    · have hieq : i = acc.length := by omega
      subst hieq
      have htake : (acc ++ [sid]).take acc.length = acc := List.take_left acc [sid]
      have hget : (acc ++ [sid]).get ⟨acc.length, by simp⟩ = sid := by
        simp [List.get_eq_getElem]
      rw [List.get_eq_getElem] at hget ⊢
      rw [htake, hget]
      refine ⟨hsid_avail, ?_⟩
      intro k2 hk2
      have hk2r : k2 ∈ sid :: rest := (hInv.ready_iff k2).mpr hk2
      rcases List.mem_cons.mp hk2r with hx | hx
      · rw [hx]
        exact strLexLe_refl sid
      · exact (List.pairwise_cons.mp hInv.ready_sorted).1 k2 hx

/-- Running the Kahn loop from an invariant state with enough fuel ends in
an invariant state with an empty ready list. -/
theorem kahnLoop_final (uniq : List PlanStep) (hids : (uniq.map (fun s => s.id)).Nodup) :
    ∀ (fuel : Nat) (deps : List (String × List String)) (ready acc : List String),
    KInv uniq deps ready acc → deps.length ≤ fuel →
    ∃ acc2 deps2, kahnLoop fuel deps ready acc = (acc2, deps2) ∧ KInv uniq deps2 [] acc2 := by
  intro fuel
  induction fuel with
  | zero =>
    intro deps ready acc hInv hlen
    have hdeps : deps = [] := by
      cases deps with
      | nil => rfl
      | cons d ds => simp at hlen
    subst hdeps
    have hready : ready = [] := by
      cases ready with
      | nil => rfl
      | cons k ks =>
        exfalso
        have hk := (hInv.ready_iff k).mp (List.mem_cons_self k ks)
        have : k ∈ ([] : List (String × List String)).map Prod.fst := by
          rw [hInv.keys_eq, List.mem_filter]
          exact ⟨hk.1, by simp [hk.2.1]⟩
        simp at this
    subst hready
    exact ⟨acc, [], rfl, hInv⟩
  | succ fuel ih =>
    intro deps ready acc hInv hlen
    cases ready with
    | nil =>
      exact ⟨acc, deps, rfl, hInv⟩
    | cons sid rest =>
      obtain ⟨hInv2, hlen2⟩ := kahnStep uniq hids deps sid rest acc hInv
      have hfuel2 : ((deps.map (fun e => (e.1, e.2.filter (fun r => r != sid)))).filter
          (fun e => e.1 != sid)).length ≤ fuel := by omega
      obtain ⟨acc2, deps2, hrun, hfin⟩ := ih _ _ _ hInv2 hfuel2
      exact ⟨acc2, deps2, by rw [kahnLoop]; exact hrun, hfin⟩

/-- With pairwise-distinct ids, the `by_id` dict comprehension keeps the
step list unchanged. -/
theorem dedupKeepLast_eq_self (steps : List PlanStep)
    (hids : (steps.map (fun s => s.id)).Nodup) : dedupKeepLast steps = steps := by
  suffices h : ∀ (l : List PlanStep) (acc : List PlanStep),
      ((acc.map (fun s => s.id)) ++ (l.map (fun s => s.id))).Nodup →
      l.foldl (fun acc2 s =>
        if acc2.any (fun t => t.id == s.id) then
          acc2.map (fun t => if t.id == s.id then s else t)
        else acc2 ++ [s]) acc = acc ++ l by
    have := h steps [] (by simpa using hids)
    simpa [dedupKeepLast] using this
  intro l
  induction l with
  | nil => intro acc _; simp
  | cons s rest ih =>
    intro acc hnd
    rw [List.foldl_cons]
    have hnotin : ¬ acc.any (fun t => t.id == s.id) = true := by
      intro hx
      rcases List.any_eq_true.mp hx with ⟨t, ht, hts⟩
      have hts2 : t.id = s.id := by simpa using hts
      have h1 : t.id ∈ acc.map (fun s2 => s2.id) := List.mem_map_of_mem _ ht
      have h2 : s.id ∈ (rest.map (fun s2 => s2.id)) ∨ True := Or.inr trivial
      have hdisj := (List.nodup_append.mp hnd).2.2
      exact hdisj h1 (by rw [hts2]; exact List.mem_cons_self _ _)
    rw [if_neg hnotin]
    have hnd2 : (((acc ++ [s]).map (fun s2 => s2.id)) ++ (rest.map (fun s2 => s2.id))).Nodup := by
      rw [List.map_append, List.append_assoc]
      rw [List.map_cons] at hnd
      simpa using hnd
    have := ih (acc ++ [s]) hnd2
    rw [this]
    simp

/-- Outcome of `orderSteps` on a duplicate-free step list: an invariant
final state decides between the sorted output and the cycle error. -/
theorem orderSteps_cases (steps : List PlanStep)
    (hids : (steps.map (fun s => s.id)).Nodup) :
    ∃ acc2 deps2, KInv steps deps2 [] acc2 ∧
      ((deps2 = [] ∧ orderSteps steps
          = .ok (acc2.filterMap (fun sid => steps.find? (fun s => s.id == sid)))) ∨
       (deps2 ≠ [] ∧ orderSteps steps
          = .error ("Plan contains a dependency cycle or unresolved deps among: "
              ++ String.intercalate ", " (pySorted (deps2.map (fun e => e.1)))))) := by
  obtain ⟨acc2, deps2, hrun, hfin⟩ := kahnLoop_final steps hids (initialDeps steps).length
    (initialDeps steps)
    (pySorted (((initialDeps steps).filter (fun e => e.2.isEmpty)).map (fun e => e.1))) []
    (kahnInit steps hids) (Nat.le_refl _)
  refine ⟨acc2, deps2, hfin, ?_⟩
  have hord : orderSteps steps = (if deps2.isEmpty then
      .ok (acc2.filterMap (fun sid => steps.find? (fun s => s.id == sid)))
    else .error ("Plan contains a dependency cycle or unresolved deps among: "
      ++ String.intercalate ", " (pySorted (deps2.map (fun e => e.1))))) := by
    unfold orderSteps
    rw [dedupKeepLast_eq_self steps hids]
    dsimp only
    rw [hrun]
  cases hd : deps2 with
  | nil =>
    left
    refine ⟨rfl, ?_⟩
    rw [hord, hd]
    rfl
  | cons d ds =>
    right
    refine ⟨by simp, ?_⟩
    rw [hord, hd]
    rfl

/-- Mapping ids over the filter-map that resolves ids back to steps
recovers the id list, and every resolved step is a member. -/
theorem filterMap_find_spec (steps : List PlanStep)
    (hids : (steps.map (fun s => s.id)).Nodup) :
    ∀ (l : List String), (∀ k ∈ l, k ∈ steps.map (fun s => s.id)) →
    ((l.filterMap (fun sid => steps.find? (fun s => s.id == sid))).map (fun s => s.id) = l ∧
     ∀ s ∈ l.filterMap (fun sid => steps.find? (fun s => s.id == sid)), s ∈ steps) := by
  intro l
  induction l with
  | nil => intro _; simp
  | cons k rest ih =>
    intro hsub
    have hk := hsub k (List.mem_cons_self k rest)
    rcases List.mem_map.mp hk with ⟨s, hs, hsk⟩
    have hfind : steps.find? (fun t => t.id == k) = some s := by
      rw [← hsk]
      exact find?_eq_of_nodup_ids steps hids s hs
    obtain ⟨ihmap, ihmem⟩ := ih (fun k2 hk2 => hsub k2 (List.mem_cons_of_mem k hk2))
    constructor
    · rw [List.filterMap_cons, hfind]
      simp only [List.map_cons, ihmap, hsk]
    · intro t ht
      rw [List.filterMap_cons, hfind] at ht
      rcases List.mem_cons.mp ht with hx | hx
      · exact hx ▸ hs
      · exact ihmem t hx

/-- Two steps of a duplicate-free list sharing an id are equal. -/
theorem step_eq_of_id_eq (steps : List PlanStep)
    (hids : (steps.map (fun s => s.id)).Nodup) (s t : PlanStep)
    (hs : s ∈ steps) (ht : t ∈ steps) (hid : t.id = s.id) : t = s := by
  have h1 := find?_eq_of_nodup_ids steps hids s hs
  have h2 := find?_eq_of_nodup_ids steps hids t ht
  rw [hid] at h2
  rw [h1] at h2
  exact (Option.some_inj.mp h2).symm

/-- When `orderSteps` succeeds on a duplicate-free step list, the output is
a permutation of the input in which every position holds an available id
(all in-graph requirements already emitted, step not yet emitted) that is
lexicographically least among the ids available at that position. -/
theorem orderSteps_ok_spec (steps : List PlanStep)
    (hids : (steps.map (fun s => s.id)).Nodup)
    (ordered : List PlanStep) (hok : orderSteps steps = .ok ordered) :
    ordered.Perm steps ∧
    ∀ (i : Nat) (hi : i < ordered.length),
      availIdP steps ((ordered.take i).map (fun s => s.id)) (ordered.get ⟨i, hi⟩).id ∧
      (∀ k2, availIdP steps ((ordered.take i).map (fun s => s.id)) k2 →
        strLexLe (ordered.get ⟨i, hi⟩).id k2 = true) := by
  obtain ⟨acc2, deps2, hfin, hcase⟩ := orderSteps_cases steps hids
  rcases hcase with ⟨hd, heq⟩ | ⟨hd, heq⟩
  · have hordeq : acc2.filterMap (fun sid => steps.find? (fun s => s.id == sid)) = ordered :=
      Except.ok.inj (heq.symm.trans hok)
    obtain ⟨hmap0, hmem0⟩ := filterMap_find_spec steps hids acc2 hfin.acc_sub
    have hmap : ordered.map (fun s => s.id) = acc2 := by rw [← hordeq]; exact hmap0
    have hmem : ∀ s ∈ ordered, s ∈ steps := by rw [← hordeq]; exact hmem0
    subst hmap
    have hcomp : ∀ k ∈ steps.map (fun s => s.id), k ∈ ordered.map (fun s => s.id) := by
      intro k hk
      have hfil : (steps.map (fun s => s.id)).filter
          (fun k2 => !(ordered.map (fun s => s.id)).contains k2) = [] := by
        have hke := hfin.keys_eq
        subst hd
        simpa using hke.symm
      by_contra hnotin
      have hkin : k ∈ (steps.map (fun s => s.id)).filter
          (fun k2 => !(ordered.map (fun s => s.id)).contains k2) :=
        List.mem_filter.mpr ⟨hk, by simp [hnotin]⟩
      rw [hfil] at hkin
      simp at hkin
    have hnodup_ord : ordered.Nodup := List.Nodup.of_map _ hfin.acc_nodup
    have hnodup_steps : steps.Nodup := List.Nodup.of_map _ hids
    constructor
    · rw [List.perm_ext_iff_of_nodup hnodup_ord hnodup_steps]
      intro s
      constructor
      · exact fun hs => hmem s hs
      · intro hs
        have hkid : s.id ∈ ordered.map (fun t => t.id) :=
          hcomp s.id (List.mem_map_of_mem (fun t => t.id) hs)
        rcases List.mem_map.mp hkid with ⟨t, ht, hts⟩
        have := step_eq_of_id_eq steps hids s t hs (hmem t ht) hts
        exact this ▸ ht
    · intro i hi
      have hi2 : i < (ordered.map (fun s => s.id)).length := by
        rw [List.length_map]; exact hi
      obtain ⟨havail, hmin⟩ := hfin.acc_step i hi2
      have htake : (ordered.map (fun s => s.id)).take i
          = (ordered.take i).map (fun s => s.id) := by rw [List.map_take]
      have hget : (ordered.map (fun s => s.id)).get ⟨i, hi2⟩
          = (ordered.get ⟨i, hi⟩).id := by
        simp [List.get_eq_getElem, List.getElem_map]
      rw [htake, hget] at havail hmin
      exact ⟨havail, hmin⟩
  · rw [heq] at hok
    simp at hok

/-- The dependency edge the Kahn sort uses: step `a` requires step `b`,
with `b` present among the step ids (`requires` entries naming absent ids
are dropped when `deps` is built). -/
def requiresEdge (steps : List PlanStep) (a b : String) : Prop :=
  b ∈ reqInFn steps a

instance (steps : List PlanStep) (a b : String) : Decidable (requiresEdge steps a b) :=
  inferInstanceAs (Decidable (b ∈ reqInFn steps a))

/-- A dependency cycle: a non-empty id list each of whose entries requires
the (cyclically) next one. -/
def isCycleIds (steps : List PlanStep) (c : List String) : Prop :=
  c ≠ [] ∧ ∀ (i : Nat) (hi : i < c.length),
    requiresEdge steps (c.get ⟨i, hi⟩)
      (c.get ⟨(i + 1) % c.length, Nat.mod_lt _ (Nat.lt_of_le_of_lt (Nat.zero_le i) hi)⟩)

/-- The requires graph restricted to present ids has no cycle. -/
def acyclicRequires (steps : List PlanStep) : Prop :=
  ∀ c, ¬ isCycleIds steps c

/-- Membership in a take-prefix bounds the first-occurrence index. -/
theorem indexOf_lt_of_mem_take (l : List String) :
    ∀ (i : Nat) (k : String), k ∈ l.take i → l.indexOf k < i := by
  induction l with
  | nil => intro i k hk; simp at hk
  | cons x xs ih =>
    intro i k hk
    cases i with
    | zero => simp at hk
    | succ j =>
      rw [List.take_succ_cons] at hk
      by_cases hkx : k = x
      · subst hkx
        simp [List.indexOf_cons]
      · rcases List.mem_cons.mp hk with h | h
        · exact absurd h hkx
        · simp only [List.indexOf_cons, show (x == k) = false by simp [Ne.symm hkx],
            cond_false]
          exact Nat.succ_lt_succ (ih j k h)

/-- Both endpoints of a requires edge are ids of the step list. -/
theorem requiresEdge_mem (steps : List PlanStep) (a b : String)
    (h : requiresEdge steps a b) :
    a ∈ steps.map (fun s => s.id) ∧ b ∈ steps.map (fun s => s.id) := by
  unfold requiresEdge reqInFn at h
  obtain ⟨hbreq, hbany⟩ := List.mem_filter.mp h
  constructor
  · unfold reqOfFn at hbreq
    cases hf : steps.find? (fun s => s.id == a) with
    | none => rw [hf] at hbreq; simp at hbreq
    | some s =>
        have hs := List.mem_of_find?_eq_some hf
        have hp : s.id = a := by simpa using List.find?_some hf
        exact hp ▸ List.mem_map_of_mem (fun t => t.id) hs
  · have hex : ∃ t ∈ steps, t.id = b := by simpa using hbany
    rcases hex with ⟨t, ht, htb⟩
    exact htb ▸ List.mem_map_of_mem (fun u => u.id) ht

/-- A successful Kahn sort certifies that the requires graph is acyclic:
every edge strictly decreases position in the output, which is impossible
around a cycle. -/
theorem orderSteps_ok_acyclic (steps : List PlanStep)
    (hids : (steps.map (fun s => s.id)).Nodup)
    (ordered : List PlanStep) (hok : orderSteps steps = .ok ordered) :
    acyclicRequires steps := by
  obtain ⟨hperm, hstep⟩ := orderSteps_ok_spec steps hids ordered hok
  intro c hc
  obtain ⟨hne, hedges⟩ := hc
  have hdec : ∀ a b, requiresEdge steps a b →
      (ordered.map (fun s => s.id)).indexOf b < (ordered.map (fun s => s.id)).indexOf a := by
    intro a b hab
    obtain ⟨ha_ids, _⟩ := requiresEdge_mem steps a b hab
    have haL : a ∈ ordered.map (fun s => s.id) :=
      (hperm.map (fun s => s.id)).mem_iff.mpr ha_ids
    have hia : (ordered.map (fun s => s.id)).indexOf a
        < (ordered.map (fun s => s.id)).length := List.indexOf_lt_length.mpr haL
    have hia2 : (ordered.map (fun s => s.id)).indexOf a < ordered.length := by
      simpa using hia
    have hgetid : (ordered.get ⟨(ordered.map (fun s => s.id)).indexOf a, hia2⟩).id = a := by
      have h1 := List.indexOf_get hia
      simp only [List.get_eq_getElem, List.getElem_map] at h1
      simp only [List.get_eq_getElem]
      exact h1
    obtain ⟨havail, _⟩ := hstep ((ordered.map (fun s => s.id)).indexOf a) hia2
    rw [hgetid] at havail
    have hreq := havail.2.2 b hab
    have hbtake : b ∈ (ordered.map (fun s => s.id)).take
        ((ordered.map (fun s => s.id)).indexOf a) := by
      simpa [List.map_take] using hreq
    exact indexOf_lt_of_mem_take _ _ b hbtake
  have hlen0 : 0 < c.length := List.length_pos.mpr hne
  have hget_congr : ∀ (i1 i2 : Nat) (h1 : i1 < c.length) (h2 : i2 < c.length),
      i1 = i2 → c.get ⟨i1, h1⟩ = c.get ⟨i2, h2⟩ := by
    intro i1 i2 h1 h2 he
    subst he
    rfl
  have hchain : ∀ (i : Nat) (hi : i < c.length),
      (ordered.map (fun s => s.id)).indexOf (c.get ⟨i, hi⟩) + i
        ≤ (ordered.map (fun s => s.id)).indexOf (c.get ⟨0, hlen0⟩) := by
    intro i
    induction i with
    | zero => intro hi; simp
    | succ j ihj =>
      intro hi
      have hj : j < c.length := Nat.lt_of_succ_lt hi
      have he := hedges j hj
      have hmod : (j + 1) % c.length = j + 1 := Nat.mod_eq_of_lt hi
      rw [hget_congr ((j + 1) % c.length) (j + 1) _ hi hmod] at he
      have hd := hdec _ _ he
      have hih := ihj hj
      omega
  have hlast : c.length - 1 < c.length := Nat.sub_lt hlen0 Nat.one_pos
  have he := hedges (c.length - 1) hlast
  have hmod : (c.length - 1 + 1) % c.length = 0 := by
    have hsp : c.length - 1 + 1 = c.length := by omega
    rw [hsp, Nat.mod_self]
  rw [hget_congr ((c.length - 1 + 1) % c.length) 0 _ hlen0 hmod] at he
  have hd := hdec _ _ he
  have hch := hchain (c.length - 1) hlast
  omega

/-- From a successor function that follows a requires edge inside a set and
two coinciding iterates, a dependency cycle can be read off. -/
theorem cycle_of_iterates (steps : List PlanStep) (g : String → String) (R : List String)
    (hg : ∀ k ∈ R, requiresEdge steps k (g k) ∧ g k ∈ R)
    (k0 : String) (hk0 : k0 ∈ R) (m1 m2 : Nat) (hlt : m1 < m2)
    (heq : g^[m1] k0 = g^[m2] k0) : ∃ c, isCycleIds steps c := by
  have hiter : ∀ m, g^[m] k0 ∈ R := by
    intro m
    induction m with
    | zero => simpa using hk0
    | succ m ihm =>
      rw [Function.iterate_succ_apply']
      exact (hg _ ihm).2
  refine ⟨(List.range (m2 - m1)).map (fun m => g^[m1 + m] k0), ?_, ?_⟩
  · apply List.ne_nil_of_length_pos
    simp only [List.length_map, List.length_range]
    omega
  · intro i hi
    have hlenc : ((List.range (m2 - m1)).map (fun m => g^[m1 + m] k0)).length = m2 - m1 := by
      simp
    have hget : ∀ (j : Nat)
        (hj : j < ((List.range (m2 - m1)).map (fun m => g^[m1 + m] k0)).length),
        ((List.range (m2 - m1)).map (fun m => g^[m1 + m] k0)).get ⟨j, hj⟩
          = g^[m1 + j] k0 := by
      intro j hj
      simp [List.get_eq_getElem, List.getElem_map, List.getElem_range]
    rw [hget i hi, hget _ _]
    have hilen : i < m2 - m1 := by rw [hlenc] at hi; exact hi
    by_cases hcase : i + 1 < m2 - m1
    · have hmod : (i + 1) % ((List.range (m2 - m1)).map (fun m => g^[m1 + m] k0)).length
          = i + 1 := by
        rw [hlenc]; exact Nat.mod_eq_of_lt hcase
      rw [hmod]
      have hsucc1 : g^[m1 + (i + 1)] k0 = g (g^[m1 + i] k0) := by
        rw [show m1 + (i + 1) = (m1 + i) + 1 by omega]
        exact Function.iterate_succ_apply' g (m1 + i) k0
      rw [hsucc1]
      exact (hg _ (hiter (m1 + i))).1
    · have hieq : i + 1 = m2 - m1 := by omega
      have hmod : (i + 1) % ((List.range (m2 - m1)).map (fun m => g^[m1 + m] k0)).length
          = 0 := by
        rw [hlenc, hieq, Nat.mod_self]
      rw [hmod]
      have h0 : g^[m1 + 0] k0 = g (g^[m1 + i] k0) := by
        rw [Nat.add_zero, heq]
        rw [show m2 = (m1 + i) + 1 by omega]
        exact Function.iterate_succ_apply' g (m1 + i) k0
      rw [h0]
      exact (hg _ (hiter (m1 + i))).1

/-- A failed Kahn sort certifies a dependency cycle: every residual id
keeps an unprocessed in-graph requirement, which is again residual, and
iterating that successor inside the finite residual set closes a loop. -/
theorem orderSteps_err_cycle (steps : List PlanStep)
    (hids : (steps.map (fun s => s.id)).Nodup)
    (msg : String) (herr : orderSteps steps = .error msg) :
    ∃ c, isCycleIds steps c := by
  obtain ⟨acc2, deps2, hfin, hcase⟩ := orderSteps_cases steps hids
  rcases hcase with ⟨hd, heq⟩ | ⟨hd, heq⟩
  · rw [heq] at herr; simp at herr
  · have hmemR : ∀ k, k ∈ deps2.map Prod.fst ↔
        (k ∈ steps.map (fun s => s.id) ∧ k ∉ acc2) := by
      intro k
      rw [hfin.keys_eq, List.mem_filter]
      constructor
      · rintro ⟨h1, h2⟩
        refine ⟨h1, ?_⟩
        intro hk
        simp [hk] at h2
      · rintro ⟨h1, h2⟩
        exact ⟨h1, by simp [h2]⟩
    have hsucc : ∀ k, ∃ r, k ∈ deps2.map Prod.fst →
        (requiresEdge steps k r ∧ r ∈ deps2.map Prod.fst) := by
      intro k
      by_cases hk : k ∈ deps2.map Prod.fst
      · obtain ⟨hk_ids, hk_nacc⟩ := (hmemR k).mp hk
        have hnav : ¬ availIdP steps acc2 k := by
          intro hav
          have := (hfin.ready_iff k).mpr hav
          simp at this
        unfold availIdP at hnav
        push_neg at hnav
        obtain ⟨r, hr_req, hr_nacc⟩ := hnav hk_ids hk_nacc
        have hedge : requiresEdge steps k r := hr_req
        have hr_ids : r ∈ steps.map (fun s => s.id) :=
          (requiresEdge_mem steps k r hedge).2
        exact ⟨r, fun _ => ⟨hedge, (hmemR r).mpr ⟨hr_ids, hr_nacc⟩⟩⟩
      · exact ⟨"", fun hx => absurd hx hk⟩
    choose g hg using hsucc
    obtain ⟨k0, hk0⟩ : ∃ k0, k0 ∈ deps2.map Prod.fst := by
      cases hdd : deps2 with
      | nil => exact absurd hdd hd
      | cons d ds => exact ⟨d.1, by simp⟩
    have hiter : ∀ m, g^[m] k0 ∈ deps2.map Prod.fst := by
      intro m
      induction m with
      | zero => simpa using hk0
      | succ m ihm =>
        rw [Function.iterate_succ_apply']
        exact (hg _ ihm).2
    have hcard : (deps2.map Prod.fst).toFinset.card
        < (Finset.range ((deps2.map Prod.fst).length + 1)).card := by
      rw [Finset.card_range]
      exact Nat.lt_succ_of_le (List.toFinset_card_le _)
    obtain ⟨m1, _, m2, _, hne12, heq12⟩ :=
      @Finset.exists_ne_map_eq_of_card_lt_of_maps_to Nat String
        (Finset.range ((deps2.map Prod.fst).length + 1))
        ((deps2.map Prod.fst).toFinset) hcard (fun m => g^[m] k0)
        (fun m _ => List.mem_toFinset.mpr (hiter m))
    have hg2 : ∀ k ∈ deps2.map Prod.fst,
        requiresEdge steps k (g k) ∧ g k ∈ deps2.map Prod.fst := fun k hk => hg k hk
    rcases lt_or_gt_of_ne hne12 with hlt | hgt
    · exact cycle_of_iterates steps g (deps2.map Prod.fst) hg2 k0 hk0 m1 m2 hlt heq12
    · exact cycle_of_iterates steps g (deps2.map Prod.fst) hg2 k0 hk0 m2 m1 hgt heq12.symm

/-- With no numeric step ids, `_normalize_plan_ids` returns the plan
unchanged with an empty id map. -/
theorem normalizePlanIds_id (plan : Plan)
    (hnn : plan.steps.filter (fun s => s.id != "compose_answer" && isNumericId s.id) = []) :
    normalizePlanIds plan = (plan, []) := by
  unfold normalizePlanIds
  rw [hnn]
  rfl

/-- **C4.** On a set of tool steps with pairwise-distinct ids: if the
requires graph is acyclic, `_order_steps` succeeds with a permutation of
the steps in which every position's step has all its (in-plan) required
steps strictly earlier and carries the lexicographically least id among
the steps available at that position (Kahn with sorted ready list); if the
graph has a cycle, `_order_steps` raises the dependency-cycle message and
`execute_plan` on any plan whose tool steps are exactly these steps (no
numeric ids, within the step budget) turns it into a hard failure having
invoked no tool at all. -/
theorem C4_acyclic_topo_sort_cyclic_fault (steps : List PlanStep)
    (hids : (steps.map (fun s => s.id)).Nodup) :
    (acyclicRequires steps → ∃ ordered, orderSteps steps = .ok ordered ∧
      ordered.Perm steps ∧
      ∀ (i : Nat) (hi : i < ordered.length),
        (∀ r ∈ (ordered.get ⟨i, hi⟩).requires, r ∈ steps.map (fun s => s.id) →
          r ∈ (ordered.take i).map (fun s => s.id)) ∧
        availIdP steps ((ordered.take i).map (fun s => s.id)) (ordered.get ⟨i, hi⟩).id ∧
        (∀ k2, availIdP steps ((ordered.take i).map (fun s => s.id)) k2 →
          strLexLe (ordered.get ⟨i, hi⟩).id k2 = true)) ∧
    ((∃ c, isCycleIds steps c) →
      ∃ msg, orderSteps steps = .error msg ∧
        (∃ rest, msg = "Plan contains a dependency cycle or unresolved deps among: " ++ rest) ∧
        ∀ (cfg : ExecConfig) (tools : ToolRegistry) (plan : Plan)
          (obs : List (String × JVal)),
          plan.steps.filter (fun s => s.id != "compose_answer" && isNumericId s.id) = [] →
          plan.steps.filter (fun s => s.tool.isSome && s.id != "compose_answer") = steps →
          steps.length ≤ cfg.maxSteps →
          executePlan cfg tools plan obs = .hardFailure msg []) := by
  constructor
  · intro hacyc
    cases horder : orderSteps steps with
    | error msg =>
        obtain ⟨c, hc⟩ := orderSteps_err_cycle steps hids msg horder
        exact absurd hc (hacyc c)
    | ok ordered =>
        obtain ⟨hperm, hstep⟩ := orderSteps_ok_spec steps hids ordered horder
        refine ⟨ordered, rfl, hperm, ?_⟩
        intro i hi
        obtain ⟨havail, hmin⟩ := hstep i hi
        refine ⟨?_, havail, hmin⟩
        intro r hr hrids
        have hmem_ord : ordered.get ⟨i, hi⟩ ∈ ordered := List.get_mem ordered i hi
        have hmem_steps : ordered.get ⟨i, hi⟩ ∈ steps := hperm.mem_iff.mp hmem_ord
        have hfind := find?_eq_of_nodup_ids steps hids _ hmem_steps
        have hrin : r ∈ reqInFn steps (ordered.get ⟨i, hi⟩).id := by
          unfold reqInFn reqOfFn
          rw [hfind]
          refine List.mem_filter.mpr ⟨by simpa using hr, ?_⟩
          rcases List.mem_map.mp hrids with ⟨t, ht, hid⟩
          exact List.any_eq_true.mpr ⟨t, ht, by simp [hid]⟩
        exact havail.2.2 r hrin
  · intro hcyc
    obtain ⟨c, hc⟩ := hcyc
    cases horder : orderSteps steps with
    | ok ordered => exact absurd hc (orderSteps_ok_acyclic steps hids ordered horder c)
    | error msg =>
        refine ⟨msg, rfl, ?_, ?_⟩
        · obtain ⟨acc2, deps2, _, hcase⟩ := orderSteps_cases steps hids
          rcases hcase with ⟨_, heq⟩ | ⟨_, heq⟩
          · rw [horder] at heq
            simp at heq
          · rw [horder] at heq
            exact ⟨_, Except.error.inj heq⟩
        · intro cfg tools plan obs hnn htool hsize
          have hnorm : normalizePlanIds plan = (plan, []) := normalizePlanIds_id plan hnn
          simp only [executePlan, hnorm]
          rw [htool]
          have hnotgt : ¬ (steps.length > cfg.maxSteps) := by omega
          rw [if_neg hnotgt, horder]

/-- Witness for C4: the two-step cycle a ↔ b makes `_order_steps` raise
the dependency-cycle message and `execute_plan` hard-fail with no tool
invoked. -/
theorem C4_witness :
    ∃ msg, orderSteps
        [⟨"a", "", some "get_time", none, ["b"]⟩, ⟨"b", "", some "get_time", none, ["a"]⟩]
        = .error msg ∧
      executePlan {} (fun _ => none)
        ⟨"g", [⟨"a", "", some "get_time", none, ["b"]⟩,
               ⟨"b", "", some "get_time", none, ["a"]⟩]⟩
        [] = .hardFailure msg [] := by
  have hcyc : isCycleIds
      [⟨"a", "", some "get_time", none, ["b"]⟩, ⟨"b", "", some "get_time", none, ["a"]⟩]
      ["a", "b"] := by
    refine ⟨by decide, ?_⟩
    intro i hi
    match i, hi with
    | 0, _ => exact (by decide : requiresEdge
        [⟨"a", "", some "get_time", none, ["b"]⟩, ⟨"b", "", some "get_time", none, ["a"]⟩]
        "a" "b")
    | 1, _ => exact (by decide : requiresEdge
        [⟨"a", "", some "get_time", none, ["b"]⟩, ⟨"b", "", some "get_time", none, ["a"]⟩]
        "b" "a")
    | n + 2, h => simp at h
  obtain ⟨msg, h1, _, h3⟩ := (C4_acyclic_topo_sort_cyclic_fault
      [⟨"a", "", some "get_time", none, ["b"]⟩, ⟨"b", "", some "get_time", none, ["a"]⟩]
      (by decide)).2 ⟨["a", "b"], hcyc⟩
  exact ⟨msg, h1, h3 {} (fun _ => none) _ [] (by decide) (by decide) (by decide)⟩

/-- `lookup` over an append tries the left list first. -/
theorem lookup_append {α : Type} (l1 l2 : List (String × α)) (k : String) :
    (l1 ++ l2).lookup k
      = ((l1.lookup k).orElse (fun _ => l2.lookup k)) := by
  induction l1 with
  | nil => simp [List.lookup]
  | cons kv rest ih =>
    by_cases hk : k == kv.1
    · simp [List.lookup, hk, Option.orElse]
    · rw [show (kv :: rest) ++ l2 = kv :: (rest ++ l2) from rfl]
      rw [List.lookup, List.lookup]
      rw [show (k == kv.1) = false by simpa using hk]
      exact ih

/-- A key present on the left keeps its binding under append. -/
theorem lookup_append_left_isSome {α : Type} (l1 l2 : List (String × α)) (k : String)
    (h : (l1.lookup k).isSome) : (l1 ++ l2).lookup k = l1.lookup k := by
  rw [lookup_append]
  cases hx : l1.lookup k with
  | none => rw [hx] at h; simp at h
  | some v => rfl

/-- A key absent from both sides of an append is absent from the whole. -/
theorem lookup_append_isNone {α : Type} (l1 l2 : List (String × α)) (k : String) :
    ((l1 ++ l2).lookup k).isNone = ((l1.lookup k).isNone && (l2.lookup k).isNone) := by
  rw [lookup_append]
  cases hx : l1.lookup k with
  | none => simp [Option.orElse]
  | some v => simp [Option.orElse]

/-- The per-step loop of `execute_plan`, on a normal return over steps
with distinct ids: it appends one observation entry per executed step,
executes exactly the steps whose ids were not already observation keys
(in order, each once), and leaves prior entries in place. -/
theorem execLoop_ok_spec (tools : ToolRegistry) (plan : Plan) :
    ∀ (rem : List PlanStep) (obs : List (String × JVal)) (calls inv : List String)
      (res : ExecutionResult) (inv2 : List String),
      (rem.map (fun s => s.id)).Nodup →
      execLoop tools plan rem obs calls inv = .ok res inv2 →
      ∃ extra : List (String × JVal),
        res.plan = plan ∧
        res.observations = obs ++ extra ∧
        res.toolCalls = calls ++ extra.map (fun kv => kv.1) ∧
        List.Sublist (extra.map (fun kv => kv.1)) (rem.map (fun s => s.id)) ∧
        (∀ kv ∈ extra, (obs.lookup kv.1).isNone = true) ∧
        (∀ s ∈ rem, (obs.lookup s.id).isNone = true →
          s.id ∈ extra.map (fun kv => kv.1)) := by
  intro rem
  induction rem with
  | nil =>
    intro obs calls inv res inv2 _ hok
    have hok2 : ExecOutcome.ok ⟨plan, obs, calls, 0, none⟩ inv = .ok res inv2 := hok
    cases hok2
    exact ⟨[], rfl, by simp, by simp, by simp, by simp, by simp⟩
  | cons step rest ih =>
    intro obs calls inv res inv2 hnd hok
    rw [List.map_cons, List.nodup_cons] at hnd
    obtain ⟨hstep_nin, hnd2⟩ := hnd
    simp only [execLoop] at hok
    by_cases hpres : (obs.lookup step.id).isSome = true
    · rw [if_pos hpres] at hok
      obtain ⟨extra, h1, h2, h3, h4, h5, h6⟩ := ih obs calls inv res inv2 hnd2 hok
      refine ⟨extra, h1, h2, h3, h4.trans (List.sublist_cons_self _ _), h5, ?_⟩
      intro s hs hnone
      rcases List.mem_cons.mp hs with heq | hmem
      · subst heq
        rw [Option.isNone_iff_eq_none] at hnone
        rw [hnone] at hpres
        simp at hpres
      · exact h6 s hmem hnone
    · rw [if_neg hpres] at hok
      cases hrun : runToolStep tools step with
      | raised msg calledFn =>
          rw [hrun] at hok
          exact ExecOutcome.noConfusion hok
      | value out calledFn =>
          rw [hrun] at hok
          dsimp only at hok
          by_cases hsoft : isSoftFailure out = true
          · rw [if_pos hsoft] at hok
            exact ExecOutcome.noConfusion hok
          · rw [if_neg hsoft] at hok
            obtain ⟨extra2, h1, h2, h3, h4, h5, h6⟩ := ih _ _ _ res inv2 hnd2 hok
            refine ⟨(step.id, out) :: extra2, h1, ?_, ?_, ?_, ?_, ?_⟩
            · rw [h2, List.append_assoc]
              rfl
            · rw [h3, List.map_cons, List.append_assoc]
              rfl
            · rw [List.map_cons, List.map_cons]
              exact List.Sublist.cons₂ _ h4
            · intro kv hkv
              rcases List.mem_cons.mp hkv with heq | hmem
              · subst heq
                have hn : obs.lookup step.id = none := Option.not_isSome_iff_eq_none.mp hpres
                simp [hn]
              · have h5b := h5 kv hmem
                rw [lookup_append_isNone, Bool.and_eq_true] at h5b
                exact h5b.1
            · intro s hs hnone
              rcases List.mem_cons.mp hs with heq | hmem
              · subst heq
                rw [List.map_cons]
                exact List.mem_cons_self _ _
              · have hne : s.id ≠ step.id := fun hx =>
                  hstep_nin (hx ▸ List.mem_map_of_mem (fun t => t.id) hmem)
                have hnone2 : ((obs ++ [(step.id, out)]).lookup s.id).isNone = true := by
                  rw [lookup_append_isNone, hnone]
                  have hb : (s.id == step.id) = false := by simp [hne]
                  simp [List.lookup, hb]
                rw [List.map_cons]
                exact List.mem_cons_of_mem _ (h6 s hmem hnone2)

/-- **C7.** For a plan with no numeric step ids and duplicate-free tool-step
ids, every normal `execute_plan` return executes exactly the tool steps
whose ids were not already observation keys — each exactly once, none that
was already present — and returns the incoming observations extended by one
entry per executed id, with prior entries unchanged and `tool_calls`
listing exactly the ids executed in this call. -/
theorem C7_skip_executed_and_run_each_absent_once
    (cfg : ExecConfig) (tools : ToolRegistry) (plan : Plan)
    (obs : List (String × JVal)) (res : ExecutionResult) (inv : List String)
    (hnn : plan.steps.filter (fun s => s.id != "compose_answer" && isNumericId s.id) = [])
    (hids : ((plan.steps.filter (fun s => s.tool.isSome && s.id != "compose_answer")).map
      (fun s => s.id)).Nodup)
    (hok : executePlan cfg tools plan obs = .ok res inv) :
    res.plan = plan ∧
    res.toolCalls.Nodup ∧
    (∀ k ∈ res.toolCalls,
      k ∈ (plan.steps.filter (fun s => s.tool.isSome && s.id != "compose_answer")).map
        (fun s => s.id) ∧ (obs.lookup k).isNone = true) ∧
    (∀ s ∈ plan.steps.filter (fun s => s.tool.isSome && s.id != "compose_answer"),
      (obs.lookup s.id).isNone = true → s.id ∈ res.toolCalls) ∧
    (∃ extra, res.observations = obs ++ extra ∧
      extra.map (fun kv => kv.1) = res.toolCalls) ∧
    (∀ k, (obs.lookup k).isSome = true → res.observations.lookup k = obs.lookup k) := by
  have hnorm := normalizePlanIds_id plan hnn
  unfold executePlan at hok
  rw [hnorm] at hok
  dsimp only at hok
  by_cases hgt : (plan.steps.filter
      (fun s => s.tool.isSome && s.id != "compose_answer")).length > cfg.maxSteps
  · rw [if_pos hgt] at hok
    exact ExecOutcome.noConfusion hok
  · rw [if_neg hgt] at hok
    cases horder : orderSteps (plan.steps.filter
        (fun s => s.tool.isSome && s.id != "compose_answer")) with
    | error msg =>
        rw [horder] at hok
        exact ExecOutcome.noConfusion hok
    | ok ordered =>
        rw [horder] at hok
        have hremap : remapObservations obs [] = obs := rfl
        rw [hremap] at hok
        obtain ⟨hperm, _⟩ := orderSteps_ok_spec _ hids ordered horder
        have hids_ord : (ordered.map (fun s => s.id)).Nodup :=
          ((hperm.map (fun s => s.id)).nodup_iff).mpr hids
        obtain ⟨extra, h1, h2, h3, h4, h5, h6⟩ :=
          execLoop_ok_spec tools plan ordered obs [] [] res inv hids_ord hok
        have hcalls : res.toolCalls = extra.map (fun kv => kv.1) := by simpa using h3
        refine ⟨h1, ?_, ?_, ?_, ⟨extra, h2, hcalls.symm⟩, ?_⟩
        · rw [hcalls]
          exact List.Nodup.sublist h4 hids_ord
        · intro k hk
          rw [hcalls] at hk
          rcases List.mem_map.mp hk with ⟨kv, hkv, hkk⟩
          constructor
          · have hmem : k ∈ ordered.map (fun s => s.id) :=
              h4.subset (hkk ▸ List.mem_map_of_mem (fun kv2 => kv2.1) hkv)
            exact (hperm.map (fun s => s.id)).mem_iff.mp hmem
          · exact hkk ▸ h5 kv hkv
        · intro s hs hnone
          have hs_ord : s ∈ ordered := hperm.mem_iff.mpr hs
          rw [hcalls]
          exact h6 s hs_ord hnone
        · intro k hksome
          rw [h2]
          exact lookup_append_left_isSome obs extra k hksome

/-- A stub tool callable used by the C7 scenario (always returns "x"). -/
def w7fn : ToolFn := fun _ => .ok (.str "x")

/-- Registry with a single tool `t1`. -/
def w7tools : ToolRegistry := fun n => if n = "t1" then some (some w7fn) else none

/-- Two-step plan: `s2` requires `s1`. -/
def w7plan : Plan :=
  ⟨"g", [⟨"s1", "", some "t1", none, []⟩, ⟨"s2", "", some "t1", none, ["s1"]⟩]⟩

/-- Carried-forward observations already holding `s1`. -/
def w7obs : List (String × JVal) := [("s1", .str "prior")]

/-- Witness for C7: with `s1` already observed, one `execute_plan` call runs
only `s2`, keeps the prior `s1` entry, and reports exactly `["s2"]`. -/
theorem C7_witness :
    executePlan {} w7tools w7plan w7obs
      = .ok ⟨w7plan, [("s1", JVal.str "prior"), ("s2", JVal.str "x")], ["s2"], 0, none⟩
        ["s2"] ∧
    (∀ s ∈ w7plan.steps.filter (fun s => s.tool.isSome && s.id != "compose_answer"),
      (w7obs.lookup s.id).isNone = true → s.id ∈ (["s2"] : List String)) ∧
    (∀ k ∈ (["s2"] : List String), (w7obs.lookup k).isNone = true) := by
  have h := C7_skip_executed_and_run_each_absent_once {} w7tools w7plan w7obs
    ⟨w7plan, [("s1", JVal.str "prior"), ("s2", JVal.str "x")], ["s2"], 0, none⟩ ["s2"]
    (by decide) (by decide) rfl
  exact ⟨rfl, fun s hs hn => h.2.2.2.1 s hs hn, fun k hk => (h.2.2.1 k hk).2⟩

/-! ## Normalisation pipeline shape lemmas (C2/C3) -/

/-- `setKey` with a different key changes no other `getD`, on any value. -/
theorem getD_setKey_other_any (s : JVal) (k k' : String) (v d : JVal) (h : k' ≠ k) :
    (s.setKey k v).getD k' d = s.getD k' d := by
  cases s with
  | obj fields => exact getD_setKey_other fields k k' v d h
  | null => rfl
  | bool b => rfl
  | num n => rfl
  | str t => rfl
  | arr xs => rfl

/-- `setKey` on a dict yields the new binding. -/
theorem getD_setKey_same_of_dict (p : JVal) (hp : p.isDict = true) (k : String) (v d : JVal) :
    (p.setKey k v).getD k d = v := by
  cases p with
  | obj fields => exact getD_setKey_same fields k v d
  | null => simp [JVal.isDict] at hp
  | bool b => simp [JVal.isDict] at hp
  | num n => simp [JVal.isDict] at hp
  | str t => simp [JVal.isDict] at hp
  | arr xs => simp [JVal.isDict] at hp

/-- `setKey` preserves dict-ness. -/
theorem isDict_setKey (p : JVal) (hp : p.isDict = true) (k : String) (v : JVal) :
    (p.setKey k v).isDict = true := by
  cases p with
  | obj fields => rfl
  | null => simp [JVal.isDict] at hp
  | bool b => simp [JVal.isDict] at hp
  | num n => simp [JVal.isDict] at hp
  | str t => simp [JVal.isDict] at hp
  | arr xs => simp [JVal.isDict] at hp

/-- A step with the compose id is a dict (non-dicts default the id lookup). -/
theorem isDict_of_hasComposeId (s : JVal) (h : hasComposeId s = true) : s.isDict = true := by
  cases s with
  | obj fields => rfl
  | null => simp [hasComposeId, JVal.getD, JVal.get?] at h
  | bool b => simp [hasComposeId, JVal.getD, JVal.get?] at h
  | num n => simp [hasComposeId, JVal.getD, JVal.get?] at h
  | str t => simp [hasComposeId, JVal.getD, JVal.get?] at h
  | arr xs => simp [hasComposeId, JVal.getD, JVal.get?] at h

/-- `sanitizeOneStep` touches only the `requires` field. -/
theorem getD_sanitizeOne_other (ids : List JVal) (s : JVal) (k : String) (d : JVal)
    (h : k ≠ "requires") :
    (sanitizeOneStep ids s).getD k d = s.getD k d := by
  unfold sanitizeOneStep
  exact getD_setKey_other_any s "requires" k _ d h

/-- `sanitizeOneStep` preserves the compose-id test. -/
theorem hasComposeId_sanitizeOne (ids : List JVal) (s : JVal) :
    hasComposeId (sanitizeOneStep ids s) = hasComposeId s := by
  unfold hasComposeId
  rw [getD_sanitizeOne_other ids s "id" .null (by decide)]

/-- `sanitizeOneStep` preserves dict-ness. -/
theorem isDict_sanitizeOne (ids : List JVal) (s : JVal) (h : s.isDict = true) :
    (sanitizeOneStep ids s).isDict = true := by
  unfold sanitizeOneStep
  exact isDict_setKey s h "requires" _

/-- `updateFirst` on a list whose only match is last updates just that
element. -/
theorem updateFirst_append_last (p : JVal → Bool) (f : JVal → JVal)
    (pre : List JVal) (c : JVal) (hpre : ∀ s ∈ pre, p s = false) (hc : p c = true) :
    updateFirst p f (pre ++ [c]) = pre ++ [f c] := by
  induction pre with
  | nil => simp [updateFirst, hc]
  | cons x rest ih =>
    have hx := hpre x (List.mem_cons_self x rest)
    rw [List.cons_append, updateFirst, hx]
    rw [if_neg (by simp : ¬ (false = true))]
    rw [ih (fun s hs => hpre s (List.mem_cons_of_mem x hs))]
    rfl

/-- Successful `_ensure_step_fields` rewrites only the `steps` key. -/
theorem ensureStepFields_shape (data p1 : JVal)
    (h : ensureStepFields data = .ok p1) :
    ∃ out, p1 = data.setKey "steps" (.arr out) := by
  unfold ensureStepFields at h
  cases hpi : pyIter (data.getD "steps" (.arr [])) with
  | error e =>
      rw [hpi, exceptBind_err] at h
      exact Except.noConfusion h
  | ok raw =>
      rw [hpi, exceptBind_ok] at h
      exact ⟨_, (Except.ok.inj h).symm⟩

/-- `_coerce_unknown_tools_to_none` maps `coerceOneStep` over the steps. -/
theorem coerce_steps (p1 : JVal) (out : List JVal)
    (h : p1.getD "steps" (.arr []) = .arr out) :
    coerceUnknownToolsToNone p1 = p1.setKey "steps" (.arr (out.map coerceOneStep)) := by
  unfold coerceUnknownToolsToNone
  rw [h]

/-- `_ensure_compose_answer` appends the canonical compose step when no
step carries the compose id. -/
theorem ensureCompose_steps (p : JVal) (out : List JVal)
    (h : p.getD "steps" (.arr []) = .arr out) :
    ensureComposeAnswer p = p.setKey "steps"
      (.arr (if out.any isComposeStep then out else out ++ [composeStepNew])) := by
  unfold ensureComposeAnswer
  rw [h]
  dsimp only
  by_cases ha : out.any isComposeStep
  · rw [if_pos ha, if_pos ha]
  · rw [if_neg ha, if_neg ha]

/-- `_prune_intermediate_non_tool_steps` always produces tool steps, then
coerced-unknown steps, then a single terminal compose step with null tool
and args. -/
theorem prune_shape (p : JVal) (steps3 : List JVal)
    (h : p.getD "steps" (.arr []) = .arr steps3) :
    ∃ pre compose,
      pruneIntermediateNonToolSteps p = p.setKey "steps" (.arr (pre ++ [compose])) ∧
      (∀ s ∈ pre, hasComposeId s = false ∧
        (s.getD "tool" .null ≠ .null ∨
          (s.getD "tool" .null = .null ∧
            s.getD "_coerced_unknown_tool" .null = .bool true))) ∧
      hasComposeId compose = true ∧
      compose.isDict = true ∧
      compose.getD "tool" .null = .null ∧
      compose.getD "args" .null = .null := by
  unfold pruneIntermediateNonToolSteps
  rw [h]
  refine ⟨steps3.filter (fun s => !hasComposeId s && s.getD "tool" .null != .null)
      ++ steps3.filter (fun s => !hasComposeId s && s.getD "tool" .null == .null &&
        s.getD "_coerced_unknown_tool" .null == .bool true),
    _, rfl, ?_, ?_, ?_, ?_, ?_⟩
  · intro s hs
    rcases List.mem_append.mp hs with hmem | hmem
    · have hf := (List.mem_filter.mp hmem).2
      rw [Bool.and_eq_true] at hf
      refine ⟨by simpa using hf.1, Or.inl ?_⟩
      have := hf.2
      simpa using this
    · have hf := (List.mem_filter.mp hmem).2
      rw [Bool.and_eq_true, Bool.and_eq_true] at hf
      refine ⟨by simpa using hf.1.1, Or.inr ⟨?_, ?_⟩⟩
      · have := hf.1.2
        simpa using this
      · have := hf.2
        simpa using this
  · cases hfind : steps3.find? hasComposeId with
    | none => decide
    | some c =>
        have hc := List.find?_some hfind
        have hdict := isDict_of_hasComposeId c hc
        unfold hasComposeId
        rw [getD_setKey_other_any _ _ _ _ _ (by decide),
          getD_setKey_other_any _ _ _ _ _ (by decide)]
        exact hc
  · cases hfind : steps3.find? hasComposeId with
    | none => rfl
    | some c =>
        have hc := List.find?_some hfind
        have hdict := isDict_of_hasComposeId c hc
        exact isDict_setKey _ (isDict_setKey c hdict "tool" .null) "args" .null
  · cases hfind : steps3.find? hasComposeId with
    | none => rfl
    | some c =>
        have hc := List.find?_some hfind
        have hdict := isDict_of_hasComposeId c hc
        rw [getD_setKey_other_any _ _ _ _ _ (by decide)]
        exact getD_setKey_same_of_dict c hdict "tool" .null .null
  · cases hfind : steps3.find? hasComposeId with
    | none => rfl
    | some c =>
        have hc := List.find?_some hfind
        have hdict := isDict_of_hasComposeId c hc
        exact getD_setKey_same_of_dict _ (isDict_setKey c hdict "tool" .null) "args" .null .null

/-- Decomposition of a successful `_normalise_plan_json` run into its
stages. -/
theorem normalise_decomp (data p : JVal) (hok : normalisePlanJson data = .ok p) :
    ∃ p1, ensureStepFields data = .ok p1 ∧
      sanitizeRequires (pruneIntermediateNonToolSteps
        (ensureComposeAnswer (coerceUnknownToolsToNone p1))) = .ok p ∧
      validateTools p = .ok () ∧ data.isDict = true := by
  cases data with
  | obj fields =>
    unfold normalisePlanJson at hok
    dsimp only at hok
    by_cases hst : (fields.lookup "steps").isSome
    · rw [if_pos hst] at hok
      cases hens : ensureStepFields (.obj fields) with
      | error e =>
          rw [hens, exceptBind_err] at hok
          exact Except.noConfusion hok
      | ok p1 =>
          rw [hens, exceptBind_ok] at hok
          cases hsan : sanitizeRequires (pruneIntermediateNonToolSteps
              (ensureComposeAnswer (coerceUnknownToolsToNone p1))) with
          | error e =>
              rw [hsan, exceptBind_err] at hok
              exact Except.noConfusion hok
          | ok p5 =>
              rw [hsan, exceptBind_ok] at hok
              cases hval : validateTools p5 with
              | error e =>
                  rw [hval, exceptBind_err] at hok
                  exact Except.noConfusion hok
              | ok u =>
                  rw [hval, exceptBind_ok] at hok
                  have hp : p5 = p := Except.ok.inj hok
                  subst hp
                  exact ⟨p1, rfl, hsan, hval, rfl⟩
    · rw [if_neg hst] at hok
      exact Except.noConfusion hok
  | null => exact Except.noConfusion hok
  | bool b => exact Except.noConfusion hok
  | num n => exact Except.noConfusion hok
  | str t => exact Except.noConfusion hok
  | arr xs => exact Except.noConfusion hok

/-- A step with the compose id has `compose_answer` as its id value. -/
theorem getD_id_of_hasComposeId (s : JVal) (h : hasComposeId s = true) :
    s.getD "id" .null = .str "compose_answer" := by
  unfold hasComposeId at h
  exact eq_of_beq h

/-- A step without the compose id has a different id value. -/
theorem getD_id_of_not_hasComposeId (s : JVal) (h : hasComposeId s = false) :
    s.getD "id" .null ≠ .str "compose_answer" := by
  unfold hasComposeId at h
  intro hx
  rw [hx] at h
  simp at h

/-- `filterMap` respects pointwise agreement on members. -/
theorem filterMap_congr_mem {α β : Type} (l : List α) (f g : α → Option β)
    (h : ∀ x ∈ l, f x = g x) : l.filterMap f = l.filterMap g := by
  induction l with
  | nil => rfl
  | cons x xs ih =>
    rw [List.filterMap_cons, List.filterMap_cons, h x (List.mem_cons_self x xs),
      ih (fun y hy => h y (List.mem_cons_of_mem x hy))]

/-- `_sanitize_requires` on the pruned shape: every step's requires list is
filtered and the terminal compose step's requires are recomputed. -/
theorem sanitize_shape (p4 : JVal) (pre0 : List JVal) (c0 p : JVal)
    (hp4dict : p4.isDict = true)
    (hp4steps : p4.getD "steps" (.arr []) = .arr (pre0 ++ [c0]))
    (hpre0 : ∀ s ∈ pre0, hasComposeId s = false)
    (hc0 : hasComposeId c0 = true)
    (hsan : sanitizeRequires p4 = .ok p) :
    ∃ ids,
      ids = (pre0 ++ [c0]).filterMap (fun s =>
        if s.isDict then some (s.getD "id" .null) else none) ∧
      p.getD "steps" (.arr []) = .arr
        (pre0.map (sanitizeOneStep ids) ++
          [(sanitizeOneStep ids c0).setKey "requires"
            (.arr (composeRequiresOf
              (pre0.map (sanitizeOneStep ids) ++ [sanitizeOneStep ids c0])))]) := by
  unfold sanitizeRequires at hsan
  rw [hp4steps] at hsan
  dsimp only at hsan
  refine ⟨_, rfl, ?_⟩
  by_cases hh : (((pre0 ++ [c0]).filterMap (fun s =>
      if s.isDict then some (s.getD "id" .null) else none)).all isHashable) = true
  · rw [if_pos hh] at hsan
    have hsteps1 : (pre0 ++ [c0]).map (sanitizeOneStep ((pre0 ++ [c0]).filterMap (fun s =>
          if s.isDict then some (s.getD "id" .null) else none)))
        = pre0.map (sanitizeOneStep ((pre0 ++ [c0]).filterMap (fun s =>
            if s.isDict then some (s.getD "id" .null) else none)))
          ++ [sanitizeOneStep ((pre0 ++ [c0]).filterMap (fun s =>
            if s.isDict then some (s.getD "id" .null) else none)) c0] := by
      rw [List.map_append]
      rfl
    rw [hsteps1] at hsan
    have hany : ((pre0.map (sanitizeOneStep ((pre0 ++ [c0]).filterMap (fun s =>
          if s.isDict then some (s.getD "id" .null) else none)))
        ++ [sanitizeOneStep ((pre0 ++ [c0]).filterMap (fun s =>
            if s.isDict then some (s.getD "id" .null) else none)) c0]).any hasComposeId)
        = true := by
      refine List.any_eq_true.mpr ⟨_, List.mem_append.mpr (Or.inr (List.mem_singleton.mpr rfl)), ?_⟩
      rw [hasComposeId_sanitizeOne]
      exact hc0
    rw [if_pos hany] at hsan
    rw [updateFirst_append_last hasComposeId _ _ _
      (fun s hs => by
        rcases List.mem_map.mp hs with ⟨t, ht, hts⟩
        rw [← hts, hasComposeId_sanitizeOne]
        exact hpre0 t ht)
      (by rw [hasComposeId_sanitizeOne]; exact hc0)] at hsan
    have hp : p = p4.setKey "steps" _ := (Except.ok.inj hsan).symm
    rw [hp]
    exact getD_setKey_same_of_dict p4 hp4dict _ _ _
  · rw [if_neg hh] at hsan
    exact Except.noConfusion hsan

/-- **C2.** Every plan returned by `_normalise_plan_json` ends in a single
terminal step with id `compose_answer` and null tool and args; every
earlier step either carries a tool or is a coerced-unknown marker (so the
compose step is the only other tool-less step); and the compose step's
requires list is recomputed to be exactly the ids of the plan's tool
steps, in order. -/
theorem C2_compose_terminal_invariant (data p : JVal)
    (hok : normalisePlanJson data = .ok p) :
    ∃ pre compose,
      p.getD "steps" (.arr []) = .arr (pre ++ [compose]) ∧
      compose.getD "id" .null = .str "compose_answer" ∧
      compose.getD "tool" .null = .null ∧
      compose.getD "args" .null = .null ∧
      (∀ s ∈ pre, s.getD "id" .null ≠ .str "compose_answer" ∧
        (s.getD "tool" .null ≠ .null ∨
          (s.getD "tool" .null = .null ∧
            s.getD "_coerced_unknown_tool" .null = .bool true))) ∧
      compose.getD "requires" (.arr []) =
        .arr (pre.filterMap (fun s =>
          if s.getD "tool" .null != .null then some (s.getD "id" .null) else none)) := by
  obtain ⟨p1, hens, hsan, hval, hdict⟩ := normalise_decomp data p hok
  obtain ⟨out, hp1⟩ := ensureStepFields_shape data p1 hens
  have hp1dict : p1.isDict = true := by
    rw [hp1]
    exact isDict_setKey data hdict _ _
  have hp1steps : p1.getD "steps" (.arr []) = .arr out := by
    rw [hp1]
    exact getD_setKey_same_of_dict data hdict _ _ _
  have hp2 := coerce_steps p1 out hp1steps
  have hp2dict : (coerceUnknownToolsToNone p1).isDict = true := by
    rw [hp2]
    exact isDict_setKey p1 hp1dict _ _
  have hp2steps : (coerceUnknownToolsToNone p1).getD "steps" (.arr [])
      = .arr (out.map coerceOneStep) := by
    rw [hp2]
    exact getD_setKey_same_of_dict p1 hp1dict _ _ _
  have hp3 := ensureCompose_steps _ _ hp2steps
  have hp3dict : (ensureComposeAnswer (coerceUnknownToolsToNone p1)).isDict = true := by
    rw [hp3]
    exact isDict_setKey _ hp2dict _ _
  have hp3steps : (ensureComposeAnswer (coerceUnknownToolsToNone p1)).getD "steps" (.arr [])
      = .arr (if (out.map coerceOneStep).any isComposeStep then out.map coerceOneStep
          else out.map coerceOneStep ++ [composeStepNew]) := by
    rw [hp3]
    exact getD_setKey_same_of_dict _ hp2dict _ _ _
  obtain ⟨pre0, c0, hp4, hpre0, hc0comp, hc0dict, hc0tool, hc0args⟩ := prune_shape _ _ hp3steps
  have hp4dict : (pruneIntermediateNonToolSteps
      (ensureComposeAnswer (coerceUnknownToolsToNone p1))).isDict = true := by
    rw [hp4]
    exact isDict_setKey _ hp3dict _ _
  have hp4steps : (pruneIntermediateNonToolSteps
      (ensureComposeAnswer (coerceUnknownToolsToNone p1))).getD "steps" (.arr [])
      = .arr (pre0 ++ [c0]) := by
    rw [hp4]
    exact getD_setKey_same_of_dict _ hp3dict _ _ _
  obtain ⟨ids, hids, hpsteps⟩ := sanitize_shape _ pre0 c0 p hp4dict hp4steps
    (fun s hs => (hpre0 s hs).1) hc0comp hsan
  refine ⟨pre0.map (sanitizeOneStep ids),
    (sanitizeOneStep ids c0).setKey "requires"
      (.arr (composeRequiresOf
        (pre0.map (sanitizeOneStep ids) ++ [sanitizeOneStep ids c0]))),
    hpsteps, ?_, ?_, ?_, ?_, ?_⟩
  · rw [getD_setKey_other_any _ _ _ _ _ (by decide),
      getD_sanitizeOne_other _ _ _ _ (by decide)]
    exact getD_id_of_hasComposeId c0 hc0comp
  · rw [getD_setKey_other_any _ _ _ _ _ (by decide),
      getD_sanitizeOne_other _ _ _ _ (by decide)]
    exact hc0tool
  · rw [getD_setKey_other_any _ _ _ _ _ (by decide),
      getD_sanitizeOne_other _ _ _ _ (by decide)]
    exact hc0args
  · intro s hs
    rcases List.mem_map.mp hs with ⟨t, ht, hts⟩
    subst hts
    obtain ⟨htcomp, htdisj⟩ := hpre0 t ht
    refine ⟨?_, ?_⟩
    · rw [getD_sanitizeOne_other _ _ _ _ (by decide)]
      exact getD_id_of_not_hasComposeId t htcomp
    · rw [getD_sanitizeOne_other _ _ _ _ (by decide),
        getD_sanitizeOne_other _ _ _ _ (by decide)]
      exact htdisj
  · rw [getD_setKey_same_of_dict _ (isDict_sanitizeOne ids c0 hc0dict) _ _ _]
    unfold composeRequiresOf
    rw [List.filterMap_append]
    have hlast : ([sanitizeOneStep ids c0].filterMap (fun s =>
        if s.getD "id" .null != .str "compose_answer" && s.getD "tool" .null != .null
        then some (s.getD "id" .null) else none)) = [] := by
      have hid : (sanitizeOneStep ids c0).getD "id" .null = .str "compose_answer" := by
        rw [getD_sanitizeOne_other _ _ _ _ (by decide)]
        exact getD_id_of_hasComposeId c0 hc0comp
      simp [List.filterMap, hid]
    rw [hlast, List.append_nil]
    refine congrArg JVal.arr (filterMap_congr_mem _ _ _ ?_)
    intro s hs
    rcases List.mem_map.mp hs with ⟨t, ht, hts⟩
    subst hts
    have hid : (sanitizeOneStep ids t).getD "id" .null ≠ .str "compose_answer" := by
      rw [getD_sanitizeOne_other _ _ _ _ (by decide)]
      exact getD_id_of_not_hasComposeId t (hpre0 t ht).1
    have hbne : ((sanitizeOneStep ids t).getD "id" .null != .str "compose_answer") = true := by
      simpa using hid
    rw [hbne]
    simp

/-- Raw planner JSON for the C2 scenario: one tool step, no compose step. -/
def w2data : JVal :=
  .obj [("goal", .str "g"), ("steps", .arr [
    .obj [("id", .str "s1"), ("tool", .str "get_time"),
          ("args", .obj [])]])]

/-- The normalised output of `w2data`. -/
def w2plan : JVal :=
  .obj [("goal", .str "g"), ("steps", .arr [
    .obj [("id", .str "s1"), ("description", .str ""), ("tool", .str "get_time"),
          ("args", .obj []), ("requires", .arr [])],
    .obj [("id", .str "compose_answer"),
          ("description", .str "Reads all previous step results and produces one coherent answer."),
          ("tool", .null), ("args", .null),
          ("requires", .arr [.str "s1"])]])]

/-- Witness for C2: the concrete normalisation run appends a terminal
null-tool compose step whose requires are exactly the tool-step ids. -/
theorem C2_witness :
    normalisePlanJson w2data = .ok w2plan ∧
    ∃ pre compose,
      w2plan.getD "steps" (.arr []) = .arr (pre ++ [compose]) ∧
      compose.getD "id" .null = .str "compose_answer" ∧
      compose.getD "tool" .null = .null ∧
      compose.getD "args" .null = .null ∧
      (∀ s ∈ pre, s.getD "id" .null ≠ .str "compose_answer" ∧
        (s.getD "tool" .null ≠ .null ∨
          (s.getD "tool" .null = .null ∧
            s.getD "_coerced_unknown_tool" .null = .bool true))) ∧
      compose.getD "requires" (.arr []) =
        .arr (pre.filterMap (fun s =>
          if s.getD "tool" .null != .null then some (s.getD "id" .null) else none)) :=
  ⟨by rfl, C2_compose_terminal_invariant w2data w2plan (by rfl)⟩

/-- Raw planner JSON naming an unknown tool (C3 counterexample input). -/
def w3data : JVal :=
  .obj [("goal", .str "g"), ("steps", .arr [
    .obj [("id", .str "s1"), ("tool", .str "badtool"), ("args", .obj [])]])]

/-- First normalisation of `w3data`: the unknown-tool step is coerced to a
null tool and retained, marked `_coerced_unknown_tool`. -/
def w3p1 : JVal :=
  .obj [("goal", .str "g"), ("steps", .arr [
    .obj [("id", .str "s1"), ("description", .str ""), ("tool", .null),
          ("args", .null), ("requires", .arr []),
          ("_coerced_unknown_tool", .bool true)],
    .obj [("id", .str "compose_answer"),
          ("description", .str "Reads all previous step results and produces one coherent answer."),
          ("tool", .null), ("args", .null), ("requires", .arr [])]])]

/-- Second normalisation: `_ensure_step_fields` rebuilds each step with only
the five canonical fields, stripping the coercion marker, so the pruning
pass now drops the step. -/
def w3p2 : JVal :=
  .obj [("goal", .str "g"), ("steps", .arr [
    .obj [("id", .str "compose_answer"),
          ("description", .str "Reads all previous step results and produces one coherent answer."),
          ("tool", .null), ("args", .null), ("requires", .arr [])]])]

/-- Counterexample to C3 as stated: normalisation is not idempotent on
plans that contain a coerced-unknown step — the second pass loses the
marker and prunes the step, so the structures differ. -/
theorem C3_counterexample :
    normalisePlanJson w3data = .ok w3p1 ∧
    normalisePlanJson w3p1 = .ok w3p2 ∧
    w3p1 ≠ w3p2 :=
  ⟨by rfl, by rfl, by decide⟩

/-- A canonical normalised step without a tool. -/
def canonNull (iv dv : JVal) (rv : List JVal) : JVal :=
  .obj [("id", iv), ("description", dv), ("tool", .null), ("args", .null),
        ("requires", .arr rv)]

/-- A canonical normalised tool step. -/
def canonTool (iv dv : JVal) (t : String) (af : List (String × JVal)) (rv : List JVal) : JVal :=
  .obj [("id", iv), ("description", dv), ("tool", .str t), ("args", .obj af),
        ("requires", .arr rv)]

/-- `_ensure_step_fields` rebuilds a canonical no-tool step to itself. -/
theorem ensureOneStep_canonNull (i : Nat) (iv dv : JVal) (rv : List JVal) :
    ensureOneStep i (canonNull iv dv rv) = canonNull iv dv rv := rfl

/-- `_ensure_step_fields` rebuilds a canonical tool step to itself. -/
theorem ensureOneStep_canonTool (i : Nat) (iv dv : JVal) (t : String)
    (af : List (String × JVal)) (rv : List JVal) :
    ensureOneStep i (canonTool iv dv t af rv) = canonTool iv dv t af rv := rfl

/-- Coercion is the identity on a canonical no-tool step. -/
theorem coerceOneStep_canonNull (iv dv : JVal) (rv : List JVal) :
    coerceOneStep (canonNull iv dv rv) = canonNull iv dv rv := rfl

/-- Coercion is the identity on a canonical step calling a registered
tool. -/
theorem coerceOneStep_canonTool (iv dv : JVal) (t : String)
    (af : List (String × JVal)) (rv : List JVal)
    (ht : allowedToolNames.contains t = true) :
    coerceOneStep (canonTool iv dv t af rv) = canonTool iv dv t af rv := by
  unfold coerceOneStep
  have h1 : (canonTool iv dv t af rv).getD "tool" .null = .str t := rfl
  rw [h1]
  rw [if_neg (by simp : ¬ (JVal.str t = JVal.null))]
  have h2 : isAllowedToolVal (.str t) = true := by
    unfold isAllowedToolVal
    exact ht
  rw [h2]
  rw [if_pos rfl]

/-- The per-entry requires filter of `_sanitize_requires`. -/
def reqKeep (ids : List JVal) (sid : JVal) (r : JVal) : Bool :=
  match r with
  | .str _ => ids.contains r && r != sid
  | _ => false

/-- Sanitizing a canonical no-tool step whose requires are already
filtered is the identity. -/
theorem sanitizeOne_canonNull_fix (ids : List JVal) (iv dv : JVal) (rv : List JVal)
    (hfix : rv.filter (reqKeep ids iv) = rv) :
    sanitizeOneStep ids (canonNull iv dv rv) = canonNull iv dv rv := by
  have h1 : sanitizeOneStep ids (canonNull iv dv rv)
      = (canonNull iv dv rv).setKey "requires" (.arr (rv.filter (reqKeep ids iv))) := rfl
  rw [h1, hfix]
  rfl

/-- Sanitizing a canonical tool step whose requires are already filtered
is the identity. -/
theorem sanitizeOne_canonTool_fix (ids : List JVal) (iv dv : JVal) (t : String)
    (af : List (String × JVal)) (rv : List JVal)
    (hfix : rv.filter (reqKeep ids iv) = rv) :
    sanitizeOneStep ids (canonTool iv dv t af rv) = canonTool iv dv t af rv := by
  have h1 : sanitizeOneStep ids (canonTool iv dv t af rv)
      = (canonTool iv dv t af rv).setKey "requires" (.arr (rv.filter (reqKeep ids iv))) := rfl
  rw [h1, hfix]
  rfl

/-- Setting the same key twice keeps only the last write. -/
theorem setAssoc_setAssoc {α : Type} (l : List (String × α)) (k : String) (v w : α) :
    setAssoc (setAssoc l k v) k w = setAssoc l k w := by
  induction l with
  | nil => simp [setAssoc]
  | cons kv rest ih =>
    obtain ⟨k0, v0⟩ := kv
    by_cases h0 : k0 = k
    · subst h0
      simp [setAssoc]
    · simp [setAssoc, h0, ih]

/-- `setKey` twice at one key keeps only the last write. -/
theorem setKey_setKey (s : JVal) (k : String) (v w : JVal) :
    (s.setKey k v).setKey k w = s.setKey k w := by
  cases s with
  | obj fields => exact congrArg JVal.obj (setAssoc_setAssoc fields k v w)
  | null => rfl
  | bool b => rfl
  | num n => rfl
  | str t => rfl
  | arr xs => rfl

/-- `setKey` writing back the value a key already holds is the identity. -/
theorem setKey_self (p : JVal) (k : String) (v : JVal) (h : p.get? k = some v) :
    p.setKey k v = p := by
  cases p with
  | obj fields => exact congrArg JVal.obj (setAssoc_self fields k v h)
  | null => rfl
  | bool b => rfl
  | num n => rfl
  | str t => rfl
  | arr xs => rfl

/-- `find?` over a list whose only match is the appended last element. -/
theorem find?_append_last (p : JVal → Bool) (pre : List JVal) (c : JVal)
    (hpre : ∀ s ∈ pre, p s = false) (hc : p c = true) :
    (pre ++ [c]).find? p = some c := by
  induction pre with
  | nil => simp [List.find?, hc]
  | cons x rest ih =>
    rw [List.cons_append, List.find?, hpre x (List.mem_cons_self x rest)]
    exact ih (fun s hs => hpre s (List.mem_cons_of_mem x hs))

/-- A filter that keeps every element is the identity. -/
theorem filter_all_true {α : Type} (p : α → Bool) (l : List α)
    (h : ∀ a ∈ l, p a = true) : l.filter p = l := by
  induction l with
  | nil => rfl
  | cons x rest ih =>
    rw [List.filter_cons, h x (List.mem_cons_self x rest),
      ih (fun a ha => h a (List.mem_cons_of_mem x ha))]
    simp

/-- A filter that keeps no element is empty. -/
theorem filter_all_false {α : Type} (p : α → Bool) (l : List α)
    (h : ∀ a ∈ l, p a = false) : l.filter p = [] := by
  induction l with
  | nil => rfl
  | cons x rest ih =>
    rw [List.filter_cons, h x (List.mem_cons_self x rest)]
    simp only [Bool.false_eq_true, if_neg (by simp : ¬ (false = true))]
    exact ih (fun a ha => h a (List.mem_cons_of_mem x ha))

/-- Filtering twice with one predicate equals filtering once. -/
theorem filter_idem {α : Type} (p : α → Bool) (l : List α) :
    (l.filter p).filter p = l.filter p :=
  filter_all_true p (l.filter p) (fun _ ha => (List.mem_filter.mp ha).2)

/-- Rebuilding an enumerated list of fixed dict steps is the identity. -/
theorem enumFrom_ensure_fix :
    ∀ (n : Nat) (l : List JVal),
    (∀ s ∈ l, s.isDict = true ∧ ∀ i : Nat, ensureOneStep i s = s) →
    (List.enumFrom n l).filterMap (fun is =>
      if is.2.isDict then some (ensureOneStep is.1 is.2) else none) = l := by
  intro n l
  induction l generalizing n with
  | nil => intro _; rfl
  | cons x rest ih =>
    intro h
    obtain ⟨hdict, hfix⟩ := h x (List.mem_cons_self x rest)
    rw [List.enumFrom_cons, List.filterMap_cons]
    simp only [hdict, hfix n, ih (n + 1) (fun s hs => h s (List.mem_cons_of_mem x hs))]
    simp

/-- A coerced-unknown step as `_coerce_unknown_tools_to_none` leaves it. -/
def canonFlag (iv dv : JVal) (rv : List JVal) : JVal :=
  .obj [("id", iv), ("description", dv), ("tool", .null), ("args", .null),
        ("requires", .arr rv), ("_coerced_unknown_tool", .bool true)]

/-- The ids list `_sanitize_requires` builds from a step list. -/
def idsOf (L : List JVal) : List JVal :=
  L.filterMap (fun s => if s.isDict then some (s.getD "id" .null) else none)

/-- Sanitizing a canonical tool step filters its requires in place. -/
theorem sanitizeOne_canonTool (ids : List JVal) (iv dv : JVal) (t : String)
    (af : List (String × JVal)) (rv : List JVal) :
    sanitizeOneStep ids (canonTool iv dv t af rv)
      = canonTool iv dv t af (rv.filter (reqKeep ids iv)) := rfl

/-- Sanitizing a canonical no-tool step filters its requires in place. -/
theorem sanitizeOne_canonNull (ids : List JVal) (iv dv : JVal) (rv : List JVal) :
    sanitizeOneStep ids (canonNull iv dv rv)
      = canonNull iv dv (rv.filter (reqKeep ids iv)) := rfl

/-- Sanitizing a coerced-unknown step filters its requires in place. -/
theorem sanitizeOne_canonFlag (ids : List JVal) (iv dv : JVal) (rv : List JVal) :
    sanitizeOneStep ids (canonFlag iv dv rv)
      = canonFlag iv dv (rv.filter (reqKeep ids iv)) := rfl

/-- Overwriting `requires` on a canonical no-tool step. -/
theorem setKey_requires_canonNull (iv dv : JVal) (rv rv2 : List JVal) :
    (canonNull iv dv rv).setKey "requires" (.arr rv2) = canonNull iv dv rv2 := rfl

/-- Overwriting `requires` on a coerced-unknown step. -/
theorem setKey_requires_canonFlag (iv dv : JVal) (rv rv2 : List JVal) :
    (canonFlag iv dv rv).setKey "requires" (.arr rv2) = canonFlag iv dv rv2 := rfl

/-- Nulling tool and args of a canonical no-tool step is the identity. -/
theorem nullify_canonNull (iv dv : JVal) (rv : List JVal) :
    ((canonNull iv dv rv).setKey "tool" .null).setKey "args" .null
      = canonNull iv dv rv := rfl

/-- Nulling tool and args of a canonical tool step gives the no-tool
form. -/
theorem nullify_canonTool (iv dv : JVal) (t : String) (af : List (String × JVal))
    (rv : List JVal) :
    ((canonTool iv dv t af rv).setKey "tool" .null).setKey "args" .null
      = canonNull iv dv rv := rfl

/-- Nulling tool and args of a coerced-unknown step is the identity. -/
theorem nullify_canonFlag (iv dv : JVal) (rv : List JVal) :
    ((canonFlag iv dv rv).setKey "tool" .null).setKey "args" .null
      = canonFlag iv dv rv := rfl

/-- The new compose step is in canonical no-tool form. -/
theorem composeStepNew_canon : composeStepNew
    = canonNull (.str "compose_answer")
        (.str "Reads all previous step results and produces one coherent answer.") [] := rfl

/-- Every step rebuilt by `_ensure_step_fields` has the five canonical
fields, with null args exactly when the tool is null. -/
theorem ensureOneStep_shape (i : Nat) (s : JVal) :
    ∃ iv dv tv av rv, ensureOneStep i s
      = .obj [("id", iv), ("description", dv), ("tool", tv), ("args", av),
              ("requires", .arr rv)] ∧
      ((tv = .null ∧ av = .null) ∨ (tv ≠ .null ∧ ∃ af, av = .obj af)) := by
  unfold ensureOneStep
  dsimp only
  by_cases ht : s.getD "tool" .null = .null
  · rw [if_pos ht]
    cases hr : s.getD "requires" (.arr []) with
    | arr xs => exact ⟨_, _, _, _, xs, rfl, Or.inl ⟨ht, rfl⟩⟩
    | null => exact ⟨_, _, _, _, _, rfl, Or.inl ⟨ht, rfl⟩⟩
    | bool b => exact ⟨_, _, _, _, _, rfl, Or.inl ⟨ht, rfl⟩⟩
    | num n => exact ⟨_, _, _, _, _, rfl, Or.inl ⟨ht, rfl⟩⟩
    | str t => exact ⟨_, _, _, _, _, rfl, Or.inl ⟨ht, rfl⟩⟩
    | obj fs => exact ⟨_, _, _, _, _, rfl, Or.inl ⟨ht, rfl⟩⟩
  · rw [if_neg ht]
    cases hr : s.getD "requires" (.arr []) <;>
      cases ha : s.getD "args" .null <;>
      exact ⟨_, _, _, _, _, rfl, Or.inr ⟨ht, _, rfl⟩⟩

/-- An allowed tool value is a registered tool name string. -/
theorem isAllowedToolVal_true (v : JVal) (h : isAllowedToolVal v = true) :
    ∃ t, v = .str t ∧ allowedToolNames.contains t = true := by
  cases v with
  | str t => exact ⟨t, rfl, h⟩
  | null => exact absurd h (by simp [isAllowedToolVal])
  | bool b => exact absurd h (by simp [isAllowedToolVal])
  | num n => exact absurd h (by simp [isAllowedToolVal])
  | arr xs => exact absurd h (by simp [isAllowedToolVal])
  | obj fs => exact absurd h (by simp [isAllowedToolVal])

/-- Coercion marks a canonical step naming an unregistered tool. -/
theorem coerceOneStep_unknown (iv dv tv : JVal) (af : List (String × JVal))
    (rv : List JVal) (htv : tv ≠ .null) (hbad : isAllowedToolVal tv = false) :
    coerceOneStep (.obj [("id", iv), ("description", dv), ("tool", tv),
        ("args", .obj af), ("requires", .arr rv)]) = canonFlag iv dv rv := by
  unfold coerceOneStep
  rw [show (JVal.obj [("id", iv), ("description", dv), ("tool", tv),
      ("args", .obj af), ("requires", .arr rv)]).getD "tool" .null = tv from rfl]
  rw [if_neg htv, hbad]
  rw [if_neg (by simp : ¬ (false = true))]
  rfl

/-- After `_ensure_step_fields` and `_coerce_unknown_tools_to_none`, every
step is a canonical no-tool step, a canonical registered-tool step, or a
marked coerced-unknown step, with the id preserved. -/
theorem coerce_after_ensure (iv dv tv av : JVal) (rv : List JVal)
    (hcase : (tv = .null ∧ av = .null) ∨ (tv ≠ .null ∧ ∃ af, av = .obj af)) :
    (∃ rv2, coerceOneStep (.obj [("id", iv), ("description", dv), ("tool", tv),
        ("args", av), ("requires", .arr rv)]) = canonNull iv dv rv2) ∨
    (∃ t af, coerceOneStep (.obj [("id", iv), ("description", dv), ("tool", tv),
        ("args", av), ("requires", .arr rv)]) = canonTool iv dv t af rv ∧
      allowedToolNames.contains t = true) ∨
    (coerceOneStep (.obj [("id", iv), ("description", dv), ("tool", tv),
        ("args", av), ("requires", .arr rv)]) = canonFlag iv dv rv) := by
  rcases hcase with ⟨htv, hav⟩ | ⟨htv, af, hav⟩
  · subst htv
    subst hav
    exact Or.inl ⟨rv, coerceOneStep_canonNull iv dv rv⟩
  · subst hav
    by_cases hallow : isAllowedToolVal tv = true
    · obtain ⟨t, htv2, hcont⟩ := isAllowedToolVal_true tv hallow
      subst htv2
      exact Or.inr (Or.inl ⟨t, af, coerceOneStep_canonTool iv dv t af rv hcont, hcont⟩)
    · have hbad : isAllowedToolVal tv = false := by
        cases hx : isAllowedToolVal tv
        · rfl
        · exact absurd hx hallow
      exact Or.inr (Or.inr (coerceOneStep_unknown iv dv tv af rv htv hbad))

/-- Field reads on the canonical forms. -/
theorem getD_canonNull_id (iv dv : JVal) (rv : List JVal) :
    (canonNull iv dv rv).getD "id" .null = iv := rfl

theorem getD_canonTool_id (iv dv : JVal) (t : String) (af : List (String × JVal))
    (rv : List JVal) : (canonTool iv dv t af rv).getD "id" .null = iv := rfl

theorem getD_canonFlag_id (iv dv : JVal) (rv : List JVal) :
    (canonFlag iv dv rv).getD "id" .null = iv := rfl

theorem getD_canonNull_tool (iv dv : JVal) (rv : List JVal) :
    (canonNull iv dv rv).getD "tool" .null = .null := rfl

theorem getD_canonTool_tool (iv dv : JVal) (t : String) (af : List (String × JVal))
    (rv : List JVal) : (canonTool iv dv t af rv).getD "tool" .null = .str t := rfl

theorem getD_canonFlag_tool (iv dv : JVal) (rv : List JVal) :
    (canonFlag iv dv rv).getD "tool" .null = .null := rfl

theorem getD_canonFlag_mark (iv dv : JVal) (rv : List JVal) :
    (canonFlag iv dv rv).getD "_coerced_unknown_tool" .null = .bool true := rfl

/-- `_sanitize_requires` succeeds only when every id is hashable. -/
theorem sanitize_hash (p4 : JVal) (steps4 : List JVal) (p : JVal)
    (hp4steps : p4.getD "steps" (.arr []) = .arr steps4)
    (hsan : sanitizeRequires p4 = .ok p) :
    (idsOf steps4).all isHashable = true := by
  unfold sanitizeRequires at hsan
  rw [hp4steps] at hsan
  dsimp only at hsan
  by_cases hh : ((steps4.filterMap (fun s =>
      if s.isDict then some (s.getD "id" .null) else none)).all isHashable) = true
  · exact hh
  · rw [if_neg hh] at hsan
    exact Except.noConfusion hsan

/-- Shape of every step after the ensure and coerce passes. -/
def CoShapeP (x : JVal) : Prop :=
  (∃ iv dv rv, x = canonNull iv dv rv) ∨
  (∃ iv dv t af rv, x = canonTool iv dv t af rv ∧
    allowedToolNames.contains t = true) ∨
  (∃ iv dv rv, x = canonFlag iv dv rv)

/-- `_ensure_step_fields` emits only five-field canonical steps. -/
theorem ensureStepFields_elements (data p1 : JVal)
    (hens : ensureStepFields data = .ok p1) :
    ∃ out, p1 = data.setKey "steps" (.arr out) ∧
      ∀ x ∈ out, ∃ iv dv tv av rv,
        x = .obj [("id", iv), ("description", dv), ("tool", tv), ("args", av),
                  ("requires", .arr rv)] ∧
        ((tv = .null ∧ av = .null) ∨ (tv ≠ .null ∧ ∃ af, av = .obj af)) := by
  unfold ensureStepFields at hens
  cases hpi : pyIter (data.getD "steps" (.arr [])) with
  | error e =>
      rw [hpi, exceptBind_err] at hens
      exact Except.noConfusion hens
  | ok raw =>
      rw [hpi, exceptBind_ok] at hens
      refine ⟨_, (Except.ok.inj hens).symm, ?_⟩
      intro x hx
      rcases List.mem_filterMap.mp hx with ⟨is, _, hsome⟩
      by_cases hd : is.2.isDict = true
      · rw [if_pos hd] at hsome
        have hxe : x = ensureOneStep is.1 is.2 := (Option.some.inj hsome).symm
        rw [hxe]
        exact ensureOneStep_shape is.1 is.2
      · rw [if_neg hd] at hsome
        exact Option.noConfusion hsome

/-- After coercion every step satisfies `CoShapeP`. -/
theorem coerced_elements (out : List JVal)
    (hout : ∀ x ∈ out, ∃ iv dv tv av rv,
      x = .obj [("id", iv), ("description", dv), ("tool", tv), ("args", av),
                ("requires", .arr rv)] ∧
      ((tv = .null ∧ av = .null) ∨ (tv ≠ .null ∧ ∃ af, av = .obj af))) :
    ∀ y ∈ out.map coerceOneStep, CoShapeP y := by
  intro y hy
  rcases List.mem_map.mp hy with ⟨x, hx, hxy⟩
  obtain ⟨iv, dv, tv, av, rv, hxe, hcase⟩ := hout x hx
  subst hxe
  rcases coerce_after_ensure iv dv tv av rv hcase with ⟨rv2, he⟩ | ⟨t, af, he, hcont⟩ | he
  · exact Or.inl ⟨iv, dv, rv2, hxy ▸ he ▸ rfl⟩
  · exact Or.inr (Or.inl ⟨iv, dv, t, af, rv, hxy ▸ he ▸ rfl, hcont⟩)
  · exact Or.inr (Or.inr ⟨iv, dv, rv, hxy ▸ he ▸ rfl⟩)

theorem getD_canonNull_mark (iv dv : JVal) (rv : List JVal) :
    (canonNull iv dv rv).getD "_coerced_unknown_tool" .null = .null := rfl

theorem getD_canonTool_mark (iv dv : JVal) (t : String) (af : List (String × JVal))
    (rv : List JVal) :
    (canonTool iv dv t af rv).getD "_coerced_unknown_tool" .null = .null := rfl

theorem hasComposeId_canonNull (iv dv : JVal) (rv : List JVal) :
    hasComposeId (canonNull iv dv rv) = (iv == JVal.str "compose_answer") := rfl

theorem hasComposeId_canonTool (iv dv : JVal) (t : String) (af : List (String × JVal))
    (rv : List JVal) :
    hasComposeId (canonTool iv dv t af rv) = (iv == JVal.str "compose_answer") := rfl

theorem hasComposeId_canonFlag (iv dv : JVal) (rv : List JVal) :
    hasComposeId (canonFlag iv dv rv) = (iv == JVal.str "compose_answer") := rfl

/-- The tool-step filter of the prune pass selects exactly canonical
registered-tool steps without the compose id. -/
theorem toolFilter_elements (steps3 : List JVal) (hshape : ∀ x ∈ steps3, CoShapeP x) :
    ∀ x ∈ steps3.filter (fun s => !hasComposeId s && s.getD "tool" .null != .null),
      ∃ iv dv t af rv, x = canonTool iv dv t af rv ∧
        allowedToolNames.contains t = true ∧
        (iv == JVal.str "compose_answer") = false := by
  intro x hx
  obtain ⟨hmem, hcond⟩ := List.mem_filter.mp hx
  rw [Bool.and_eq_true] at hcond
  rcases hshape x hmem with ⟨iv, dv, rv, he⟩ | ⟨iv, dv, t, af, rv, he, hcont⟩ |
    ⟨iv, dv, rv, he⟩
  · exfalso
    subst he
    have h2 := hcond.2
    rw [getD_canonNull_tool] at h2
    simp at h2
  · refine ⟨iv, dv, t, af, rv, he, hcont, ?_⟩
    subst he
    have h1 := hcond.1
    rw [hasComposeId_canonTool] at h1
    simpa using h1
  · exfalso
    subst he
    have h2 := hcond.2
    rw [getD_canonFlag_tool] at h2
    simp at h2

/-- The coerced-step filter of the prune pass selects exactly marked
coerced-unknown steps. -/
theorem coercedFilter_elements (steps3 : List JVal) (hshape : ∀ x ∈ steps3, CoShapeP x) :
    ∀ x ∈ steps3.filter (fun s => !hasComposeId s && s.getD "tool" .null == .null &&
        s.getD "_coerced_unknown_tool" .null == .bool true),
      ∃ iv dv rv, x = canonFlag iv dv rv := by
  intro x hx
  obtain ⟨hmem, hcond⟩ := List.mem_filter.mp hx
  rw [Bool.and_eq_true] at hcond
  rcases hshape x hmem with ⟨iv, dv, rv, he⟩ | ⟨iv, dv, t, af, rv, he, hcont⟩ |
    ⟨iv, dv, rv, he⟩
  · exfalso
    subst he
    have h2 := hcond.2
    rw [getD_canonNull_mark] at h2
    exact absurd h2 (by decide)
  · exfalso
    subst he
    have h2 := hcond.2
    rw [getD_canonTool_mark] at h2
    exact absurd h2 (by decide)
  · exact ⟨iv, dv, rv, he⟩


/-- Canonical characterisation of normaliser outputs without coerced
steps: canonical registered-tool steps with already-filtered requires,
then one canonical compose step whose requires are the recomputed
tool-step ids, over hashable ids, passing tool validation. -/
theorem normalise_output_canon (data p : JVal) (steps : List JVal)
    (hok : normalisePlanJson data = .ok p)
    (hsteps : p.get? "steps" = some (.arr steps))
    (hnoflag : ∀ s ∈ steps, s.getD "_coerced_unknown_tool" .null ≠ .bool true) :
    ∃ pre cdv crv,
      steps = pre ++ [canonNull (.str "compose_answer") cdv crv] ∧
      (∀ s ∈ pre, ∃ iv dv t af rv, s = canonTool iv dv t af rv ∧
        allowedToolNames.contains t = true ∧
        (iv == JVal.str "compose_answer") = false ∧
        rv.filter (reqKeep (idsOf steps) iv) = rv) ∧
      crv = composeRequiresOf steps ∧
      (idsOf steps).all isHashable = true ∧
      validateTools p = .ok () := by
  obtain ⟨p1, hens, hsan, hval, hdict⟩ := normalise_decomp data p hok
  obtain ⟨out, hp1, hout⟩ := ensureStepFields_elements data p1 hens
  have hp1dict : p1.isDict = true := by
    rw [hp1]
    exact isDict_setKey data hdict _ _
  have hp1steps : p1.getD "steps" (.arr []) = .arr out := by
    rw [hp1]
    exact getD_setKey_same_of_dict data hdict _ _ _
  have hp2 := coerce_steps p1 out hp1steps
  have hp2dict : (coerceUnknownToolsToNone p1).isDict = true := by
    rw [hp2]
    exact isDict_setKey p1 hp1dict _ _
  have hp2steps : (coerceUnknownToolsToNone p1).getD "steps" (.arr [])
      = .arr (out.map coerceOneStep) := by
    rw [hp2]
    exact getD_setKey_same_of_dict p1 hp1dict _ _ _
  have hL2shape : ∀ y ∈ (out.map coerceOneStep), CoShapeP y := coerced_elements out hout
  have hp3 := ensureCompose_steps _ _ hp2steps
  have hp3dict : (ensureComposeAnswer (coerceUnknownToolsToNone p1)).isDict = true := by
    rw [hp3]
    exact isDict_setKey _ hp2dict _ _
  have hp3steps : (ensureComposeAnswer (coerceUnknownToolsToNone p1)).getD "steps" (.arr [])
      = .arr (if (out.map coerceOneStep).any isComposeStep then (out.map coerceOneStep) else (out.map coerceOneStep) ++ [composeStepNew]) := by
    rw [hp3]
    exact getD_setKey_same_of_dict _ hp2dict _ _ _
  have hsteps3shape : ∀ x ∈ (if (out.map coerceOneStep).any isComposeStep then (out.map coerceOneStep) else (out.map coerceOneStep) ++ [composeStepNew]), CoShapeP x := by
    intro x hx
    by_cases ha : (out.map coerceOneStep).any isComposeStep = true
    · rw [if_pos ha] at hx
      exact hL2shape x hx
    · rw [if_neg ha] at hx
      rcases List.mem_append.mp hx with hx2 | hx2
      · exact hL2shape x hx2
      · have hxc : x = composeStepNew := List.mem_singleton.mp hx2
        rw [hxc, composeStepNew_canon]
        exact Or.inl ⟨_, _, _, rfl⟩
  have hcompshape : ∃ comp, (match (if (out.map coerceOneStep).any isComposeStep then (out.map coerceOneStep) else (out.map coerceOneStep) ++ [composeStepNew]).find? hasComposeId with
      | some c => (c.setKey "tool" .null).setKey "args" .null
      | none => composeStepNew) = comp ∧
      ((∃ cdv crvc, comp = canonNull (.str "compose_answer") cdv crvc) ∨
       (∃ cdv crvc, comp = canonFlag (.str "compose_answer") cdv crvc)) := by
    cases hfind : (if (out.map coerceOneStep).any isComposeStep then (out.map coerceOneStep) else (out.map coerceOneStep) ++ [composeStepNew]).find? hasComposeId with
    | none => exact ⟨composeStepNew, rfl, Or.inl ⟨_, _, composeStepNew_canon⟩⟩
    | some c =>
        have hcc := List.find?_some hfind
        have hcm := List.mem_of_find?_eq_some hfind
        rcases hsteps3shape c hcm with ⟨iv, dv, rv, he⟩ | ⟨iv, dv, t, af, rv, he, _⟩ |
          ⟨iv, dv, rv, he⟩
        · subst he
          rw [hasComposeId_canonNull] at hcc
          have hiv : iv = .str "compose_answer" := eq_of_beq hcc
          subst hiv
          exact ⟨_, nullify_canonNull _ dv rv, Or.inl ⟨dv, rv, rfl⟩⟩
        · subst he
          rw [hasComposeId_canonTool] at hcc
          have hiv : iv = .str "compose_answer" := eq_of_beq hcc
          subst hiv
          exact ⟨_, nullify_canonTool _ dv t af rv, Or.inl ⟨dv, rv, rfl⟩⟩
        · subst he
          rw [hasComposeId_canonFlag] at hcc
          have hiv : iv = .str "compose_answer" := eq_of_beq hcc
          subst hiv
          exact ⟨_, nullify_canonFlag _ dv rv, Or.inr ⟨dv, rv, rfl⟩⟩
  obtain ⟨comp, hcompeq, hcompcase⟩ := hcompshape
  have hp4eq : pruneIntermediateNonToolSteps (ensureComposeAnswer (coerceUnknownToolsToNone p1))
      = (ensureComposeAnswer (coerceUnknownToolsToNone p1)).setKey "steps"
        (.arr (((if (out.map coerceOneStep).any isComposeStep then (out.map coerceOneStep) else (out.map coerceOneStep) ++ [composeStepNew]).filter (fun s => !hasComposeId s && s.getD "tool" .null != .null)) ++ ((if (out.map coerceOneStep).any isComposeStep then (out.map coerceOneStep) else (out.map coerceOneStep) ++ [composeStepNew]).filter (fun s => !hasComposeId s && s.getD "tool" .null == .null && s.getD "_coerced_unknown_tool" .null == .bool true)) ++ [comp])) := by
    unfold pruneIntermediateNonToolSteps
    rw [hp3steps, ← hcompeq]
  have hp4dict : (pruneIntermediateNonToolSteps
      (ensureComposeAnswer (coerceUnknownToolsToNone p1))).isDict = true := by
    rw [hp4eq]
    exact isDict_setKey _ hp3dict _ _
  have hp4steps : (pruneIntermediateNonToolSteps
      (ensureComposeAnswer (coerceUnknownToolsToNone p1))).getD "steps" (.arr [])
      = .arr ((((if (out.map coerceOneStep).any isComposeStep then (out.map coerceOneStep) else (out.map coerceOneStep) ++ [composeStepNew]).filter (fun s => !hasComposeId s && s.getD "tool" .null != .null)) ++ ((if (out.map coerceOneStep).any isComposeStep then (out.map coerceOneStep) else (out.map coerceOneStep) ++ [composeStepNew]).filter (fun s => !hasComposeId s && s.getD "tool" .null == .null && s.getD "_coerced_unknown_tool" .null == .bool true))) ++ [comp]) := by
    rw [hp4eq]
    exact getD_setKey_same_of_dict _ hp3dict _ _ _
  have hfTc : ∀ s ∈ ((if (out.map coerceOneStep).any isComposeStep then (out.map coerceOneStep) else (out.map coerceOneStep) ++ [composeStepNew]).filter (fun s => !hasComposeId s && s.getD "tool" .null != .null)), hasComposeId s = false := by
    intro s hs
    have h := (List.mem_filter.mp hs).2
    rw [Bool.and_eq_true] at h
    simpa using h.1
  have hfCc : ∀ s ∈ ((if (out.map coerceOneStep).any isComposeStep then (out.map coerceOneStep) else (out.map coerceOneStep) ++ [composeStepNew]).filter (fun s => !hasComposeId s && s.getD "tool" .null == .null && s.getD "_coerced_unknown_tool" .null == .bool true)), hasComposeId s = false := by
    intro s hs
    have h := (List.mem_filter.mp hs).2
    rw [Bool.and_eq_true, Bool.and_eq_true] at h
    simpa using h.1.1
  have hprec : ∀ s ∈ ((if (out.map coerceOneStep).any isComposeStep then (out.map coerceOneStep) else (out.map coerceOneStep) ++ [composeStepNew]).filter (fun s => !hasComposeId s && s.getD "tool" .null != .null)) ++ ((if (out.map coerceOneStep).any isComposeStep then (out.map coerceOneStep) else (out.map coerceOneStep) ++ [composeStepNew]).filter (fun s => !hasComposeId s && s.getD "tool" .null == .null && s.getD "_coerced_unknown_tool" .null == .bool true)), hasComposeId s = false := by
    intro s hs
    rcases List.mem_append.mp hs with h | h
    · exact hfTc s h
    · exact hfCc s h
  have hcompc : hasComposeId comp = true := by
    rcases hcompcase with ⟨cdv, crvc, he⟩ | ⟨cdv, crvc, he⟩
    · rw [he, hasComposeId_canonNull]
      decide
    · rw [he, hasComposeId_canonFlag]
      decide
  obtain ⟨ids, hidsdef, hpsteps⟩ := sanitize_shape _ (((if (out.map coerceOneStep).any isComposeStep then (out.map coerceOneStep) else (out.map coerceOneStep) ++ [composeStepNew]).filter (fun s => !hasComposeId s && s.getD "tool" .null != .null)) ++ ((if (out.map coerceOneStep).any isComposeStep then (out.map coerceOneStep) else (out.map coerceOneStep) ++ [composeStepNew]).filter (fun s => !hasComposeId s && s.getD "tool" .null == .null && s.getD "_coerced_unknown_tool" .null == .bool true))) comp p
    hp4dict hp4steps hprec hcompc hsan
  have hhash0 := sanitize_hash _ ((((if (out.map coerceOneStep).any isComposeStep then (out.map coerceOneStep) else (out.map coerceOneStep) ++ [composeStepNew]).filter (fun s => !hasComposeId s && s.getD "tool" .null != .null)) ++ ((if (out.map coerceOneStep).any isComposeStep then (out.map coerceOneStep) else (out.map coerceOneStep) ++ [composeStepNew]).filter (fun s => !hasComposeId s && s.getD "tool" .null == .null && s.getD "_coerced_unknown_tool" .null == .bool true))) ++ [comp]) p hp4steps hsan
  have hsteps_getD : p.getD "steps" (.arr []) = .arr steps := by
    unfold JVal.getD
    rw [hsteps]
    rfl
  have hsteps_eq : steps = (((if (out.map coerceOneStep).any isComposeStep then (out.map coerceOneStep) else (out.map coerceOneStep) ++ [composeStepNew]).filter (fun s => !hasComposeId s && s.getD "tool" .null != .null)) ++ ((if (out.map coerceOneStep).any isComposeStep then (out.map coerceOneStep) else (out.map coerceOneStep) ++ [composeStepNew]).filter (fun s => !hasComposeId s && s.getD "tool" .null == .null && s.getD "_coerced_unknown_tool" .null == .bool true))).map (sanitizeOneStep ids)
      ++ [(sanitizeOneStep ids comp).setKey "requires"
        (.arr (composeRequiresOf ((((if (out.map coerceOneStep).any isComposeStep then (out.map coerceOneStep) else (out.map coerceOneStep) ++ [composeStepNew]).filter (fun s => !hasComposeId s && s.getD "tool" .null != .null)) ++ ((if (out.map coerceOneStep).any isComposeStep then (out.map coerceOneStep) else (out.map coerceOneStep) ++ [composeStepNew]).filter (fun s => !hasComposeId s && s.getD "tool" .null == .null && s.getD "_coerced_unknown_tool" .null == .bool true))).map (sanitizeOneStep ids)
          ++ [sanitizeOneStep ids comp])))] :=
    JVal.arr.inj (hsteps_getD.symm.trans hpsteps)
  rcases hcompcase with ⟨cdv, crvc, hcomp⟩ | ⟨cdv, crvc, hcomp⟩
  · have hfC_nil : ((if (out.map coerceOneStep).any isComposeStep then (out.map coerceOneStep) else (out.map coerceOneStep) ++ [composeStepNew]).filter (fun s => !hasComposeId s && s.getD "tool" .null == .null && s.getD "_coerced_unknown_tool" .null == .bool true)) = [] := by
      cases hc : ((if (out.map coerceOneStep).any isComposeStep then (out.map coerceOneStep) else (out.map coerceOneStep) ++ [composeStepNew]).filter (fun s => !hasComposeId s && s.getD "tool" .null == .null && s.getD "_coerced_unknown_tool" .null == .bool true)) with
      | nil => rfl
      | cons s0 srest =>
          have hs0 : s0 ∈ ((if (out.map coerceOneStep).any isComposeStep then (out.map coerceOneStep) else (out.map coerceOneStep) ++ [composeStepNew]).filter (fun s => !hasComposeId s && s.getD "tool" .null == .null && s.getD "_coerced_unknown_tool" .null == .bool true)) := by
            rw [hc]
            exact List.mem_cons_self _ _
          obtain ⟨iv, dv, rv, hs0e⟩ := coercedFilter_elements (if (out.map coerceOneStep).any isComposeStep then (out.map coerceOneStep) else (out.map coerceOneStep) ++ [composeStepNew]) hsteps3shape s0 hs0
          exact absurd (by
              rw [hs0e, sanitizeOne_canonFlag]
              exact getD_canonFlag_mark _ _ _)
            (hnoflag (sanitizeOneStep ids s0) (by
              rw [hsteps_eq]
              exact List.mem_append.mpr (Or.inl (List.mem_map_of_mem _
                (List.mem_append.mpr (Or.inr hs0))))))
    rw [hfC_nil, List.append_nil] at hsteps_eq hidsdef hhash0
    rw [hcomp, sanitizeOne_canonNull, setKey_requires_canonNull] at hsteps_eq
    have hfTel := toolFilter_elements (if (out.map coerceOneStep).any isComposeStep then (out.map coerceOneStep) else (out.map coerceOneStep) ++ [composeStepNew]) hsteps3shape
    have hids_eq : idsOf steps = ids := by
      rw [hsteps_eq, hidsdef, hcomp]
      unfold idsOf
      rw [List.filterMap_append, List.filterMap_append, List.filterMap_map]
      refine congrArg₂ (fun a b => a ++ b) ?_ ?_
      · refine filterMap_congr_mem _ _ _ ?_
        intro x hx
        obtain ⟨iv, dv, t, af, rv, hxe, _, _⟩ := hfTel x hx
        rw [hxe]
        rfl
      · rfl
    refine ⟨((if (out.map coerceOneStep).any isComposeStep then (out.map coerceOneStep) else (out.map coerceOneStep) ++ [composeStepNew]).filter (fun s => !hasComposeId s && s.getD "tool" .null != .null)).map (sanitizeOneStep ids), cdv, _, hsteps_eq, ?_, ?_, ?_, hval⟩
    · intro s hs
      rcases List.mem_map.mp hs with ⟨x, hx, hxe⟩
      obtain ⟨iv, dv, t, af, rv, hxe2, hcont, hine⟩ := hfTel x hx
      refine ⟨iv, dv, t, af, rv.filter (reqKeep ids iv), ?_, hcont, hine, ?_⟩
      · rw [← hxe, hxe2, sanitizeOne_canonTool]
      · rw [hids_eq]
        exact filter_idem _ _
    · have hsingle : ∀ (d : JVal) (r : List JVal),
          [canonNull (.str "compose_answer") d r].filterMap (fun s =>
            if s.getD "id" .null != .str "compose_answer" && s.getD "tool" .null != .null
            then some (s.getD "id" .null) else none) = [] := fun _ _ => rfl
      rw [hsteps_eq]
      unfold composeRequiresOf
      rw [List.filterMap_append, List.filterMap_append, hsingle, hsingle]
    · rw [hids_eq, hidsdef]
      exact hhash0
  · exfalso
    have hmem : ((sanitizeOneStep ids comp).setKey "requires"
        (.arr (composeRequiresOf ((((if (out.map coerceOneStep).any isComposeStep then (out.map coerceOneStep) else (out.map coerceOneStep) ++ [composeStepNew]).filter (fun s => !hasComposeId s && s.getD "tool" .null != .null)) ++ ((if (out.map coerceOneStep).any isComposeStep then (out.map coerceOneStep) else (out.map coerceOneStep) ++ [composeStepNew]).filter (fun s => !hasComposeId s && s.getD "tool" .null == .null && s.getD "_coerced_unknown_tool" .null == .bool true))).map (sanitizeOneStep ids)
          ++ [sanitizeOneStep ids comp])))) ∈ steps := by
      rw [hsteps_eq]
      exact List.mem_append.mpr (Or.inr (List.mem_singleton.mpr rfl))
    apply hnoflag _ hmem
    rw [hcomp, sanitizeOne_canonFlag, setKey_requires_canonFlag]
    exact getD_canonFlag_mark _ _ _

/-- Mapping a function that fixes every member is the identity. -/
theorem map_id_of_mem {α : Type} (f : α → α) (l : List α)
    (h : ∀ a ∈ l, f a = a) : l.map f = l := by
  induction l with
  | nil => rfl
  | cons x rest ih =>
    rw [List.map_cons, h x (List.mem_cons_self x rest),
      ih (fun a ha => h a (List.mem_cons_of_mem x ha))]

/-- **C3 (amended).** On any normaliser output containing no
coerced-unknown step, running `_normalise_plan_json` again returns the
very same plan value: the pipeline is idempotent away from coerced
steps. -/
theorem C3_normalisation_idempotent_without_coercion (data p : JVal)
    (steps : List JVal)
    (hok : normalisePlanJson data = .ok p)
    (hsteps : p.get? "steps" = some (.arr steps))
    (hnoflag : ∀ s ∈ steps, s.getD "_coerced_unknown_tool" .null ≠ .bool true) :
    normalisePlanJson p = .ok p := by
  obtain ⟨pre, cdv, crv, hse, hpre, hcrv, hhash, hval⟩ :=
    normalise_output_canon data p steps hok hsteps hnoflag
  cases p with
  | null => exact absurd hsteps (by simp [JVal.get?])
  | bool b => exact absurd hsteps (by simp [JVal.get?])
  | num n => exact absurd hsteps (by simp [JVal.get?])
  | str t => exact absurd hsteps (by simp [JVal.get?])
  | arr xs => exact absurd hsteps (by simp [JVal.get?])
  | obj fields =>
  have hlk : fields.lookup "steps" = some (.arr steps) := hsteps
  have hS0 : (JVal.obj fields).getD "steps" (.arr []) = .arr steps := by
    unfold JVal.getD JVal.get?
    dsimp only
    rw [hlk]
    rfl
  set IDS := idsOf steps with hIDS
  -- per-element facts
  have hpreT : ∀ s ∈ pre, (!hasComposeId s && s.getD "tool" .null != .null) = true := by
    intro s hs
    obtain ⟨iv, dv, t, af, rv, hxe, _, hine, _⟩ := hpre s hs
    subst hxe
    rw [hasComposeId_canonTool, hine, getD_canonTool_tool]
    rfl
  have hpreC : ∀ s ∈ pre, (!hasComposeId s && s.getD "tool" .null == .null &&
      s.getD "_coerced_unknown_tool" .null == .bool true) = false := by
    intro s hs
    obtain ⟨iv, dv, t, af, rv, hxe, _, _, _⟩ := hpre s hs
    subst hxe
    rw [getD_canonTool_tool]
    have hb : (JVal.str t == JVal.null) = false := rfl
    rw [hb]
    simp
  have hpreH : ∀ s ∈ pre, hasComposeId s = false := by
    intro s hs
    obtain ⟨iv, dv, t, af, rv, hxe, _, hine, _⟩ := hpre s hs
    subst hxe
    rw [hasComposeId_canonTool]
    exact hine
  have hcT : (!hasComposeId (canonNull (.str "compose_answer") cdv crv) &&
      (canonNull (.str "compose_answer") cdv crv).getD "tool" .null != .null) = false := rfl
  have hcC : (!hasComposeId (canonNull (.str "compose_answer") cdv crv) &&
      (canonNull (.str "compose_answer") cdv crv).getD "tool" .null == .null &&
      (canonNull (.str "compose_answer") cdv crv).getD "_coerced_unknown_tool" .null
        == .bool true) = false := rfl
  have hcH : hasComposeId (canonNull (.str "compose_answer") cdv crv) = true := rfl
  -- every step is a dict fixed by ensureOneStep
  have hstepsdict : ∀ s ∈ steps, s.isDict = true ∧ ∀ i : Nat, ensureOneStep i s = s := by
    intro s hs
    rw [hse] at hs
    rcases List.mem_append.mp hs with h | h
    · obtain ⟨iv, dv, t, af, rv, hxe, _, _, _⟩ := hpre s h
      subst hxe
      exact ⟨rfl, fun i => ensureOneStep_canonTool i iv dv t af rv⟩
    · have hxe : s = canonNull (.str "compose_answer") cdv crv := List.mem_singleton.mp h
      subst hxe
      exact ⟨rfl, fun i => ensureOneStep_canonNull i _ cdv crv⟩
  -- stage 1: ensure
  have hE1 : ensureStepFields (JVal.obj fields) = .ok (JVal.obj fields) := by
    unfold ensureStepFields
    rw [hS0]
    have henum : (steps.enum.filterMap (fun is =>
        if is.2.isDict then some (ensureOneStep is.1 is.2) else none)) = steps := by
      have he : steps.enum = List.enumFrom 0 steps := rfl
      rw [he]
      exact enumFrom_ensure_fix 0 steps hstepsdict
    rw [show pyIter (.arr steps) = Except.ok steps from rfl, exceptBind_ok]
    rw [henum]
    dsimp only
    rw [setKey_self _ _ _ hsteps]
    rfl
  -- stage 2: coerce
  have hcoerceid : steps.map coerceOneStep = steps := by
    apply map_id_of_mem
    intro s hs
    rw [hse] at hs
    rcases List.mem_append.mp hs with h | h
    · obtain ⟨iv, dv, t, af, rv, hxe, hcont, _, _⟩ := hpre s h
      subst hxe
      exact coerceOneStep_canonTool iv dv t af rv hcont
    · have hxe : s = canonNull (.str "compose_answer") cdv crv := List.mem_singleton.mp h
      subst hxe
      exact coerceOneStep_canonNull _ cdv crv
  have hE2 : coerceUnknownToolsToNone (JVal.obj fields) = JVal.obj fields := by
    rw [coerce_steps _ _ hS0, hcoerceid]
    exact setKey_self _ _ _ hsteps
  -- stage 3: compose present
  have hany : steps.any isComposeStep = true := by
    rw [hse]
    exact List.any_eq_true.mpr ⟨canonNull (.str "compose_answer") cdv crv,
      List.mem_append.mpr (Or.inr (List.mem_singleton.mpr rfl)), rfl⟩
  have hE3 : ensureComposeAnswer (JVal.obj fields) = JVal.obj fields := by
    rw [ensureCompose_steps _ _ hS0, if_pos hany]
    exact setKey_self _ _ _ hsteps
  -- stage 4: prune
  have h_fT : steps.filter (fun s => !hasComposeId s && s.getD "tool" .null != .null)
      = pre := by
    rw [hse, List.filter_append, filter_all_true _ pre hpreT]
    rw [filter_all_false _ _ (fun a ha => by
      rw [List.mem_singleton.mp ha]
      exact hcT)]
    rw [List.append_nil]
  have h_fC : steps.filter (fun s => !hasComposeId s && s.getD "tool" .null == .null &&
      s.getD "_coerced_unknown_tool" .null == .bool true) = [] := by
    rw [hse, List.filter_append, filter_all_false _ pre hpreC]
    rw [filter_all_false _ _ (fun a ha => by
      rw [List.mem_singleton.mp ha]
      exact hcC)]
    rfl
  have h_find : steps.find? hasComposeId
      = some (canonNull (.str "compose_answer") cdv crv) := by
    rw [hse]
    exact find?_append_last _ pre _ hpreH hcH
  have hE4 : pruneIntermediateNonToolSteps (JVal.obj fields) = JVal.obj fields := by
    unfold pruneIntermediateNonToolSteps
    rw [hS0]
    dsimp only
    rw [h_fT, h_fC, h_find]
    dsimp only
    rw [nullify_canonNull, List.append_nil, ← hse]
    exact setKey_self _ _ _ hsteps
  -- stage 5: sanitize
  have hsingle : ∀ (d : JVal) (r : List JVal),
      [canonNull (.str "compose_answer") d r].filterMap (fun s =>
        if s.getD "id" .null != .str "compose_answer" && s.getD "tool" .null != .null
        then some (s.getD "id" .null) else none) = [] := fun _ _ => rfl
  have hCRind : ∀ (d : JVal) (r : List JVal),
      composeRequiresOf (pre ++ [canonNull (.str "compose_answer") d r])
        = pre.filterMap (fun s =>
          if s.getD "id" .null != .str "compose_answer" && s.getD "tool" .null != .null
          then some (s.getD "id" .null) else none) := by
    intro d r
    unfold composeRequiresOf
    rw [List.filterMap_append, hsingle, List.append_nil]
  have hmap1 : steps.map (sanitizeOneStep IDS)
      = pre ++ [canonNull (.str "compose_answer") cdv
          (crv.filter (reqKeep IDS (.str "compose_answer")))] := by
    rw [hse, List.map_append]
    refine congrArg₂ (fun a b => a ++ b) ?_ ?_
    · apply map_id_of_mem
      intro s hs
      obtain ⟨iv, dv, t, af, rv, hxe, _, _, hfix⟩ := hpre s hs
      subst hxe
      rw [sanitizeOne_canonTool, hfix]
    · rw [List.map_singleton, sanitizeOne_canonNull]
  have hany1 : (steps.map (sanitizeOneStep IDS)).any hasComposeId = true := by
    rw [hmap1]
    exact List.any_eq_true.mpr ⟨_,
      List.mem_append.mpr (Or.inr (List.mem_singleton.mpr rfl)), rfl⟩
  have hupd1 : updateFirst hasComposeId (fun c => c.setKey "requires"
        (.arr (composeRequiresOf (steps.map (sanitizeOneStep IDS)))))
        (steps.map (sanitizeOneStep IDS))
      = pre ++ [canonNull (.str "compose_answer") cdv crv] := by
    rw [hmap1]
    rw [updateFirst_append_last _ _ pre
      (canonNull (.str "compose_answer") cdv
        (crv.filter (reqKeep IDS (.str "compose_answer")))) hpreH rfl]
    rw [setKey_requires_canonNull]
    have hR2 : composeRequiresOf (pre ++ [canonNull (.str "compose_answer") cdv
        (crv.filter (reqKeep IDS (.str "compose_answer")))]) = crv := by
      rw [hCRind, hcrv, hse, hCRind]
    rw [hR2]
  have hE5 : sanitizeRequires (JVal.obj fields) = .ok (JVal.obj fields) := by
    unfold sanitizeRequires
    rw [hS0]
    dsimp only
    have hfold : steps.filterMap (fun s =>
        if s.isDict then some (s.getD "id" .null) else none) = IDS := by
      rw [hIDS]
      rfl
    rw [hfold]
    rw [if_pos hhash]
    rw [hany1]  -- rewrite the any-condition to true
    rw [if_pos rfl]
    rw [hupd1, ← hse]
    rw [setKey_self _ _ _ hsteps]
  -- assemble
  unfold normalisePlanJson
  dsimp only
  rw [if_pos (by rw [hlk]; rfl : (fields.lookup "steps").isSome = true)]
  rw [hE1, exceptBind_ok, hE2, hE3, hE4, hE5, exceptBind_ok, hval, exceptBind_ok]
  rfl

/-- Witness for the amended C3: renormalising the coercion-free output
`w2plan` returns it unchanged. -/
theorem C3_witness :
    normalisePlanJson w2data = .ok w2plan ∧
    normalisePlanJson w2plan = .ok w2plan :=
  ⟨by rfl, C3_normalisation_idempotent_without_coercion w2data w2plan
    [.obj [("id", .str "s1"), ("description", .str ""), ("tool", .str "get_time"),
           ("args", .obj []), ("requires", .arr [])],
     .obj [("id", .str "compose_answer"),
           ("description", .str "Reads all previous step results and produces one coherent answer."),
           ("tool", .null), ("args", .null),
           ("requires", .arr [.str "s1"])]]
    (by rfl) (by rfl) (by decide)⟩
